import Mathlib

/-!
The commit, branch and fork graph of dbhub.io.

A shallow embedding of the branch ledger (`DeleteLatestBranchCommit`, the
ledger part of `AddDatabase`, `IsCommitInBranchHistory`) and of the fork tree
renderer (`ForkTree`, `nextChild`) of `common/postgresql.go` and
`common/util.go`, with the data model of `common/types.go`.

Go maps decoded from JSONB columns are association lists looked up by key;
Go `int` values are `Int`; a Go function that can return an error, panic on
an index, or loop for ever returns an `Outcome`.
-/

set_option autoImplicit false

namespace DBHub

/-! ## Outcomes -/

/-- How a call of a Go function ends. -/
inductive Outcome (α : Type) where
  /-- Normal return, `err == nil`. -/
  | ok (a : α)
  /-- Normal return with a non-nil `error`. -/
  | error (msg : String)
  /-- A run-time panic (index or slice bound out of range). -/
  | panic
  /-- The loop budget ran out: the Go loop does not terminate. -/
  | diverge
  deriving Repr, DecidableEq

/-! ## Data model (`common/types.go`) -/

/-- Glyphs of the fork tree, `ForkType` with its `iota` order. -/
inductive ForkType where
  | SPACE
  | ROOT
  | STEM
  | BRANCH
  | END
  deriving Repr, DecidableEq

/-- A `time.Time` value, kept as its civil fields. -/
structure Time where
  year : Int
  month : Nat
  day : Nat
  hour : Nat
  minute : Nat
  second : Nat
  nanosecond : Nat
  zoneAbbr : String
  zoneOffset : Int
  deriving Repr, DecidableEq

/-- The zero `time.Time`. -/
def Time.zero : Time := ⟨1, 1, 1, 0, 0, 0, 0, "UTC", 0⟩

/-- Struct `BranchEntry`. -/
structure BranchEntry where
  Commit : String
  CommitCount : Int
  Description : String
  deriving Repr, DecidableEq

/-- Struct `DBTreeEntry`; `EntryType` is the string behind `DBTreeEntryType`. -/
structure DBTreeEntry where
  EntryType : String
  LastModified : Time
  LicenceSHA : String
  Name : String
  Sha256 : String
  Size : Int
  deriving Repr, DecidableEq

/-- Struct `DBTree`. -/
structure DBTree where
  ID : String
  Entries : List DBTreeEntry
  deriving Repr, DecidableEq

/-- Struct `CommitEntry`. -/
structure CommitEntry where
  AuthorEmail : String
  AuthorName : String
  CommitterEmail : String
  CommitterName : String
  ID : String
  Message : String
  OtherParents : List String
  Parent : String
  Timestamp : Time
  Tree : DBTree
  deriving Repr, DecidableEq

/-- The zero value of `CommitEntry` (`var c CommitEntry`). -/
def CommitEntry.zero : CommitEntry :=
  ⟨"", "", "", "", "", "", [], "", Time.zero, ⟨"", []⟩⟩

/-- The zero value of `BranchEntry`, what `branches[name]` yields for a missing key. -/
def BranchEntry.zero : BranchEntry := ⟨"", 0, ""⟩

/-- Struct `ForkEntry`; a `ForkedFrom` of `0` stands for SQL `NULL`. -/
structure ForkEntry where
  DBName : String
  Folder : String
  ForkedFrom : Int
  IconList : List ForkType
  ID : Int
  Owner : String
  Processed : Bool
  Public : Bool
  Deleted : Bool
  deriving Repr, DecidableEq

/-! ## Go maps -/

/-- A Go `map[string]V`, as decoded from a JSONB object. -/
abbrev GoMap (V : Type) := List (String × V)

namespace GoMap

variable {V : Type}

/-- Lookup `v, ok := m[k]`. -/
def get (m : GoMap V) (k : String) : Option V := List.lookup k m

/-- Assignment `m[k] = v`: replaces the value of an existing key, adds a missing one. -/
def set : GoMap V → String → V → GoMap V
  | [], k, v => [(k, v)]
  | (k', v') :: rest, k, v =>
    if k' = k then (k, v) :: rest else (k', v') :: set rest k v

/-- Builtin `delete(m, k)`. -/
def delete (m : GoMap V) (k : String) : GoMap V := m.filter (fun kv => kv.1 ≠ k)

/-- The keys of the map. -/
def keys (m : GoMap V) : List String := m.map Prod.fst

/-- Number of distinct keys, `count(*)` over `jsonb_object_keys`. -/
def keyCount (m : GoMap V) : Nat := (keys m).dedup.length

end GoMap

/-- The columns of one `sqlite_databases` row that the branch ledger reads and writes. -/
structure Database where
  branch_heads : GoMap BranchEntry
  commit_list : GoMap CommitEntry
  commits : Int
  deriving Repr, DecidableEq

/-! ## Rollback: `DeleteLatestBranchCommit` (`common/postgresql.go`) -/

/-- The store statements issued by `DeleteLatestBranchCommit`, in program order. -/
inductive StoreOp where
  | Begin
  | SelectBranchHeads
  | SelectCommitList
  | UpdateBranchHeads
  | UpdateCommitList
  | UpdateCommits
  | Commit
  deriving Repr, DecidableEq

/-- Inner loop of the walk over another branch: `for c.Parent != ""`, starting from
`c := CommitEntry{Parent: bEntry.Commit}`.  The argument is `c.Parent`; the answer is
whether `commitID` was met (`foundElsewhere = true; break`). -/
def walkBranch (commitList : GoMap CommitEntry) (commitID : String) :
    Nat → String → Outcome Bool
  | 0, _ => .diverge
  | fuel + 1, parent =>
    if parent = "" then .ok false
    else
      match commitList.get parent with
      | none => .error "Error when attempting to remove the commit"
      | some c =>
        if c.ID = commitID then .ok true else walkBranch commitList commitID fuel c.Parent

/-- Outer loop `for bName, bEntry := range branchList`, carrying `foundElsewhere`.
A walk that visits more commits than the commit list has keys has entered a cycle. -/
def walkOtherBranches (commitList : GoMap CommitEntry) (branchName commitID : String) :
    List (String × BranchEntry) → Bool → Outcome Bool
  | [], foundElsewhere => .ok foundElsewhere
  | (bName, bEntry) :: rest, foundElsewhere =>
    if bName = branchName then
      walkOtherBranches commitList branchName commitID rest foundElsewhere
    else
      match walkBranch commitList commitID (commitList.length + 1) bEntry.Commit with
      | .ok found =>
        walkOtherBranches commitList branchName commitID rest (foundElsewhere || found)
      | .error msg => .error msg
      | .panic => .panic
      | .diverge => .diverge

/-- Body of `DeleteLatestBranchCommit` between `pdb.Begin()` and `tx.Commit()`: the
statements run against the transaction's view of the row, `fails` tells which store
statements return an error.  The result is the view to be committed. -/
def deleteLatestBranchCommitTx (fails : StoreOp → Bool) (db : Database)
    (branchName : String) : Outcome Database :=
  if fails .SelectBranchHeads then .error "store: branch_heads query failed" else
  let branchList := db.branch_heads
  match branchList.get branchName with
  | none => .error "Database error when attempting to delete the commit"
  | some branch =>
    let commitID := branch.Commit
    if fails .SelectCommitList then .error "store: commit_list query failed" else
    let commitList := db.commit_list
    match commitList.get commitID with
    | none => .error "Error when retrieving commit information for the database"
    | some headCommit =>
      if headCommit.Parent = "" then
        .error "Removing the only remaining commit for a branch isn't allowed"
      else
        match walkOtherBranches commitList branchName commitID branchList false with
        | .error msg => .error msg
        | .panic => .panic
        | .diverge => .diverge
        | .ok foundElsewhere =>
          -- branch.Commit = headCommit.Parent; branchList[branchName] = branch
          let branch1 : BranchEntry := { branch with Commit := headCommit.Parent }
          let branchList1 := branchList.set branchName branch1
          if fails .UpdateBranchHeads then .error "store: branch_heads update failed" else
          let db1 : Database := { db with branch_heads := branchList1 }
          -- delete(commitList, commitID), stored only if !foundElsewhere
          let commitList1 := commitList.delete commitID
          if !foundElsewhere && fails .UpdateCommitList then
            .error "store: commit_list update failed"
          else
          let db2 : Database :=
            if !foundElsewhere then { db1 with commit_list := commitList1 } else db1
          -- UPDATE ... SET commits = commit_count.total FROM the_db, commit_count
          -- WHERE db.db_id = the_db.db_id: the_db has one row per key of the commit_list as
          -- read inside the transaction, so with no key the UPDATE changes no row (which is
          -- logged only) and commits keeps its value
          if fails .UpdateCommits then .error "store: commit count update failed" else
          .ok (if db2.commit_list.keyCount = 0 then db2
            else { db2 with commits := (db2.commit_list.keyCount : Int) })

/-- Function `DeleteLatestBranchCommit`: the stored row after the call, and how the call
ended.  The row changes only when `tx.Commit()` succeeds; every other exit runs the
deferred `tx.Rollback()`. -/
def DeleteLatestBranchCommit (fails : StoreOp → Bool) (db : Database)
    (branchName : String) : Database × Outcome Unit :=
  if fails .Begin then (db, .error "store: begin failed") else
  match deleteLatestBranchCommitTx fails db branchName with
  | .ok db' =>
    if fails .Commit then (db, .error "store: commit failed") else (db', .ok ())
  | .error msg => (db, .error msg)
  | .panic => (db, .panic)
  | .diverge => (db, .diverge)

/-- A store on which every statement succeeds. -/
def noFault : StoreOp → Bool := fun _ => false

/-! ## Push: the branch ledger part of `AddDatabase` (`common/util.go`) -/

/-- Library functions called by the code that are not part of the repository. -/
structure GoLib where
  /-- Hex of `sha256.Sum256`, `hex.EncodeToString(s[:])`. -/
  sha256Hex : String → String
  /-- Method `t.Format(time.UnixDate)`. -/
  formatUnixDate : Time → String
  /-- Method `t.Format(time.RFC3339)`. -/
  formatRFC3339 : Time → String

/-- The bytes written to the buffer by `CreateCommitID` before hashing. -/
def commitBytes (lib : GoLib) (c : CommitEntry) : String :=
  "tree " ++ c.Tree.ID ++ "\n"
    ++ (if c.Parent ≠ "" then "parent " ++ c.Parent ++ "\n" else "")
    ++ "author " ++ c.AuthorName ++ " <" ++ c.AuthorEmail ++ "> "
    ++ lib.formatUnixDate c.Timestamp ++ "\n"
    ++ (if c.CommitterEmail ≠ "" then
          "committer " ++ c.CommitterName ++ " <" ++ c.CommitterEmail ++ "> "
            ++ lib.formatUnixDate c.Timestamp ++ "\n"
        else "")
    ++ "\n" ++ c.Message
    ++ String.singleton (Char.ofNat 0)

/-- Function `CreateCommitID`. -/
def CreateCommitID (lib : GoLib) (c : CommitEntry) : String :=
  lib.sha256Hex (commitBytes lib c)

/-- The commit counting loop of `AddDatabase`:
`for c2.Parent != "" { commitCount++; c2, ok = commitList[c2.Parent]; if !ok { return err } }`.
The arguments are `c2.Parent` and `commitCount`. -/
def countCommits (commitList : GoMap CommitEntry) : Nat → String → Int → Outcome Int
  | 0, _, _ => .diverge
  | fuel + 1, parent, commitCount =>
    if parent = "" then .ok commitCount
    else
      match commitList.get parent with
      | none => .error "Error when counting commits in branch"
      | some c2 => countCommits commitList fuel c2.Parent (commitCount + 1)

/-- The branch ledger part of `AddDatabase`, from "Construct a commit structure" to the
update of `branches[branchName]`: `db` is the stored row when the database exists
(`branches` and `commitList` are read from it), `dn`, `em`, `commitMsg`, `now` and `t` are
the author, message, `time.Now()` and tree computed before.  The result is the commit
and the branch map handed to `StoreDatabase`. -/
def AddDatabase (lib : GoLib) (db : Option Database) (createBranch : Bool)
    (branchName commitID : String) (dn em commitMsg : String) (now : Time) (t : DBTree) :
    Outcome (CommitEntry × GoMap BranchEntry) :=
  let branches : GoMap BranchEntry :=
    match db with
    | some d => d.branch_heads
    | none => []
  let c : CommitEntry :=
    { CommitEntry.zero with
      AuthorName := dn, AuthorEmail := em, Message := commitMsg, Timestamp := now, Tree := t }
  -- If the database already exists, determine the commit ID to use as the parent
  let parent : Outcome String :=
    match db with
    | none => .ok c.Parent
    | some _ =>
      match branches.get branchName with
      | some b => if commitID ≠ "" then .ok commitID else .ok b.Commit
      | none =>
        if !createBranch then .error "Error when looking up branch details" else .ok commitID
  match parent with
  | .error msg => .error msg
  | .panic => .panic
  | .diverge => .diverge
  | .ok p =>
    let c1 : CommitEntry := { c with Parent := p }
    let c2 : CommitEntry := { c1 with ID := CreateCommitID lib c1 }
    -- If the database already exists, count the number of commits in the new branch
    let count : Outcome Int :=
      match db with
      | none => .ok 1
      | some d => countCommits d.commit_list (d.commit_list.length + 1) c2.Parent 1
    match count with
    | .error msg => .error msg
    | .panic => .panic
    | .diverge => .diverge
    | .ok commitCount =>
      let b : BranchEntry := (branches.get branchName).getD BranchEntry.zero
      let b1 : BranchEntry := { b with Commit := c2.ID, CommitCount := commitCount }
      .ok (c2, branches.set branchName b1)

/-! ## History walker: `IsCommitInBranchHistory` (`common/util.go`) -/

/-- Loop `for c.Parent != ""` of `IsCommitInBranchHistory`; the argument is `c`. -/
def historyLoop (commitList : GoMap CommitEntry) (commit : String) :
    Nat → CommitEntry → Outcome Bool
  | 0, _ => .diverge
  | fuel + 1, c =>
    if c.Parent = "" then .ok false
    else
      match commitList.get c.Parent with
      | none => .error "Broken commit history encountered when looking up commit details"
      | some c' =>
        if c'.ID = commit then .ok true else historyLoop commitList commit fuel c'

/-- Function `IsCommitInBranchHistory`, on the commit list and branch heads it fetched. -/
def IsCommitInBranchHistory (db : Database) (branchName commit : String) : Outcome Bool :=
  match db.branch_heads.get branchName with
  | none => .error "Branch not found in the database"
  | some head =>
    match db.commit_list.get head.Commit with
    | none => .error "Head commit not found in database commit list.  This shouldn't happen"
    | some c => historyLoop db.commit_list commit (db.commit_list.length + 1) c


/-! ## Specification vocabulary for histories -/

/-- `History cl p ks`: following `Parent` from the commit ID `p` through the commit list
`cl` meets no missing commit and ends at a commit with empty `Parent`; `ks` lists the
IDs visited, from `p` to the root (`ks = []` when `p` is empty). -/
inductive History (cl : GoMap CommitEntry) : String → List String → Prop
  | root : History cl "" []
  | step {p : String} {c : CommitEntry} {ks : List String} :
      p ≠ "" → cl.get p = some c → History cl c.Parent ks → History cl p (p :: ks)

/-- Every key of the commit list is the ID of the commit stored under it. -/
def KeysAreIDs (cl : GoMap CommitEntry) : Prop := ∀ kv ∈ cl, kv.2.ID = kv.1

/-- Every branch head has an unbroken, finite (hence acyclic) history. -/
def HeadsHaveHistory (db : Database) : Prop :=
  ∀ be ∈ db.branch_heads, ∃ ks, History db.commit_list be.2.Commit ks

/-! ## Example states -/

/-- A commit of which only `ID` and `Parent` are set. -/
def commitOf (id parent : String) : CommitEntry :=
  { CommitEntry.zero with ID := id, Parent := parent }

/-- The example of the specification: commits C1 <- C2 <- C3 on branch "master", whose
stored `CommitCount` is 3. -/
def exampleDB : Database :=
  { branch_heads := [("master", ⟨"C3", 3, ""⟩)],
    commit_list := [("C1", commitOf "C1" ""), ("C2", commitOf "C2" "C1"),
      ("C3", commitOf "C3" "C2")],
    commits := 3 }

/-- Two branches with shared ancestry: "master" at C3 and "dev" at C3 too. -/
def exampleShared : Database :=
  { branch_heads := [("master", ⟨"C3", 3, ""⟩), ("dev", ⟨"C3", 3, "work"⟩)],
    commit_list := [("C1", commitOf "C1" ""), ("C2", commitOf "C2" "C1"),
      ("C3", commitOf "C3" "C2")],
    commits := 3 }

/-- A database with the single commit C1 on "master". -/
def exampleRoot : Database :=
  { branch_heads := [("master", ⟨"C1", 1, ""⟩)],
    commit_list := [("C1", commitOf "C1" "")],
    commits := 1 }

/-- A library instance for the examples: the hash is the identity and dates print as the
empty string. -/
def exampleLib : GoLib := ⟨fun s => s, fun _ => "", fun _ => ""⟩

/-! ## Fork tree renderer: `nextChild` (`common/util.go`), `ForkTree` (`common/postgresql.go`) -/

/-- What `nextChild` does to the entry `rawList[j]` it has found, before appending it to the
output list: `iconDepth` times `SPACE` and one `END` are appended to its icon list, and
the name of a private database (for another viewer than its owner) or of a deleted one is
replaced by a placeholder. -/
def childEntry (loggedInUser : String) (iconDepth : Int) (e : ForkEntry) : ForkEntry :=
  let e1 : ForkEntry :=
    { e with IconList := e.IconList ++ List.replicate iconDepth.toNat ForkType.SPACE
        ++ [ForkType.END] }
  let e2 : ForkEntry :=
    if !e1.Public && (e1.Owner != loggedInUser) then
      { e1 with DBName := "private database" }
    else e1
  if e2.Deleted then { e2 with DBName := "deleted database" } else e2

/-- The scan `for j := 1; j < numResults; j++` of `nextChild`, over `rawList[j:]`.  At the
first unprocessed entry forked from `parentID` it returns the entry as appended to the
output list, together with the raw list in which that entry is marked as processed. -/
def scanChild (loggedInUser : String) (parentID : Int) (iconDepth : Int) :
    List ForkEntry → Option (ForkEntry × List ForkEntry)
  | [] => none
  | e :: rest =>
    if e.Processed = false ∧ e.ForkedFrom = parentID then
      let child := childEntry loggedInUser iconDepth e
      some (child, { child with Processed := true } :: rest)
    else
      match scanChild loggedInUser parentID iconDepth rest with
      | none => none
      | some (child, rest') => some (child, e :: rest')

/-- Function `nextChild`: the raw list (updated in place through the pointer), the output
list, the fork trail and the `forkFound` flag.  Reading the last element of an empty
fork trail panics. -/
def nextChild (loggedInUser : String) (rawList outputList : List ForkEntry)
    (forkTrail : List Int) (iconDepth : Int) :
    Outcome (List ForkEntry × List ForkEntry × List Int × Bool) :=
  match forkTrail.getLast? with
  | none => .panic
  | some parentID =>
    match rawList with
    | [] => .ok (rawList, outputList, forkTrail, false)
    | r0 :: rest =>
      match scanChild loggedInUser parentID iconDepth rest with
      | some (child, rest') =>
        .ok (r0 :: rest', outputList ++ [child], forkTrail ++ [child.ID], true)
      | none => .ok (rawList, outputList, forkTrail, false)

/-- The write `e.IconList[col] = g`; `none` is the index out of range panic. -/
def setIcon (e : ForkEntry) (col : Int) (g : ForkType) : Option ForkEntry :=
  if 0 ≤ col ∧ col.toNat < e.IconList.length then
    some { e with IconList := e.IconList.set col.toNat g }
  else none

/-- The read `e.IconList[col]`; `none` is the index out of range panic. -/
def getIcon (e : ForkEntry) (col : Int) : Option ForkType :=
  if 0 ≤ col then e.IconList[col.toNat]? else none

/-- The loop `for l := numOutput - 1; l > i; l--` of `ForkTree`, which turns `SPACE` into
`STEM` at column `col = iconDepth - 1` of `outputList[l-1]`.  The `Nat` argument is `l`. -/
def stemLoop (col : Int) (i : Nat) : Nat → List ForkEntry → Outcome (List ForkEntry)
  | 0, outputList => .ok outputList
  | l + 1, outputList =>
    if l + 1 > i then
      match outputList[l]? with
      | none => .panic
      | some thisEntry =>
        match getIcon thisEntry col with
        | none => .panic
        | some g =>
          if g = ForkType.SPACE then
            match setIcon thisEntry col ForkType.STEM with
            | none => .panic
            | some thisEntry' => stemLoop col i l (outputList.set l thisEntry')
          else stemLoop col i l outputList
    else .ok outputList

/-- The loop `for i := numOutput; i > 0 && siblingFound == false; i--` of `ForkTree`.  The
`Nat` argument is `i`; at the first sibling met (same `ForkedFrom`, other `ID`) its glyph
at `col = iconDepth - 1` becomes `BRANCH`, the stems are drawn and the loop ends. -/
def siblingLoop (col : Int) (myID myForkedFrom : Int) (numOutput : Nat) :
    Nat → List ForkEntry → Outcome (List ForkEntry)
  | 0, outputList => .ok outputList
  | i + 1, outputList =>
    match outputList[i]? with
    | none => .panic
    | some sibling =>
      if sibling.ForkedFrom = myForkedFrom ∧ sibling.ID ≠ myID then
        match setIcon sibling col ForkType.BRANCH with
        | none => .panic
        | some sibling' => stemLoop col (i + 1) (numOutput - 1) (outputList.set i sibling')
      else siblingLoop col myID myForkedFrom numOutput i outputList

/-- The variables of the main loop of `ForkTree`. -/
structure ForkState where
  dbList : List ForkEntry
  outputList : List ForkEntry
  forkTrail : List Int
  iconDepth : Int
  numUnprocessedEntries : Nat
  deriving Repr, DecidableEq

/-- One iteration of `for numUnprocessedEntries > 0` in `ForkTree`. -/
def forkStep (loggedInUser : String) (st : ForkState) : Outcome ForkState :=
  match nextChild loggedInUser st.dbList st.outputList st.forkTrail st.iconDepth with
  | .error msg => .error msg
  | .panic => .panic
  | .diverge => .diverge
  | .ok (dbList, outputList, forkTrail, true) =>
    let numUnprocessedEntries := st.numUnprocessedEntries - 1
    let iconDepth := st.iconDepth + 1
    let numOutput := outputList.length
    match outputList[numOutput - 1]? with
    | none => .panic
    | some me =>
      match siblingLoop (iconDepth - 1) me.ID me.ForkedFrom numOutput numOutput outputList with
      | .ok outputList' =>
        .ok ⟨dbList, outputList', forkTrail, iconDepth, numUnprocessedEntries⟩
      | .error msg => .error msg
      | .panic => .panic
      | .diverge => .diverge
  | .ok (dbList, outputList, forkTrail, false) =>
    -- forkTrail = forkTrail[:len(forkTrail)-1]; iconDepth--
    .ok ⟨dbList, outputList, forkTrail.dropLast, st.iconDepth - 1, st.numUnprocessedEntries⟩

/-- The loop `for numUnprocessedEntries > 0` of `ForkTree`.  Every iteration lowers
`2 * numUnprocessedEntries + len(forkTrail)`, so the budget given by `ForkTree` is never
used up. -/
def forkLoop (loggedInUser : String) : Nat → ForkState → Outcome (List ForkEntry)
  | 0, _ => .diverge
  | fuel + 1, st =>
    if st.numUnprocessedEntries > 0 then
      match forkStep loggedInUser st with
      | .ok st' => forkLoop loggedInUser fuel st'
      | .error msg => .error msg
      | .panic => .panic
      | .diverge => .diverge
    else .ok st.outputList

/-- What `ForkTree` does to the root entry `dbList[0]` before appending it to the output
list: `ROOT` is appended to its icon list, and the name of a private root database is
replaced by a placeholder. -/
def rootEntry (root : ForkEntry) : ForkEntry :=
  let root1 : ForkEntry := { root with IconList := root.IconList ++ [ForkType.ROOT] }
  if !root1.Public then { root1 with DBName := "private database" } else root1

/-- Function `ForkTree`, on the rows `dbList` scanned from the query result. -/
def ForkTree (loggedInUser : String) (dbList : List ForkEntry) : Outcome (List ForkEntry) :=
  match dbList with
  | [] => .error "Empty list returned instead of fork tree.  This shouldn't happen"
  | root :: rest =>
    if root.ForkedFrom ≠ 0 then
      .error "Incorrect root entry data in retrieved database list"
    else
      forkLoop loggedInUser (2 * dbList.length + 1)
        ⟨{ rootEntry root with Processed := true } :: rest, [rootEntry root],
          [(rootEntry root).ID], 1, dbList.length - 1⟩

/-- A row as scanned from the query: only owner, folder, name, public flag, ID and
`forked_from` are set. -/
def forkRow (owner dbName : String) (pub : Bool) (id forkedFrom : Int) : ForkEntry :=
  { DBName := dbName, Folder := "/", ForkedFrom := forkedFrom, IconList := [], ID := id,
    Owner := owner, Processed := false, Public := pub, Deleted := false }

/-- The fork set of the specification: root R, A forked from R, C forked from A, B forked
from R. -/
def exampleForks : List ForkEntry :=
  [forkRow "r" "R" true 1 0, forkRow "a" "A" true 2 1, forkRow "c" "C" true 3 2,
   forkRow "b" "B" true 4 1]

/-- A fork set with a broken reference: X is forked from a database that is not in the set. -/
def exampleBroken : List ForkEntry :=
  [forkRow "r" "R" true 1 0, forkRow "x" "X" true 2 99]

/-! ## Specification vocabulary for fork sets -/

/-- `HopDepth L id d`: the entry of the fork set `L` whose ID is `id` is `d` `ForkedFrom`
hops away from the root, the first entry of `L`. -/
inductive HopDepth (L : List ForkEntry) : Int → Nat → Prop
  | root {r : ForkEntry} {rest : List ForkEntry} : L = r :: rest → HopDepth L r.ID 0
  | child {e : ForkEntry} {d : Nat} :
      e ∈ L → HopDepth L e.ForkedFrom d → HopDepth L e.ID (d + 1)

/-- `AncestorOrSelf L a x`: the entry with ID `a` is the entry with ID `x` or is reached
from it by following `ForkedFrom` through entries of `L`. -/
inductive AncestorOrSelf (L : List ForkEntry) : Int → Int → Prop
  | self {e : ForkEntry} : e ∈ L → AncestorOrSelf L e.ID e.ID
  | up {e : ForkEntry} {a : Int} :
      e ∈ L → AncestorOrSelf L a e.ForkedFrom → AncestorOrSelf L a e.ID

/-- A well-formed fork set, as scanned from the query result: the first entry is the root
(`ForkedFrom` null), the IDs are distinct and non-zero, every entry is reachable from the
root through `ForkedFrom`, and the rows are fresh (empty icon list, not processed). -/
structure WellFormedForkSet (L : List ForkEntry) : Prop where
  root_first : ∃ r rest, L = r :: rest ∧ r.ForkedFrom = 0
  ids_nodup : (L.map (fun e => e.ID)).Nodup
  ids_nonzero : ∀ e ∈ L, e.ID ≠ 0
  reachable : ∀ e ∈ L, ∃ d, HopDepth L e.ID d
  fresh : ∀ e ∈ L, e.IconList = [] ∧ e.Processed = false

/-- `LaterSibling out k`: some entry after position `k` of the output has the same
`ForkedFrom` as the entry at position `k`. -/
def LaterSibling (out : List ForkEntry) (k : Nat) : Prop :=
  ∃ j x y, k < j ∧ out[k]? = some x ∧ out[j]? = some y ∧ y.ForkedFrom = x.ForkedFrom

/-! ## Invariants of the main loop of `ForkTree` -/

/-- What the invariants need of an output entry: its ID, its parent and the length of its
icon list. -/
structure Shape where
  id : Int
  ff : Int
  len : Nat
  deriving Repr, DecidableEq

/-- The shape of an entry. -/
def shapeOf (x : ForkEntry) : Shape := ⟨x.ID, x.ForkedFrom, x.IconList.length⟩

/-- The ID and parent of a row. -/
def skel (e : ForkEntry) : Int × Int := (e.ID, e.ForkedFrom)

/-- The raw list during the loop, against the initial fork set `L`, the fork trail, the
shapes `S` of the output list and the counter of unprocessed entries. -/
structure RawOK (L raw : List ForkEntry) (trail : List Int) (S : List Shape) (num : Nat) :
    Prop where
  skel_eq : raw.map skel = L.map skel
  count : S.length + num = L.length
  root_done : ∃ r rest, raw = r :: rest ∧ r.Processed = true
  num_eq : num = raw.tail.countP (fun e => !e.Processed)
  fresh : ∀ e ∈ raw.tail, e.Processed = false → e.IconList = []
  out_done : ∀ s ∈ S, ∃ e ∈ raw, e.Processed = true ∧ e.ID = s.id ∧ e.ForkedFrom = s.ff
  cover : ∀ e ∈ raw.tail, e.Processed = false →
    e.ForkedFrom ∈ trail ∨ ∃ p ∈ raw.tail, p.Processed = false ∧ p.ID = e.ForkedFrom

/-- The shapes of the output list form the beginning of a pre-order walk whose current
branch is the fork trail: the entry at index `t` of the trail has depth `t` and is followed
by deeper entries only, and every entry but the first comes after its parent, one level
below it, with nothing shallower in between. -/
structure ShapeOK (L : List ForkEntry) (trail : List Int) (S : List Shape) : Prop where
  first : ∀ s : Shape, S[0]? = some s → s.ff = 0 ∧ s.len = 1
  nodup : (S.map Shape.id).Nodup
  hop : ∀ s ∈ S, ∃ d, s.len = d + 1 ∧ HopDepth L s.id d
  trail_pos : ∀ t id, trail[t]? = some id →
    ∃ (p : Nat) (s : Shape), S[p]? = some s ∧ s.id = id ∧ s.len = t + 1 ∧
      ∀ (m : Nat) (u : Shape), p < m → S[m]? = some u → t + 1 < u.len
  parent_pos : ∀ (i : Nat) (s : Shape), 0 < i → S[i]? = some s →
    ∃ (q : Nat) (y : Shape), q < i ∧ S[q]? = some y ∧ y.id = s.ff ∧ y.len + 1 = s.len ∧
      ∀ (m : Nat) (u : Shape), q < m → m < i → S[m]? = some u → s.len ≤ u.len

/-- `NextAt S i c`: in the list of shapes, the first entry after position `i` whose depth is
at most `c` exists and has depth exactly `c` (a vertical line of column `c` passes row `i`). -/
def NextAt (S : List Shape) (i c : Nat) : Prop :=
  ∃ (j : Nat) (s : Shape), i < j ∧ S[j]? = some s ∧ s.len = c + 1 ∧
    ∀ (m : Nat) (u : Shape), i < m → m < j → S[m]? = some u → c + 1 < u.len

/-- The glyphs of the output list: the first entry shows `ROOT`; every other entry has
`SPACE` in column 0, in a column `c` between 1 and its depth a line exactly when `NextAt`
holds (`STEM` against `SPACE` before the last column, `BRANCH` against `END` in the last). -/
structure GlyphOK (out : List ForkEntry) : Prop where
  root_icon : ∀ x, out[0]? = some x → x.IconList = [ForkType.ROOT]
  col0 : ∀ i x, 0 < i → out[i]? = some x → 1 < x.IconList.length →
    x.IconList[0]? = some ForkType.SPACE
  inner : ∀ i x c, 0 < i → out[i]? = some x → 0 < c → c + 1 < x.IconList.length →
    (NextAt (out.map shapeOf) i c → x.IconList[c]? = some ForkType.STEM) ∧
    (¬ NextAt (out.map shapeOf) i c → x.IconList[c]? = some ForkType.SPACE)
  last : ∀ i x c, 0 < i → out[i]? = some x → c + 1 = x.IconList.length →
    (NextAt (out.map shapeOf) i c → x.IconList[c]? = some ForkType.BRANCH) ∧
    (¬ NextAt (out.map shapeOf) i c → x.IconList[c]? = some ForkType.END)

/-- The invariant of the loop `for numUnprocessedEntries > 0` of `ForkTree`. -/
structure ForkInv (L : List ForkEntry) (st : ForkState) : Prop where
  depth_eq : st.iconDepth = (st.forkTrail.length : Int)
  raw : RawOK L st.dbList st.forkTrail (st.outputList.map shapeOf) st.numUnprocessedEntries
  shape : ShapeOK L st.forkTrail (st.outputList.map shapeOf)
  glyph : GlyphOK st.outputList

/-- The stem rewrite of one entry: `SPACE` at column `c` becomes `STEM`. -/
def stemAt (c : Nat) (e : ForkEntry) : ForkEntry :=
  if e.IconList[c]? = some ForkType.SPACE then
    { e with IconList := e.IconList.set c ForkType.STEM }
  else e

/-- The sibling rewrite of one entry: column `c` becomes `BRANCH`. -/
def branchAt (c : Nat) (e : ForkEntry) : ForkEntry :=
  { e with IconList := e.IconList.set c ForkType.BRANCH }

/-- The effect of the sibling and stem rewrite on the entry at position `q` of an output
list whose new child sits at position `N`, when the nearest earlier sibling sits at
position `p`: column `K` of the sibling becomes `BRANCH`, and `SPACE` becomes `STEM` in
column `K` of the entries between the sibling and the new child. -/
def rewriteAt (K p N q : Nat) (e : ForkEntry) : ForkEntry :=
  if q = p then branchAt K e else if p < q ∧ q < N then stemAt K e else e

/-- What the loop of `ForkTree` keeps true on any fork set whose first entry is the root,
broken references included: the IDs on the fork trail and the IDs of the processed
entries are reachable from the root. -/
structure ReachInv (L raw : List ForkEntry) (trail : List Int) (num : Nat) : Prop where
  skel_eq : raw.map skel = L.map skel
  nonempty : raw ≠ []
  num_eq : num = raw.tail.countP (fun e => !e.Processed)
  trail_reach : ∀ id ∈ trail, ∃ d, HopDepth L id d
  done_reach : ∀ e ∈ raw.tail, e.Processed = true → ∃ d, HopDepth L e.ID d

/-- A fork set with two root rows: both have `ForkedFrom` null. -/
def exampleTwoRoots : List ForkEntry :=
  [forkRow "r" "R" true 1 0, forkRow "s" "S" true 2 0]

/-- A fork set without a root row: its only row is forked from a database outside it. -/
def exampleNoRoot : List ForkEntry :=
  [forkRow "a" "A" true 2 1]

/-- A database whose branch "master" has head C2, a commit missing from the commit list. -/
def exampleHeadMissing : Database :=
  { branch_heads := [("master", ⟨"C2", 2, ""⟩)],
    commit_list := [("C1", commitOf "C1" "")],
    commits := 1 }

/-- A store on which only the final `tx.Commit()` fails. -/
def commitFault : StoreOp → Bool := fun op => decide (op = StoreOp.Commit)

/-- `DanglingFrom cl p ks`: following `Parent` from the commit ID `p` through the commit
list `cl` visits the commits with IDs `ks` and then meets a non-empty `Parent` that is no
key of `cl` (at once, with `ks = []`, when `p` itself is missing). -/
inductive DanglingFrom (cl : GoMap CommitEntry) : String → List String → Prop
  | stop {p : String} : p ≠ "" → cl.get p = none → DanglingFrom cl p []
  | step {p : String} {c : CommitEntry} {ks : List String} :
      p ≠ "" → cl.get p = some c → DanglingFrom cl c.Parent ks → DanglingFrom cl p (p :: ks)

/-- The `Parent` relation of the commit list is acyclic: some rank goes down along every
`Parent` link. -/
def Acyclic (cl : GoMap CommitEntry) : Prop :=
  ∃ rank : String → Nat, ∀ k c, cl.get k = some c → c.Parent ≠ "" → rank c.Parent < rank k

/-- A database whose branch "master" has head C2, whose `Parent` C1 is missing from the
commit list. -/
def exampleDangling : Database :=
  { branch_heads := [("master", ⟨"C2", 2, ""⟩)],
    commit_list := [("C2", commitOf "C2" "C1")],
    commits := 1 }

/-! ## Tree identifiers and Go's time formats -/

/-- The NUL byte written by `b.WriteByte(0)`. -/
def nul : String := String.singleton (Char.ofNat 0)

/-- The bytes written by one iteration of the loop of `CreateDBTreeID`: entry type,
licence sha256, file sha256, file name and last modified time, each followed by a NUL byte,
then the decimal size and a newline. -/
def treeEntryBytes (lib : GoLib) (j : DBTreeEntry) : String :=
  j.EntryType ++ nul ++ j.LicenceSHA ++ nul ++ j.Sha256 ++ nul ++ j.Name ++ nul
    ++ lib.formatRFC3339 j.LastModified ++ nul ++ (toString j.Size ++ "\n")

/-- The bytes written to the buffer by `CreateDBTreeID`: one record per entry, in list
order. -/
def treeBytes (lib : GoLib) : List DBTreeEntry → String
  | [] => ""
  | j :: rest => treeEntryBytes lib j ++ treeBytes lib rest

/-- Function `CreateDBTreeID`. -/
def CreateDBTreeID (lib : GoLib) (entries : List DBTreeEntry) : String :=
  lib.sha256Hex (treeBytes lib entries)

/-- Number of NUL bytes in a string. -/
def nulCount (s : String) : Nat := s.data.count (Char.ofNat 0)

/-- The serialization of a commit in the words of the specification: the parts in their
fixed order, the optional `parent` and `committer` lines present only when `Parent`,
respectively `CommitterEmail`, is not empty. -/
def canonicalCommit (lib : GoLib) (c : CommitEntry) : String :=
  String.join
    (["tree " ++ c.Tree.ID ++ "\n"]
      ++ (if c.Parent = "" then [] else ["parent " ++ c.Parent ++ "\n"])
      ++ ["author " ++ c.AuthorName ++ " <" ++ c.AuthorEmail ++ "> "
            ++ lib.formatUnixDate c.Timestamp ++ "\n"]
      ++ (if c.CommitterEmail = "" then []
          else ["committer " ++ c.CommitterName ++ " <" ++ c.CommitterEmail ++ "> "
            ++ lib.formatUnixDate c.Timestamp ++ "\n"])
      ++ ["\n", c.Message, nul])

/-- Decimal of width 2, padded with a zero (`01`, `15`). -/
def pad2 (n : Nat) : String := if n < 10 then "0" ++ toString n else toString n

/-- Decimal of width 2, padded with a space (`_2`). -/
def padSpace2 (n : Nat) : String := if n < 10 then " " ++ toString n else toString n

/-- The year, padded with zeros to four digits (`2006`). -/
def padYear (y : Int) : String :=
  let digits := toString y.natAbs
  let padded := String.mk (List.replicate (4 - digits.length) '0') ++ digits
  if y < 0 then "-" ++ padded else padded

/-- Month abbreviation (`Jan`). -/
def monthAbbr : Nat → String
  | 1 => "Jan" | 2 => "Feb" | 3 => "Mar" | 4 => "Apr" | 5 => "May" | 6 => "Jun"
  | 7 => "Jul" | 8 => "Aug" | 9 => "Sep" | 10 => "Oct" | 11 => "Nov" | 12 => "Dec"
  | _ => "%!Month"

/-- Days from 1970-01-01 to the civil date, in the proleptic Gregorian calendar. -/
def daysFromCivil (year : Int) (month day : Nat) : Int :=
  let y : Int := if month ≤ 2 then year - 1 else year
  let era : Int := y / 400
  let yoe : Int := y - era * 400
  let mp : Int := ((month + 9) % 12 : Nat)
  let doy : Int := (153 * mp + 2) / 5 + (day : Int) - 1
  let doe : Int := yoe * 365 + yoe / 4 - yoe / 100 + doy
  era * 146097 + doe - 719468

/-- Weekday abbreviation (`Mon`) of a civil date; 1970-01-01 was a Thursday. -/
def weekdayAbbr (t : Time) : String :=
  match ((daysFromCivil t.year t.month t.day + 4) % 7).toNat with
  | 0 => "Sun" | 1 => "Mon" | 2 => "Tue" | 3 => "Wed" | 4 => "Thu" | 5 => "Fri"
  | _ => "Sat"

/-- A zone offset in seconds as `+hhmm` or, with `colon`, as `+hh:mm`. -/
def zoneNumeric (offset : Int) (colon : Bool) : String :=
  let a := offset.natAbs
  (if offset < 0 then "-" else "+") ++ pad2 (a / 3600) ++ (if colon then ":" else "")
    ++ pad2 (a % 3600 / 60)

/-- Go's `t.Format(time.UnixDate)`, layout `Mon Jan _2 15:04:05 MST 2006`: weekday, month,
day, time to the second, zone abbreviation (the numeric offset when the zone has none) and
year.  The nanoseconds are not part of the layout. -/
def formatUnixDate (t : Time) : String :=
  weekdayAbbr t ++ " " ++ monthAbbr t.month ++ " " ++ padSpace2 t.day ++ " "
    ++ pad2 t.hour ++ ":" ++ pad2 t.minute ++ ":" ++ pad2 t.second ++ " "
    ++ (if t.zoneAbbr = "" then zoneNumeric t.zoneOffset false else t.zoneAbbr) ++ " "
    ++ padYear t.year

/-- Go's `t.Format(time.RFC3339)`, layout `2006-01-02T15:04:05Z07:00`. -/
def formatRFC3339 (t : Time) : String :=
  padYear t.year ++ "-" ++ pad2 t.month ++ "-" ++ pad2 t.day ++ "T"
    ++ pad2 t.hour ++ ":" ++ pad2 t.minute ++ ":" ++ pad2 t.second
    ++ (if t.zoneOffset = 0 then "Z" else zoneNumeric t.zoneOffset true)

/-- The library with Go's two time layouts and a given hash function. -/
def goLib (sha256Hex : String → String) : GoLib := ⟨sha256Hex, formatUnixDate, formatRFC3339⟩

/-- A time of day on 15 June 2017, UTC, with the given nanoseconds. -/
def exampleTime (nanosecond : Nat) : Time := ⟨2017, 6, 15, 10, 30, 5, nanosecond, "UTC", 0⟩

/-- A commit by "A" at `exampleTime nanosecond`. -/
def exampleCommit (nanosecond : Nat) : CommitEntry :=
  { CommitEntry.zero with
    AuthorName := "A", AuthorEmail := "a@b", Message := "m",
    Timestamp := exampleTime nanosecond, Tree := ⟨"T", []⟩ }

/-- A tree entry for a database file without licence. -/
def exampleEntry : DBTreeEntry :=
  { EntryType := "db", LastModified := exampleTime 0, LicenceSHA := "", Name := "f.db",
    Sha256 := "abc", Size := 42 }

/-! ## Names in the fork tree -/

/-- An output entry without its icon list: what stays of it when the glyphs are put aside. -/
def eraseIcons (x : ForkEntry) : ForkEntry := { x with IconList := [] }

/-- A fork set of one private root database owned by alice. -/
def examplePrivateRoot : List ForkEntry := [forkRow "alice" "secret" false 1 0]

/-- A fork set with private and deleted forks: root R of bob (public), a private fork of
alice, a private fork of carol, and a fork of alice whose `Deleted` flag is set. -/
def exampleVisibility : List ForkEntry :=
  [forkRow "bob" "R" true 1 0, forkRow "alice" "mine" false 2 1,
   forkRow "carol" "hers" false 3 1,
   { forkRow "alice" "gone" true 4 2 with Deleted := true }]

/-- The names during the loop of `ForkTree`, against the initial fork set `L`: the raw
entries not yet processed are rows of `L` as scanned, the first output entry is the root as
`rootEntry` made it and every later output entry is a row of `L` as `childEntry` made it,
up to the icon lists. -/
structure NameOK (u : String) (L : List ForkEntry) (st : ForkState) : Prop where
  raw_rows : ∀ e ∈ st.dbList.tail, e.Processed = false → e ∈ L.tail
  out_rows : ∃ r cs, L.head? = some r ∧
    st.outputList.map eraseIcons = eraseIcons (rootEntry r) :: cs ∧
    ∀ c ∈ cs, ∃ e ∈ L.tail, ∃ d, c = eraseIcons (childEntry u d e)

/-! ## Further example states -/

/-- The example C1 <- C2 <- C3 after a rollback of "master": the head is C2 and the stored
`CommitCount` of the branch is what the rollback left. -/
def exampleStale : Database := (DeleteLatestBranchCommit noFault exampleDB "master").1

/-! ## Well-formed histories -/

/-- `ReachableFrom cl p k`: the commit ID `k` is `p` or is met by following `Parent` from
`p` through the commit list `cl`, the way the walks of the code do (a walk goes on from a
non-empty ID that is a key). -/
inductive ReachableFrom (cl : GoMap CommitEntry) : String → String → Prop
  | head {p : String} : ReachableFrom cl p p
  | parent {p k : String} {c : CommitEntry} :
      ReachableFrom cl p k → k ≠ "" → cl.get k = some c → ReachableFrom cl p c.Parent

/-- History well-formedness of a stored row: the branch names are distinct (the branch
heads are a map), every branch head names a commit that is a key of the commit list, every
`Parent` reachable from a branch head is a key of the commit list, each key is the ID of
its commit, and the `Parent` relation is acyclic. -/
structure WellFormedHistory (db : Database) : Prop where
  names_distinct : (GoMap.keys db.branch_heads).Nodup
  heads_keys : ∀ be ∈ db.branch_heads,
    be.2.Commit ≠ "" ∧ (db.commit_list.get be.2.Commit).isSome = true
  parents_keys : ∀ be ∈ db.branch_heads, ∀ k, ReachableFrom db.commit_list be.2.Commit k →
    k ≠ "" → (db.commit_list.get k).isSome = true
  keys_ids : KeysAreIDs db.commit_list
  acyclic : Acyclic db.commit_list

/-- Sibling branches with shared ancestry: "master" at C3 and "dev" at C2, over
C1 <- C2 <- C3. -/
def exampleSiblings : Database :=
  { branch_heads := [("master", ⟨"C3", 3, ""⟩), ("dev", ⟨"C2", 2, "work"⟩)],
    commit_list := [("C1", commitOf "C1" ""), ("C2", commitOf "C2" "C1"),
      ("C3", commitOf "C3" "C2")],
    commits := 3 }

/-! ## The states met by the loop of `ForkTree` -/

/-- The state in which `ForkTree` enters its loop `for numUnprocessedEntries > 0`, for the
rows `root :: rest`. -/
def loopEntry (root : ForkEntry) (rest : List ForkEntry) : ForkState :=
  ⟨{ rootEntry root with Processed := true } :: rest, [rootEntry root], [(rootEntry root).ID],
    1, (root :: rest).length - 1⟩

/-- `LoopReaches u st0 st`: the loop `for numUnprocessedEntries > 0` of `ForkTree`, entered
in the state `st0`, comes to its head in the state `st` after some number of iterations
that all ended normally. -/
inductive LoopReaches (u : String) (st0 : ForkState) : ForkState → Prop
  | entry : LoopReaches u st0 st0
  | iteration {st st' : ForkState} :
      LoopReaches u st0 st → 0 < st.numUnprocessedEntries → forkStep u st = .ok st' →
      LoopReaches u st0 st'

/-! ## Visibility and the shape of the fork tree -/

/-- The result of a call, under a function of the value returned. -/
def Outcome.mapOk {α β : Type} (f : α → β) : Outcome α → Outcome β
  | .ok a => .ok (f a)
  | .error msg => .error msg
  | .panic => .panic
  | .diverge => .diverge

/-- A row without its visibility flags: two fork sets differ only in the `Public` and
`Deleted` flags of their entries when their rows are the same under `flagsOnly`. -/
def flagsOnly (x : ForkEntry) : ForkEntry := { x with Public := true, Deleted := false }

/-- An entry without its visibility flags and its name: what is left is the position and
shape of the entry (ID, parent, owner, folder, icon list). -/
def maskEntry (x : ForkEntry) : ForkEntry :=
  { x with DBName := "", Public := true, Deleted := false }

/-- The state of the loop of `ForkTree` with every entry masked. -/
def maskState (st : ForkState) : ForkState :=
  { st with dbList := st.dbList.map maskEntry, outputList := st.outputList.map maskEntry }

/-- The fork set `exampleVisibility` with every entry public and none deleted. -/
def exampleAllPublic : List ForkEntry :=
  [forkRow "bob" "R" true 1 0, forkRow "alice" "mine" true 2 1,
   forkRow "carol" "hers" true 3 1, forkRow "alice" "gone" true 4 2]

/-! ## The recursive traversal of the specification -/

/-- The IDs of the children of the entry `id` in the fork set `L`: the entries forked from
it, in their input order. -/
def childrenOf (L : List ForkEntry) (id : Int) : List Int :=
  (L.filter (fun e => e.ForkedFrom = id)).map (fun e => e.ID)

/-- The recursive depth-first pre-order traversal of the specification, from the entry
`id`: the entry itself, then the traversals from its children, in their input order.  The
first argument bounds the depth of the recursion. -/
def preorderFrom (L : List ForkEntry) : Nat → Int → List Int
  | 0, _ => []
  | n + 1, id => id :: ((childrenOf L id).map (preorderFrom L n)).flatten

/-- The traversal of the specification from the root, the first entry of the fork set; no
entry is deeper than the number of entries. -/
def preorder (L : List ForkEntry) : List Int :=
  match L with
  | [] => []
  | r :: _ => preorderFrom L L.length r.ID

/-- The children of `t` that the scan of `nextChild` can still find in the raw list, in
their order. -/
def pendingOf (raw : List ForkEntry) (t : Int) : List Int :=
  (raw.tail.filter (fun e => e.Processed = false ∧ e.ForkedFrom = t)).map (fun e => e.ID)

/-- What the recursive traversal has still to visit when the iterative one is in a state
with raw list `raw` and the fork trail given (from the root on): for every entry of the
trail, from the last one back to the root, the traversals from its pending children.  The
first argument is the recursion depth left for the children of the first trail entry. -/
def restOf (L raw : List ForkEntry) : Nat → List Int → List Int
  | _, [] => []
  | n, t :: ts =>
    restOf L raw (n - 1) ts ++ ((pendingOf raw t).map (preorderFrom L n)).flatten

/-- The order invariant of the loop of `ForkTree` against the recursive traversal of depth
`F` from `rootID`: the IDs put out so far followed by what `restOf` lists are the
recursive traversal, and the children of an unprocessed entry are unprocessed. -/
structure OrderOK (L : List ForkEntry) (F : Nat) (rootID : Int) (st : ForkState) : Prop where
  split : preorderFrom L F rootID
    = st.outputList.map (fun x => x.ID) ++ restOf L st.dbList (F - 1) st.forkTrail
  kids_fresh : ∀ e ∈ st.dbList.tail, e.Processed = false →
    ∀ k ∈ st.dbList.tail, k.ForkedFrom = e.ID → k.Processed = false

/-! ## Reading back the serialization of a tree -/

/-- The number written by a string of decimal digits. -/
def digitsVal (cs : List Char) : Nat := cs.foldl (fun a c => 10 * a + (c.toNat - 48)) 0

/-- The fields of a tree entry as `CreateDBTreeID` writes them: entry type, licence sha256,
file sha256, file name, formatted last modified time and size. -/
def recordOf (lib : GoLib) (j : DBTreeEntry) :
    String × String × String × String × String × Int :=
  (j.EntryType, j.LicenceSHA, j.Sha256, j.Name, lib.formatRFC3339 j.LastModified, j.Size)

/-- No string field of the tree entry holds a NUL byte. -/
def NulFree (j : DBTreeEntry) : Prop :=
  nulCount j.EntryType = 0 ∧ nulCount j.LicenceSHA = 0 ∧ nulCount j.Sha256 = 0 ∧
    nulCount j.Name = 0

/-! ## Fork registry: `ForkDatabase` (`common/postgresql.go`) -/

/-- A row of table `sqlite_databases`, with the columns that `ForkDatabase` reads or
writes; `visible` is the column `public`, the other columns that the fork copies
(descriptions, counts, `commit_list`, `branch_heads`, ...) are left out.  A `forked_from`
of `none` is SQL `NULL`. -/
structure DBRow where
  db_id : Int
  user_id : Int
  folder : String
  db_name : String
  visible : Bool
  forks : Int
  root_database : Int
  forked_from : Option Int
  deriving Repr, DecidableEq

/-- The store as far as the fork registry goes: table `users` (`user_name`, `user_id`),
table `sqlite_databases`, and the next value of the sequence
`sqlite_databases_db_id_seq`, from which `db_id` is taken when an `INSERT` does not give
it (the table declaration is not part of the sources; `StoreDatabase` draws `db_id` from
this sequence by name). -/
structure Store where
  users : List (String × Int)
  sqlite_databases : List DBRow
  db_id_seq : Int
  deriving Repr, DecidableEq

/-- The scalar subquery `(SELECT user_id FROM users WHERE user_name = $1)`; `user_name` is
the key of `users`, `none` is `NULL`. -/
def userID (st : Store) (userName : String) : Option Int := List.lookup userName st.users

/-- A scalar subquery over the rows found: `NULL` for none, the value for one, an error
for more. -/
def scalar {α : Type} : List α → Outcome (Option α)
  | [] => .ok none
  | [a] => .ok (some a)
  | _ :: _ :: _ => .error "more than one row returned by a subquery used as an expression"

/-- The condition `user_id = (SELECT user_id FROM users WHERE user_name = ..) AND folder =
.. AND db_name = ..`; a comparison with `NULL` does not hold. -/
def rowIs (st : Store) (owner dbFolder dbName : String) (r : DBRow) : Bool :=
  decide (some r.user_id = userID st owner ∧ r.folder = dbFolder ∧ r.db_name = dbName)

/-- The columns of the unique index on `(user_id, folder, db_name)`, the index that the
`ON CONFLICT (user_id, folder, db_name)` of `StoreDatabase` names. -/
def rowKey (r : DBRow) : Int × String × String := (r.user_id, r.folder, r.db_name)

/-- The row made from the selected row `r` by `INSERT ... SELECT dst_u.user_id, folder,
db_name, public, forks, ..., root_database, ..., db_id`: a copy with the new owner, with
`forked_from` set to the `db_id` of the source, and with its own `db_id`. -/
def forkedRow (r : DBRow) (id dstUser : Int) : DBRow :=
  { r with db_id := id, user_id := dstUser, forked_from := some r.db_id }

/-- The rows made by the `INSERT ... SELECT ... FROM sqlite_databases, dst_u`: one per
selected row, with `db_id` drawn from the sequence. -/
def copyRows (dstUser : Int) : Int → List DBRow → List DBRow
  | _, [] => []
  | id, r :: rs => forkedRow r id dstUser :: copyRows dstUser (id + 1) rs

/-- The first statement of `ForkDatabase`, the copy of the main database entry: the store
after it and the number of rows affected.  An insert that breaks the unique index on
`(user_id, folder, db_name)` or the key `db_id` fails and inserts nothing. -/
def forkInsert (st : Store) (srcOwner dbFolder dbName dstOwner : String) :
    Store × Outcome Nat :=
  let selected := st.sqlite_databases.filter (rowIs st srcOwner dbFolder dbName)
  let newRows : List DBRow :=
    match userID st dstOwner with
    | none => []
    | some dstUser => copyRows dstUser st.db_id_seq selected
  let all := st.sqlite_databases ++ newRows
  if (∀ n ∈ newRows, n.db_id ∉ st.sqlite_databases.map (fun r => r.db_id) ∧
        rowKey n ∉ st.sqlite_databases.map rowKey)
      ∧ (newRows.map (fun r => r.db_id)).Nodup ∧ (newRows.map rowKey).Nodup then
    ({ st with sqlite_databases := all, db_id_seq := st.db_id_seq + newRows.length },
      .ok newRows.length)
  else
    ({ st with db_id_seq := st.db_id_seq + newRows.length },
      .error "duplicate key value violates unique constraint")

/-- The `SET forks = forks + 1` of the second statement, on the rows with `db_id = root`. -/
def bumpForks (root : Int) (r : DBRow) : DBRow :=
  if r.db_id = root then { r with forks := r.forks + 1 } else r

/-- The second statement of `ForkDatabase`, the increment of the fork count of the root
database, with `RETURNING forks` scanned by `QueryRow(...).Scan(&newForks)`: the first row
returned, an error when no row is returned. -/
def forkUpdate (st : Store) (dstOwner dbFolder dbName : String) : Store × Outcome Int :=
  match scalar ((st.sqlite_databases.filter (rowIs st dstOwner dbFolder dbName)).map
      (fun r => r.root_database)) with
  | .error msg => (st, .error msg)
  | .panic => (st, .panic)
  | .diverge => (st, .diverge)
  | .ok none => (st, .error "no rows in result set")
  | .ok (some root) =>
    let rows := st.sqlite_databases.map (bumpForks root)
    match (rows.filter (fun r => r.db_id = root)).map (fun r => r.forks) with
    | [] => (st, .error "no rows in result set")
    | newForks :: _ => ({ st with sqlite_databases := rows }, .ok newForks)

/-- Function `ForkDatabase`: the store after the call and the new fork count returned.  A
wrong number of rows affected by the insert is logged only. -/
def ForkDatabase (st : Store) (srcOwner dbFolder dbName dstOwner : String) :
    Store × Outcome Int :=
  match forkInsert st srcOwner dbFolder dbName dstOwner with
  | (st1, .ok _) => forkUpdate st1 dstOwner dbFolder dbName
  | (st1, .error msg) => (st1, .error msg)
  | (st1, .panic) => (st1, .panic)
  | (st1, .diverge) => (st1, .diverge)

/-- The fork count stored for the database `id`. -/
def forksOf (st : Store) (id : Int) : Option Int :=
  (st.sqlite_databases.find? (fun r => r.db_id = id)).map (fun r => r.forks)

/-- What the schema and the sequence keep true of the table: `db_id` is a key and lies
below the next value of its sequence, `(user_id, folder, db_name)` is unique, and every
`root_database` names a row. -/
structure StoreOK (st : Store) : Prop where
  ids_nodup : (st.sqlite_databases.map (fun r => r.db_id)).Nodup
  ids_lt : ∀ r ∈ st.sqlite_databases, r.db_id < st.db_id_seq
  keys_nodup : (st.sqlite_databases.map rowKey).Nodup
  roots_exist : ∀ r ∈ st.sqlite_databases, ∃ q ∈ st.sqlite_databases, q.db_id = r.root_database

/-- The root pointers of the fork forest: a record that is not a fork is its own root, and
a fork has the root of the record it was forked from. -/
def RootPointersOK (st : Store) : Prop :=
  ∀ r ∈ st.sqlite_databases,
    match r.forked_from with
    | none => r.root_database = r.db_id
    | some p => ∃ q ∈ st.sqlite_databases, q.db_id = p ∧ q.root_database = r.root_database

/-- A store with the root database "db" of bob (`db_id` 1, no forks yet) and the users
bob, alice and carol. -/
def exampleStore : Store :=
  { users := [("bob", 10), ("alice", 11), ("carol", 12)],
    sqlite_databases := [⟨1, 10, "/", "db", true, 0, 1, none⟩],
    db_id_seq := 2 }

/-! ## Concurrent calls of `ForkDatabase` -/

/-- The arguments of one call of `ForkDatabase`. -/
structure ForkCall where
  srcOwner : String
  dbFolder : String
  dbName : String
  dstOwner : String
  deriving Repr, DecidableEq

/-- Where a call of `ForkDatabase` stands: before its first statement, between its two
statements, or returned with a result. -/
inductive CallState where
  | start
  | inserted
  | returned (result : Outcome Int)
  deriving Repr, DecidableEq

/-- The store shared by the calls under way, and where each call stands. -/
structure World where
  store : Store
  calls : List CallState
  deriving Repr, DecidableEq

/-- The call number `i` runs its next statement.  The code holds no lock and opens no
transaction, so a call is two statements sent one after the other and the store runs each
statement as one step; a call that has returned does nothing. -/
def stepCall (cs : List ForkCall) (w : World) (i : Nat) : World :=
  match cs[i]?, w.calls[i]? with
  | some c, some .start =>
    match forkInsert w.store c.srcOwner c.dbFolder c.dbName c.dstOwner with
    | (st1, .ok _) => ⟨st1, w.calls.set i .inserted⟩
    | (st1, .error msg) => ⟨st1, w.calls.set i (.returned (.error msg))⟩
    | (st1, .panic) => ⟨st1, w.calls.set i (.returned .panic)⟩
    | (st1, .diverge) => ⟨st1, w.calls.set i (.returned .diverge)⟩
  | some c, some .inserted =>
    match forkUpdate w.store c.dstOwner c.dbFolder c.dbName with
    | (st1, result) => ⟨st1, w.calls.set i (.returned result)⟩
  | _, _ => w

/-- The calls `cs` run concurrently from the store `st`: `schedule` lists, step by step,
which call runs its next statement. -/
def runConcurrent (cs : List ForkCall) (st : Store) (schedule : List Nat) : World :=
  schedule.foldl (stepCall cs) ⟨st, cs.map (fun _ => CallState.start)⟩

/-- The call has returned without error. -/
def returnedOK : CallState → Bool
  | .returned (.ok _) => true
  | _ => false

/-- The invariant of a concurrent run against the root `root`, whose fork count was `f0`
at the start: the records with the folder and name of one of the calls have the root
`root`, and the fork count of `root` is `f0` plus the number of calls that have returned
without error. -/
structure ConcOK (cs : List ForkCall) (root f0 : Int) (w : World) : Prop where
  on_root : ∀ r ∈ w.store.sqlite_databases,
    (∃ c ∈ cs, r.folder = c.dbFolder ∧ r.db_name = c.dbName) → r.root_database = root
  count : forksOf w.store root = some (f0 + ((w.calls.countP returnedOK : Nat) : Int))
  len : w.calls.length = cs.length

/-- Alice and carol both fork the database "db" of bob. -/
def exampleCalls : List ForkCall :=
  [⟨"bob", "/", "db", "alice"⟩, ⟨"bob", "/", "db", "carol"⟩]

/-! # Theorems -/

/-! ## Go map lemmas -/

namespace GoMap

variable {V : Type}

theorem get_nil (k : String) : get ([] : GoMap V) k = none := rfl

theorem get_cons (k k' : String) (v : V) (m : GoMap V) :
    get ((k', v) :: m) k = if k = k' then some v else get m k := by
  unfold get
  by_cases h : k = k'
  · subst h; simp [List.lookup]
  · have : (k == k') = false := by simpa using h
    simp [List.lookup, this, h]

theorem mem_of_get {m : GoMap V} {k : String} {v : V} (h : get m k = some v) :
    (k, v) ∈ m := by
  induction m with
  | nil => simp [get_nil] at h
  | cons kv rest ih =>
    obtain ⟨k', v'⟩ := kv
    rw [get_cons] at h
    by_cases hk : k = k'
    · subst hk; simp at h; subst h; simp
    · simp [hk] at h; exact List.mem_cons_of_mem _ (ih h)

theorem get_set_self (m : GoMap V) (k : String) (v : V) : get (set m k v) k = some v := by
  induction m with
  | nil => simp [set, get_cons]
  | cons kv rest ih =>
    obtain ⟨k', v'⟩ := kv
    by_cases hk : k' = k
    · simp [set, hk, get_cons]
    · have hk' : ¬ k = k' := fun h => hk h.symm
      simp [set, hk, get_cons, hk', ih]

theorem get_set_ne (m : GoMap V) {k k2 : String} (v : V) (h : k2 ≠ k) :
    get (set m k v) k2 = get m k2 := by
  induction m with
  | nil => simp [set, get_cons, h, get_nil]
  | cons kv rest ih =>
    obtain ⟨k', v'⟩ := kv
    by_cases hk : k' = k
    · subst hk; simp [set, get_cons, h]
    · simp [set, hk, get_cons, ih]

theorem keys_set_of_get {m : GoMap V} {k : String} {v0 : V} (v : V)
    (h : get m k = some v0) : keys (set m k v) = keys m := by
  induction m with
  | nil => simp [get_nil] at h
  | cons kv rest ih =>
    obtain ⟨k', v'⟩ := kv
    by_cases hk : k' = k
    · subst hk; simp [set, keys]
    · have hk' : ¬ k = k' := fun h => hk h.symm
      rw [get_cons] at h
      simp [hk'] at h
      have := ih h
      simp [set, hk, keys] at this ⊢
      exact this

theorem get_delete_self (m : GoMap V) (k : String) : get (delete m k) k = none := by
  induction m with
  | nil => rfl
  | cons kv rest ih =>
    obtain ⟨k', v'⟩ := kv
    by_cases hk : k' = k
    · simp [delete, hk] at ih ⊢; exact ih
    · have hk' : ¬ k = k' := fun h => hk h.symm
      simp [delete, hk, List.filter_cons, get_cons, hk'] at ih ⊢; exact ih

theorem get_delete_ne (m : GoMap V) {k k2 : String} (h : k2 ≠ k) :
    get (delete m k) k2 = get m k2 := by
  induction m with
  | nil => rfl
  | cons kv rest ih =>
    obtain ⟨k', v'⟩ := kv
    by_cases hk : k' = k
    · subst hk
      simp [delete, get_cons, h] at ih ⊢; exact ih
    · simp [delete, hk, List.filter_cons, get_cons] at ih ⊢
      rw [ih]

end GoMap
/-! ## Histories -/

theorem KeysAreIDs.id_of_get {cl : GoMap CommitEntry} (h : KeysAreIDs cl) {k : String}
    {c : CommitEntry} (hg : cl.get k = some c) : c.ID = k :=
  h (k, c) (GoMap.mem_of_get hg)

theorem History.det {cl : GoMap CommitEntry} {p : String} {ks1 : List String}
    (h1 : History cl p ks1) : ∀ {ks2 : List String}, History cl p ks2 → ks1 = ks2 := by
  induction h1 with
  | root =>
    intro ks2 h2
    cases h2 with
    | root => rfl
    | step hne _ _ => exact absurd rfl hne
  | step hne hg _ ih =>
    intro ks2 h2
    cases h2 with
    | root => exact absurd rfl hne
    | step _ hg2 h2' =>
      rw [hg] at hg2
      cases hg2
      rw [ih h2']

theorem History.suffix {cl : GoMap CommitEntry} {p : String} {ks : List String}
    (h : History cl p ks) : ∀ k ∈ ks, ∃ pre post, ks = pre ++ k :: post ∧
      History cl k (k :: post) := by
  induction h with
  | root => intro k hk; simp at hk
  | @step p c ks hne hg hrest ih =>
    intro k hk
    rcases List.mem_cons.mp hk with rfl | hk'
    · exact ⟨[], ks, rfl, History.step hne hg hrest⟩
    · obtain ⟨pre, post, hEq, hH⟩ := ih k hk'
      exact ⟨p :: pre, post, by simp [hEq], hH⟩

theorem History.nodup {cl : GoMap CommitEntry} {p : String} {ks : List String}
    (h : History cl p ks) : ks.Nodup := by
  induction h with
  | root => exact List.nodup_nil
  | @step p c ks hne hg hrest ih =>
    refine List.nodup_cons.mpr ⟨?_, ih⟩
    intro hmem
    obtain ⟨pre, post, hEq, hH⟩ := hrest.suffix p hmem
    have hfull : History cl p (p :: ks) := History.step hne hg hrest
    have := hH.det hfull
    have hlen := congrArg List.length this
    rw [hEq] at hlen
    simp at hlen
    omega

theorem History.subset_keys {cl : GoMap CommitEntry} {p : String} {ks : List String}
    (h : History cl p ks) : ks ⊆ GoMap.keys cl := by
  induction h with
  | root => intro k hk; simp at hk
  | @step p c ks hne hg hrest ih =>
    intro k hk
    rcases List.mem_cons.mp hk with rfl | hk'
    · exact List.mem_map.mpr ⟨(k, c), GoMap.mem_of_get hg, rfl⟩
    · exact ih hk'

theorem History.length_le {cl : GoMap CommitEntry} {p : String} {ks : List String}
    (h : History cl p ks) : ks.length ≤ cl.length := by
  have := (List.subperm_of_subset h.nodup h.subset_keys).length_le
  simpa [GoMap.keys] using this

/-- On an unbroken history the walk of another branch terminates and finds exactly the
IDs on the chain. -/
theorem walkBranch_of_history {cl : GoMap CommitEntry} (hk : KeysAreIDs cl) (commitID : String)
    {p : String} {ks : List String} (h : History cl p ks) :
    ∀ fuel, ks.length < fuel → walkBranch cl commitID fuel p = .ok (decide (commitID ∈ ks)) := by
  induction h with
  | root =>
    intro fuel hf
    cases fuel with
    | zero => omega
    | succ f => simp [walkBranch]
  | @step p c ks hne hg hrest ih =>
    intro fuel hf
    cases fuel with
    | zero => omega
    | succ f =>
      have hid : c.ID = p := hk.id_of_get hg
      simp only [List.length_cons] at hf
      by_cases hc : p = commitID
      · subst hc
        simp [walkBranch, hne, hg, hid]
      · have hc' : ¬ commitID = p := fun h => hc h.symm
        simp [walkBranch, hne, hg, hid, hc, hc', ih f (by omega)]

/-! ## Rollback -/

/-- What a successful `DeleteLatestBranchCommit` has done. -/
theorem delete_ok_inv {fails : StoreOp → Bool} {db db' : Database} {b : String}
    (h : DeleteLatestBranchCommit fails db b = (db', .ok ())) :
    ∃ br head found, db.branch_heads.get b = some br ∧
      db.commit_list.get br.Commit = some head ∧ head.Parent ≠ "" ∧
      walkOtherBranches db.commit_list b br.Commit db.branch_heads false = .ok found ∧
      db'.branch_heads = db.branch_heads.set b { br with Commit := head.Parent } ∧
      db'.commit_list =
        (if found then db.commit_list else db.commit_list.delete br.Commit) ∧
      db'.commits = (if db'.commit_list.keyCount = 0 then db.commits
        else (db'.commit_list.keyCount : Int)) := by
  unfold DeleteLatestBranchCommit at h
  split at h
  · simp at h
  · split at h
    · rename_i dbt htx
      split at h
      · simp at h
      · simp only [Prod.mk.injEq, and_true] at h
        subst h
        unfold deleteLatestBranchCommitTx at htx
        split at htx
        · simp at htx
        · simp only at htx
          split at htx
          · simp at htx
          · rename_i br hbr
            split at htx
            · simp at htx
            · split at htx
              · simp at htx
              · rename_i head hhead
                split at htx
                · simp at htx
                · rename_i hpar
                  split at htx
                  · simp at htx
                  · simp at htx
                  · simp at htx
                  · rename_i found hwalk
                    split at htx
                    · simp at htx
                    · split at htx
                      · simp at htx
                      · split at htx
                        · simp at htx
                        · simp only [Outcome.ok.injEq] at htx
                          subst htx
                          refine ⟨br, head, found, hbr, hhead, hpar, hwalk, ?_, ?_, ?_⟩
                          · cases found <;>
                              simp only [Bool.not_false, Bool.not_true, Bool.false_eq_true,
                                if_true, if_false] <;> split_ifs <;> rfl
                          · cases found <;>
                              simp only [Bool.not_false, Bool.not_true, Bool.false_eq_true,
                                if_true, if_false] <;> split_ifs <;> rfl
                          · cases found <;>
                              simp only [Bool.not_false, Bool.not_true, Bool.false_eq_true,
                                if_true, if_false] <;> split_ifs <;> simp_all
    · simp at h
    · simp at h
    · simp at h

/-- Over branch heads that all have a history, the walk of the other branches ends
normally and reports whether `commitID` lies on the history of another branch. -/
theorem walkOtherBranches_of_history {cl : GoMap CommitEntry} (hk : KeysAreIDs cl)
    (b commitID : String) :
    ∀ (heads : List (String × BranchEntry)) (acc : Bool),
      (∀ be ∈ heads, ∃ ks, History cl be.2.Commit ks) →
      ∃ r, walkOtherBranches cl b commitID heads acc = .ok r ∧
        (r = true ↔ acc = true ∨
          ∃ be ∈ heads, be.1 ≠ b ∧ ∃ ks, History cl be.2.Commit ks ∧ commitID ∈ ks) := by
  intro heads
  induction heads with
  | nil => intro acc _; exact ⟨acc, rfl, by simp⟩
  | cons be rest ih =>
    intro acc hall
    obtain ⟨bn, e⟩ := be
    have hrest : ∀ be ∈ rest, ∃ ks, History cl be.2.Commit ks :=
      fun x hx => hall x (List.mem_cons_of_mem _ hx)
    by_cases hb : bn = b
    · obtain ⟨r, hr, hiff⟩ := ih acc hrest
      refine ⟨r, by simp [walkOtherBranches, hb, hr], ?_⟩
      rw [hiff]
      constructor
      · rintro (h | ⟨x, hx, hne, hks⟩)
        · exact Or.inl h
        · exact Or.inr ⟨x, List.mem_cons_of_mem _ hx, hne, hks⟩
      · rintro (h | ⟨x, hx, hne, hks⟩)
        · exact Or.inl h
        · rcases List.mem_cons.mp hx with rfl | hx'
          · exact absurd hb hne
          · exact Or.inr ⟨x, hx', hne, hks⟩
    · obtain ⟨ks, hks⟩ := hall (bn, e) (List.mem_cons_self _ _)
      have hw := walkBranch_of_history hk commitID hks (cl.length + 1)
        (Nat.lt_succ_of_le hks.length_le)
      obtain ⟨r, hr, hiff⟩ := ih (acc || decide (commitID ∈ ks)) hrest
      refine ⟨r, by simp [walkOtherBranches, hb, hw, hr], ?_⟩
      rw [hiff]
      constructor
      · rintro (h | ⟨x, hx, hne, hks'⟩)
        · rcases Bool.or_eq_true_iff.mp h with h1 | h1
          · exact Or.inl h1
          · exact Or.inr ⟨(bn, e), List.mem_cons_self _ _, hb, ks, hks, of_decide_eq_true h1⟩
        · exact Or.inr ⟨x, List.mem_cons_of_mem _ hx, hne, hks'⟩
      · rintro (h | ⟨x, hx, hne, ks', hks', hmem⟩)
        · exact Or.inl (by simp [h])
        · rcases List.mem_cons.mp hx with rfl | hx'
          · have := hks'.det hks
            subst this
            exact Or.inl (by simp [hmem])
          · exact Or.inr ⟨x, hx', hne, ks', hks', hmem⟩

/-- On a well-formed state whose branch `b` has a head with a non-empty `Parent`, and with
a store that does not fail, the rollback succeeds. -/
theorem DeleteLatestBranchCommit_succeeds {db : Database} {b : String} {br : BranchEntry}
    {head : CommitEntry} (hk : KeysAreIDs db.commit_list) (hwf : HeadsHaveHistory db)
    (hbr : db.branch_heads.get b = some br) (hhead : db.commit_list.get br.Commit = some head)
    (hpar : head.Parent ≠ "") :
    ∃ db', DeleteLatestBranchCommit noFault db b = (db', .ok ()) := by
  obtain ⟨r, hr, _⟩ := walkOtherBranches_of_history hk b br.Commit db.branch_heads false hwf
  simp [DeleteLatestBranchCommit, deleteLatestBranchCommitTx, noFault, hbr, hhead, hpar, hr]

/-- C2: on a state whose commit list is keyed by commit ID and whose branch heads all
have an unbroken, finite history, after a successful `DeleteLatestBranchCommit` on `b` the
removed commit (the old head of `b`) is still a key of the stored `commit_list` exactly
when it lies on the history of the head of some other branch (that head included), and
every other key of `commit_list` keeps its commit. -/
theorem DeleteLatestBranchCommit_gc (fails : StoreOp → Bool) (db db' : Database) (b : String)
    (hk : KeysAreIDs db.commit_list) (hwf : HeadsHaveHistory db)
    (hok : DeleteLatestBranchCommit fails db b = (db', .ok ())) :
    ∃ br, db.branch_heads.get b = some br ∧
      ((db'.commit_list.get br.Commit).isSome = true ↔
        ∃ be ∈ db.branch_heads, be.1 ≠ b ∧
          ∃ ks, History db.commit_list be.2.Commit ks ∧ br.Commit ∈ ks) ∧
      ∀ k, k ≠ br.Commit → db'.commit_list.get k = db.commit_list.get k := by
  obtain ⟨br, head, found, hbr, hhead, _, hwalk, _, hcl, _⟩ := delete_ok_inv hok
  obtain ⟨r, hr, hiff⟩ :=
    walkOtherBranches_of_history hk b br.Commit db.branch_heads false hwf
  rw [hwalk] at hr
  cases hr
  refine ⟨br, hbr, ?_, ?_⟩
  · have hiff2 : found = true ↔ ∃ be ∈ db.branch_heads, be.1 ≠ b ∧
        ∃ ks, History db.commit_list be.2.Commit ks ∧ br.Commit ∈ ks := by
      simpa using hiff
    rw [← hiff2]
    cases found
    · simp [hcl, GoMap.get_delete_self]
    · simp [hcl, hhead]
  · intro k hne
    cases found
    · simp [hcl, GoMap.get_delete_ne _ hne]
    · simp [hcl]

/-- Witness of C2 on the example C1 <- C2 <- C3: C3 is removed, C1 and C2 stay. -/
theorem DeleteLatestBranchCommit_gc_witness :
    ∃ br, exampleDB.branch_heads.get "master" = some br ∧
      (((DeleteLatestBranchCommit noFault exampleDB "master").1.commit_list.get
          br.Commit).isSome = true ↔
        ∃ be ∈ exampleDB.branch_heads, be.1 ≠ "master" ∧
          ∃ ks, History exampleDB.commit_list be.2.Commit ks ∧ br.Commit ∈ ks) ∧
      ∀ k, k ≠ br.Commit →
        (DeleteLatestBranchCommit noFault exampleDB "master").1.commit_list.get k =
          exampleDB.commit_list.get k :=
  DeleteLatestBranchCommit_gc noFault exampleDB
    (DeleteLatestBranchCommit noFault exampleDB "master").1 "master"
    (by unfold KeysAreIDs; decide)
    (by
      intro be hbe
      have : be = ("master", ⟨"C3", 3, ""⟩) := by simpa [exampleDB] using hbe
      subst this
      exact ⟨["C3", "C2", "C1"],
        History.step (by decide) (by decide : exampleDB.commit_list.get "C3" = some (commitOf "C3" "C2"))
          (History.step (by decide) (by decide : exampleDB.commit_list.get "C2" = some (commitOf "C2" "C1"))
            (History.step (by decide) (by decide : exampleDB.commit_list.get "C1" = some (commitOf "C1" ""))
              History.root))⟩)
    (by decide)

/-- C1 (the code departs from the claim): on the example C1 <- C2 <- C3 with `CommitCount`
3, the rollback of "master" succeeds and moves the head to C2, whose history C2, C1 has
two commits, but the stored `CommitCount` of "master" is still 3. -/
theorem DeleteLatestBranchCommit_commitCount_stale :
    (DeleteLatestBranchCommit noFault exampleDB "master").2 = .ok () ∧
      (DeleteLatestBranchCommit noFault exampleDB "master").1.branch_heads.get "master"
        = some ⟨"C2", 3, ""⟩ ∧
      History (DeleteLatestBranchCommit noFault exampleDB "master").1.commit_list "C2"
        ["C2", "C1"] := by
  refine ⟨by decide, by decide, ?_⟩
  exact History.step (by decide) (by decide :
      (DeleteLatestBranchCommit noFault exampleDB "master").1.commit_list.get "C2"
        = some (commitOf "C2" "C1"))
    (History.step (by decide) (by decide :
      (DeleteLatestBranchCommit noFault exampleDB "master").1.commit_list.get "C1"
        = some (commitOf "C1" ""))
      History.root)

/-- C3: when the head commit of branch `b` has an empty `Parent`, `DeleteLatestBranchCommit`
returns an error and the stored branch heads, commit list and commit counter are those
from before the call, whatever the store does. -/
theorem DeleteLatestBranchCommit_root_refused (fails : StoreOp → Bool) (db : Database)
    (b : String) (br : BranchEntry) (head : CommitEntry)
    (hbr : db.branch_heads.get b = some br)
    (hhead : db.commit_list.get br.Commit = some head) (hpar : head.Parent = "") :
    ∃ msg, DeleteLatestBranchCommit fails db b = (db, .error msg) := by
  unfold DeleteLatestBranchCommit deleteLatestBranchCommitTx
  by_cases h1 : fails .Begin = true
  · simp [h1]
  · by_cases h2 : fails .SelectBranchHeads = true
    · simp [h1, h2]
    · by_cases h3 : fails .SelectCommitList = true
      · simp [h1, h2, h3, hbr]
      · simp [h1, h2, h3, hbr, hhead, hpar]

/-- Witness of C3: the single commit of "master" cannot be rolled back. -/
theorem DeleteLatestBranchCommit_root_refused_witness :
    ∃ msg, DeleteLatestBranchCommit noFault exampleRoot "master" = (exampleRoot, .error msg) :=
  DeleteLatestBranchCommit_root_refused noFault exampleRoot "master" ⟨"C1", 1, ""⟩
    (commitOf "C1" "") (by decide) (by decide) (by decide)

/-- C4: after a successful `DeleteLatestBranchCommit` on `b` the head of `b` is the
`Parent` of its previous head commit, the branch names are the same, and every other
branch keeps its entry. -/
theorem DeleteLatestBranchCommit_frame (fails : StoreOp → Bool) (db db' : Database)
    (b : String) (hok : DeleteLatestBranchCommit fails db b = (db', .ok ())) :
    ∃ br head, db.branch_heads.get b = some br ∧
      db.commit_list.get br.Commit = some head ∧
      (db'.branch_heads.get b).map (fun e => e.Commit) = some head.Parent ∧
      GoMap.keys db'.branch_heads = GoMap.keys db.branch_heads ∧
      ∀ bn, bn ≠ b → db'.branch_heads.get bn = db.branch_heads.get bn := by
  obtain ⟨br, head, found, hbr, hhead, _, _, hbh, _, _⟩ := delete_ok_inv hok
  refine ⟨br, head, hbr, hhead, ?_, ?_, ?_⟩
  · rw [hbh, GoMap.get_set_self]; rfl
  · rw [hbh]; exact GoMap.keys_set_of_get _ hbr
  · intro bn hne
    rw [hbh]; exact GoMap.get_set_ne _ _ hne

/-- Witness of C4 on two branches sharing C3: "master" moves to C2, "dev" is untouched. -/
theorem DeleteLatestBranchCommit_frame_witness :
    ∃ br head, exampleShared.branch_heads.get "master" = some br ∧
      exampleShared.commit_list.get br.Commit = some head ∧
      ((DeleteLatestBranchCommit noFault exampleShared "master").1.branch_heads.get
          "master").map (fun e => e.Commit) = some head.Parent ∧
      GoMap.keys (DeleteLatestBranchCommit noFault exampleShared "master").1.branch_heads
        = GoMap.keys exampleShared.branch_heads ∧
      ∀ bn, bn ≠ "master" →
        (DeleteLatestBranchCommit noFault exampleShared "master").1.branch_heads.get bn
          = exampleShared.branch_heads.get bn :=
  DeleteLatestBranchCommit_frame noFault exampleShared
    (DeleteLatestBranchCommit noFault exampleShared "master").1 "master" (by decide)

/-! ## Push -/

/-- A commit count returned by the counting loop is the start value plus the length of
the history of the commit it started from. -/
theorem countCommits_ok {cl : GoMap CommitEntry} :
    ∀ (fuel : Nat) (p : String) (n m : Int), countCommits cl fuel p n = .ok m →
      ∃ ks, History cl p ks ∧ m = n + (ks.length : Int) := by
  intro fuel
  induction fuel with
  | zero => intro p n m h; simp [countCommits] at h
  | succ f ih =>
    intro p n m h
    unfold countCommits at h
    split at h
    · rename_i hp
      simp only [Outcome.ok.injEq] at h
      subst hp
      exact ⟨[], History.root, by simp [h]⟩
    · rename_i hp
      split at h
      · simp at h
      · rename_i c2 hg
        obtain ⟨ks, hks, hm⟩ := ih _ _ _ h
        refine ⟨p :: ks, History.step hp hg hks, ?_⟩
        simp only [List.length_cons, Nat.cast_add, Nat.cast_one]
        omega

/-- On an unbroken history the counting loop terminates with the length of the history
added to the start value. -/
theorem countCommits_of_history {cl : GoMap CommitEntry} {p : String} {ks : List String}
    (h : History cl p ks) :
    ∀ (fuel : Nat) (n : Int), ks.length < fuel →
      countCommits cl fuel p n = .ok (n + (ks.length : Int)) := by
  induction h with
  | root =>
    intro fuel n hf
    cases fuel with
    | zero => omega
    | succ f => simp [countCommits]
  | @step p c ks hne hg hrest ih =>
    intro fuel n hf
    cases fuel with
    | zero => omega
    | succ f =>
      simp only [List.length_cons] at hf
      simp only [countCommits, hne, hg, if_false, ih f (n + 1) (by omega), List.length_cons,
        Nat.cast_add, Nat.cast_one, Outcome.ok.injEq]
      omega

/-- C5: after the branch ledger update of a successful `AddDatabase` onto branch `b`, the
head of `b` is the ID of the new commit (the hash of its serialization), the
`CommitCount` of `b` is 1 plus the length of the history of the new commit's `Parent` in
the commit list (1 for a new database, whose new commit has an empty `Parent`), and every
other branch keeps its entry. -/
theorem AddDatabase_ledger (lib : GoLib) (db : Option Database) (createBranch : Bool)
    (b commitID dn em commitMsg : String) (now : Time) (t : DBTree)
    (c' : CommitEntry) (branches' : GoMap BranchEntry)
    (hok : AddDatabase lib db createBranch b commitID dn em commitMsg now t
      = .ok (c', branches')) :
    c'.ID = CreateCommitID lib { c' with ID := "" } ∧
    (∃ e ks, branches'.get b = some e ∧ e.Commit = c'.ID ∧
      History (match db with | some d => d.commit_list | none => []) c'.Parent ks ∧
      e.CommitCount = 1 + (ks.length : Int) ∧
      (db = none → c'.Parent = "" ∧ e.CommitCount = 1)) ∧
    ∀ bn, bn ≠ b →
      branches'.get bn = GoMap.get (match db with | some d => d.branch_heads | none => []) bn := by
  unfold AddDatabase at hok
  cases db with
  | none =>
    simp only [Outcome.ok.injEq, Prod.mk.injEq] at hok
    obtain ⟨hc, hb⟩ := hok
    subst hc hb
    refine ⟨rfl, ⟨_, [], GoMap.get_set_self _ _ _, rfl, History.root, by simp, ?_⟩, ?_⟩
    · intro _; exact ⟨rfl, rfl⟩
    · intro bn hne; exact GoMap.get_set_ne _ _ hne
  | some d =>
    simp only at hok
    split at hok
    · simp at hok
    · simp at hok
    · simp at hok
    · rename_i p hp
      split at hok
      · simp at hok
      · simp at hok
      · simp at hok
      · rename_i n hn
        simp only [Outcome.ok.injEq, Prod.mk.injEq] at hok
        obtain ⟨hc, hb⟩ := hok
        subst hc hb
        obtain ⟨ks, hks, hlen⟩ := countCommits_ok _ _ _ _ hn
        refine ⟨rfl, ⟨_, ks, GoMap.get_set_self _ _ _, rfl, hks, hlen, ?_⟩, ?_⟩
        · intro h; cases h
        · intro bn hne; exact GoMap.get_set_ne _ _ hne

/-- Witness of C5: a push onto "master" of the example C1 <- C2 <- C3. -/
theorem AddDatabase_ledger_witness :
    ∃ c' branches', AddDatabase exampleLib (some exampleDB) false "master" "" "A" "a@b" "m"
        Time.zero ⟨"T", []⟩ = .ok (c', branches') ∧
      ∃ e, branches'.get "master" = some e ∧ e.Commit = c'.ID ∧ e.CommitCount = 4 := by
  refine ⟨_, _, rfl, ?_⟩
  obtain ⟨_, ⟨e, ks, he, hc, hks, hn, _⟩, _⟩ :=
    AddDatabase_ledger exampleLib (some exampleDB) false "master" "" "A" "a@b" "m"
      Time.zero ⟨"T", []⟩ _ _ rfl
  refine ⟨e, he, hc, ?_⟩
  have h3 : History exampleDB.commit_list "C3" ["C3", "C2", "C1"] :=
    History.step (by decide) (by decide : exampleDB.commit_list.get "C3" = some (commitOf "C3" "C2"))
      (History.step (by decide) (by decide : exampleDB.commit_list.get "C2" = some (commitOf "C2" "C1"))
        (History.step (by decide) (by decide : exampleDB.commit_list.get "C1" = some (commitOf "C1" ""))
          History.root))
  have := hks.det h3
  subst this
  simpa using hn

/-- A push onto an existing branch whose head has an unbroken history returns normally. -/
theorem AddDatabase_succeeds (lib : GoLib) (d : Database) (createBranch : Bool)
    (b dn em commitMsg : String) (now : Time) (t : DBTree) {e : BranchEntry}
    {ks : List String} (hb : d.branch_heads.get b = some e)
    (hks : History d.commit_list e.Commit ks) :
    ∃ c' branches', AddDatabase lib (some d) createBranch b "" dn em commitMsg now t
      = .ok (c', branches') := by
  have hcount := countCommits_of_history hks (d.commit_list.length + 1) 1
    (Nat.lt_succ_of_le hks.length_le)
  simp [AddDatabase, hb, hcount]

/-! ## History walker -/

/-- C6 (the code departs from the claim): on the example C1 <- C2 <- C3, whose branch
"master" has head C3 and history C3, C2, C1, `IsCommitInBranchHistory` answers false for
the head C3 and true for C2 and C1: the head commit itself is never compared. -/
theorem IsCommitInBranchHistory_misses_head :
    History exampleDB.commit_list "C3" ["C3", "C2", "C1"] ∧
      IsCommitInBranchHistory exampleDB "master" "C3" = .ok false ∧
      IsCommitInBranchHistory exampleDB "master" "C2" = .ok true ∧
      IsCommitInBranchHistory exampleDB "master" "C1" = .ok true := by
  refine ⟨?_, by decide, by decide, by decide⟩
  exact History.step (by decide) (by decide : exampleDB.commit_list.get "C3" = some (commitOf "C3" "C2"))
    (History.step (by decide) (by decide : exampleDB.commit_list.get "C2" = some (commitOf "C2" "C1"))
      (History.step (by decide) (by decide : exampleDB.commit_list.get "C1" = some (commitOf "C1" ""))
        History.root))

/-! ## Fork tree renderer -/

/-- C10 (the code departs from the claim): on a fork set whose first entry is the root and
whose second entry is forked from a database outside the set, `ForkTree` does not return
the reachable entries: the fork trail runs empty and `nextChild` panics on reading its
last element. -/
theorem ForkTree_broken_reference_panics :
    ForkTree "viewer" exampleBroken = .panic ∧
      nextChild "viewer" exampleBroken [forkRow "r" "R" true 1 0] [] 0 = .panic := by
  constructor <;> decide

/-! ### `nextChild` -/

theorem childEntry_ID (u : String) (d : Int) (e : ForkEntry) :
    (childEntry u d e).ID = e.ID := by
  unfold childEntry; simp only; split_ifs <;> rfl

theorem childEntry_ForkedFrom (u : String) (d : Int) (e : ForkEntry) :
    (childEntry u d e).ForkedFrom = e.ForkedFrom := by
  unfold childEntry; simp only; split_ifs <;> rfl

theorem childEntry_Processed (u : String) (d : Int) (e : ForkEntry) :
    (childEntry u d e).Processed = e.Processed := by
  unfold childEntry; simp only; split_ifs <;> rfl

theorem childEntry_IconList (u : String) (d : Int) (e : ForkEntry) :
    (childEntry u d e).IconList
      = e.IconList ++ List.replicate d.toNat ForkType.SPACE ++ [ForkType.END] := by
  unfold childEntry; simp only; split_ifs <;> rfl

theorem scanChild_none {u : String} {pid d : Int} :
    ∀ {rest : List ForkEntry}, scanChild u pid d rest = none →
      ∀ x ∈ rest, ¬ (x.Processed = false ∧ x.ForkedFrom = pid) := by
  intro rest
  induction rest with
  | nil => intro _ x hx; simp at hx
  | cons e rest ih =>
    intro h x hx
    unfold scanChild at h
    split at h
    · simp at h
    · rename_i hne
      split at h
      · rename_i hrec
        rcases List.mem_cons.mp hx with rfl | hx'
        · exact hne
        · exact ih hrec x hx'
      · simp at h

theorem scanChild_some {u : String} {pid d : Int} :
    ∀ {rest : List ForkEntry} {child : ForkEntry} {rest' : List ForkEntry},
      scanChild u pid d rest = some (child, rest') →
      ∃ pre e post, rest = pre ++ e :: post ∧
        (∀ x ∈ pre, ¬ (x.Processed = false ∧ x.ForkedFrom = pid)) ∧
        e.Processed = false ∧ e.ForkedFrom = pid ∧ child = childEntry u d e ∧
        rest' = pre ++ { childEntry u d e with Processed := true } :: post := by
  intro rest
  induction rest with
  | nil => intro child rest' h; simp [scanChild] at h
  | cons e rest ih =>
    intro child rest' h
    unfold scanChild at h
    split at h
    · rename_i hcond
      simp only [Option.some.injEq, Prod.mk.injEq] at h
      obtain ⟨h1, h2⟩ := h
      exact ⟨[], e, rest, rfl, by simp, hcond.1, hcond.2, h1.symm, by simp [← h2]⟩
    · rename_i hne
      split at h
      · simp at h
      · rename_i c r' hrec
        simp only [Option.some.injEq, Prod.mk.injEq] at h
        obtain ⟨h1, h2⟩ := h
        subst h1 h2
        obtain ⟨pre, e0, post, hEq, hpre, hp, hf, hc, hr⟩ := ih hrec
        refine ⟨e :: pre, e0, post, by simp [hEq], ?_, hp, hf, hc, by simp [hr]⟩
        intro x hx
        rcases List.mem_cons.mp hx with rfl | hx'
        · exact hne
        · exact hpre x hx'

/-! ### The sibling and stem rewrite -/

theorem getIcon_nat (e : ForkEntry) (c : Nat) : getIcon e (c : Int) = e.IconList[c]? := by
  simp [getIcon]

theorem setIcon_nat (e : ForkEntry) (c : Nat) (g : ForkType) (h : c < e.IconList.length) :
    setIcon e (c : Int) g = some { e with IconList := e.IconList.set c g } := by
  simp [setIcon, h]

theorem stemLoop_ok (c i : Nat) :
    ∀ (l : Nat) (out : List ForkEntry), l ≤ out.length →
      (∀ m e, i ≤ m → m < l → out[m]? = some e → c < e.IconList.length) →
      ∃ out', stemLoop (c : Int) i l out = .ok out' ∧ out'.length = out.length ∧
        ∀ q, out'[q]? = (out[q]?).map (fun e => if i ≤ q ∧ q < l then stemAt c e else e) := by
  intro l
  induction l with
  | zero =>
    intro out _ _
    refine ⟨out, rfl, rfl, ?_⟩
    intro q
    cases out[q]? <;> simp
  | succ l ih =>
    intro out hl hrange
    unfold stemLoop
    by_cases hi : l + 1 > i
    · simp only [hi, if_true]
      have hlt : l < out.length := by omega
      have hget : out[l]? = some out[l] := List.getElem?_eq_getElem hlt
      have hc : c < (out[l]).IconList.length := hrange l _ (by omega) (by omega) hget
      have hicon : (out[l]).IconList[c]? = some (out[l]).IconList[c] :=
        List.getElem?_eq_getElem hc
      simp only [hget, getIcon_nat, hicon]
      by_cases hg : (out[l]).IconList[c] = ForkType.SPACE
      · simp only [hg, if_true, setIcon_nat _ _ _ hc]
        obtain ⟨out', hrun, hlen, hq⟩ := ih (out.set l
            { out[l] with IconList := (out[l]).IconList.set c ForkType.STEM })
          (by simp; omega)
          (by
            intro m e h1 h2 h3
            rw [List.getElem?_set_ne (by omega)] at h3
            exact hrange m e h1 (by omega) h3)
        refine ⟨out', hrun, by simpa using hlen, ?_⟩
        intro q
        rw [hq]
        by_cases hql : q = l
        · subst hql
          have hnl : ¬ (i ≤ q ∧ q < q) := by omega
          have hyl : (i ≤ q ∧ q < q + 1) := by omega
          simp [hget, stemAt, hicon, hg, hnl, hyl, hlt]
        · rw [List.getElem?_set_ne (fun h => hql h.symm)]
          have : (i ≤ q ∧ q < l) ↔ (i ≤ q ∧ q < l + 1) := by omega
          simp only [this]
      · simp only [hg, if_false]
        obtain ⟨out', hrun, hlen, hq⟩ := ih out (by omega)
          (fun m e h1 h2 h3 => hrange m e h1 (by omega) h3)
        refine ⟨out', hrun, hlen, ?_⟩
        intro q
        rw [hq]
        by_cases hql : q = l
        · subst hql
          have hs : stemAt c out[q] = out[q] := by
            simp [stemAt, hicon, hg]
          simp [hget, hs]
        · have : (i ≤ q ∧ q < l) ↔ (i ≤ q ∧ q < l + 1) := by omega
          simp only [this]
    · simp only [hi, if_false]
      refine ⟨out, rfl, rfl, ?_⟩
      intro q
      have : ¬ (i ≤ q ∧ q < l + 1) := by omega
      cases out[q]? <;> simp [this]

theorem siblingLoop_none (col : Int) (myID myFF : Int) (N : Nat) :
    ∀ (i : Nat) (out : List ForkEntry), i ≤ out.length →
      (∀ q e, q < i → out[q]? = some e → ¬ (e.ForkedFrom = myFF ∧ e.ID ≠ myID)) →
      siblingLoop col myID myFF N i out = .ok out := by
  intro i
  induction i with
  | zero => intro out _ _; rfl
  | succ i ih =>
    intro out hi hno
    unfold siblingLoop
    have hlt : i < out.length := by omega
    have hget : out[i]? = some out[i] := List.getElem?_eq_getElem hlt
    have hc := hno i _ (by omega) hget
    simp only [hget, hc, if_false]
    exact ih out (by omega) (fun q e hq he => hno q e (by omega) he)

theorem siblingLoop_some (col : Int) (myID myFF : Int) (N : Nat) (p : Nat) (s : ForkEntry) :
    ∀ (i : Nat) (out : List ForkEntry), i ≤ out.length → p < i → out[p]? = some s →
      (s.ForkedFrom = myFF ∧ s.ID ≠ myID) →
      (∀ q e, p < q → q < i → out[q]? = some e → ¬ (e.ForkedFrom = myFF ∧ e.ID ≠ myID)) →
      siblingLoop col myID myFF N i out =
        (match setIcon s col ForkType.BRANCH with
          | none => .panic
          | some s' => stemLoop col (p + 1) (N - 1) (out.set p s')) := by
  intro i
  induction i with
  | zero => intro out _ hp; omega
  | succ i ih =>
    intro out hi hp hs hcond hno
    unfold siblingLoop
    by_cases hpi : p = i
    · subst hpi
      simp only [hs, hcond, not_false_eq_true, and_self, if_true, ne_eq]
    · have hlt : i < out.length := by omega
      have hget : out[i]? = some out[i] := List.getElem?_eq_getElem hlt
      have hc := hno i _ (by omega) (by omega) hget
      simp only [hget, hc, if_false]
      exact ih out (by omega) (by omega) hs hcond
        (fun q e h1 h2 he => hno q e h1 (by omega) he)

/-- The rewrite after a child was appended, when a sibling exists at position `p` and the
column `c` is in range for it and for the entries between it and the new child. -/
theorem rewrite_some (c : Nat) (myID myFF : Int) (out : List ForkEntry) (p : Nat)
    (s : ForkEntry) (hp : p < out.length) (hs : out[p]? = some s)
    (hcond : s.ForkedFrom = myFF ∧ s.ID ≠ myID)
    (hno : ∀ q e, p < q → q < out.length → out[q]? = some e →
      ¬ (e.ForkedFrom = myFF ∧ e.ID ≠ myID))
    (hcs : c < s.IconList.length)
    (hrange : ∀ m e, p < m → m < out.length - 1 → out[m]? = some e → c < e.IconList.length) :
    ∃ out', siblingLoop (c : Int) myID myFF out.length out.length out = .ok out' ∧
      out'.length = out.length ∧
      ∀ q, out'[q]? = (out[q]?).map (fun e =>
        if q = p then branchAt c e
        else if p < q ∧ q < out.length - 1 then stemAt c e else e) := by
  rw [siblingLoop_some (c : Int) myID myFF out.length p s out.length out (le_refl _) hp hs hcond
    hno, setIcon_nat _ _ _ hcs]
  simp only
  obtain ⟨out', hrun, hlen, hq⟩ := stemLoop_ok c (p + 1) (out.length - 1)
    (out.set p { s with IconList := s.IconList.set c ForkType.BRANCH })
    (by simp)
    (by
      intro m e h1 h2 h3
      rw [List.getElem?_set_ne (by omega)] at h3
      exact hrange m e (by omega) h2 h3)
  refine ⟨out', hrun, by simpa using hlen, ?_⟩
  intro q
  rw [hq]
  by_cases hqp : q = p
  · subst hqp
    have : ¬ (q + 1 ≤ q ∧ q < out.length - 1) := by omega
    simp [hs, branchAt, this, hp]
  · rw [List.getElem?_set_ne (fun h => hqp h.symm)]
    have : (p + 1 ≤ q ∧ q < out.length - 1) ↔ (p < q ∧ q < out.length - 1) := by omega
    simp only [hqp, if_false, this]

theorem shapeOf_stemAt (c : Nat) (e : ForkEntry) : shapeOf (stemAt c e) = shapeOf e := by
  unfold stemAt shapeOf
  split_ifs <;> simp

theorem shapeOf_branchAt (c : Nat) (e : ForkEntry) : shapeOf (branchAt c e) = shapeOf e := by
  simp [branchAt, shapeOf]

/-! ### Hop depth -/

theorem HopDepth.mem_set {L : List ForkEntry} {id : Int} {d : Nat} (h : HopDepth L id d) :
    ∃ p ∈ L, p.ID = id := by
  cases h with
  | root hL => exact ⟨_, by simp [hL], rfl⟩
  | child he _ => exact ⟨_, he, rfl⟩

theorem WellFormedForkSet.entry_eq_of_ID {L : List ForkEntry} (hwf : WellFormedForkSet L)
    {a b : ForkEntry} (ha : a ∈ L) (hb : b ∈ L) (h : a.ID = b.ID) : a = b :=
  List.inj_on_of_nodup_map hwf.ids_nodup ha hb h

theorem HopDepth.unique {L : List ForkEntry} (hwf : WellFormedForkSet L) {id : Int} {d1 : Nat}
    (h1 : HopDepth L id d1) : ∀ {d2 : Nat}, HopDepth L id d2 → d1 = d2 := by
  obtain ⟨r0, rest0, hL0, hr0⟩ := hwf.root_first
  have key : ∀ {e : ForkEntry} {d : Nat}, e ∈ L → e.ID = r0.ID →
      HopDepth L e.ForkedFrom d → False := by
    intro e d he hid hd
    have : e = r0 := hwf.entry_eq_of_ID he (by simp [hL0]) hid
    subst this
    rw [hr0] at hd
    obtain ⟨p, hp, hp0⟩ := hd.mem_set
    exact hwf.ids_nonzero p hp hp0
  induction h1 with
  | @root r rest hL =>
    intro d2 h2
    have hr : r = r0 := by rw [hL0] at hL; cases hL; rfl
    subst hr
    generalize hid : r.ID = id at h2
    cases h2 with
    | root _ => rfl
    | @child e d he hd => exact (key he hid.symm hd).elim
  | @child e d he hd ih =>
    intro d2 h2
    generalize hid : e.ID = id at h2
    cases h2 with
    | @root r rest hL =>
      have hr : r = r0 := by rw [hL0] at hL; cases hL; rfl
      subst hr
      exact (key he hid hd).elim
    | @child e' d' he' hd' =>
      have : e = e' := hwf.entry_eq_of_ID he he' hid
      subst this
      rw [ih hd']

/-! ### The raw list -/

theorem skel_mem {L raw : List ForkEntry} (h : raw.map skel = L.map skel) {e : ForkEntry}
    (he : e ∈ raw) : ∃ e' ∈ L, e'.ID = e.ID ∧ e'.ForkedFrom = e.ForkedFrom := by
  have : skel e ∈ L.map skel := by rw [← h]; exact List.mem_map_of_mem _ he
  obtain ⟨e', he', hs⟩ := List.mem_map.mp this
  simp only [skel, Prod.mk.injEq] at hs
  exact ⟨e', he', hs.1, hs.2⟩

theorem skel_ids {L raw : List ForkEntry} (h : raw.map skel = L.map skel) :
    raw.map (fun e => e.ID) = L.map (fun e => e.ID) := by
  have := congrArg (List.map Prod.fst) h
  simpa [List.map_map, Function.comp_def, skel] using this

theorem RawOK.raw_ids_nodup {L raw : List ForkEntry} {trail : List Int} {S : List Shape} {num : Nat}
    (hwf : WellFormedForkSet L) (h : RawOK L raw trail S num) :
    (raw.map (fun e => e.ID)).Nodup := by
  rw [skel_ids h.skel_eq]; exact hwf.ids_nodup

theorem RawOK.raw_eq_of_ID {L raw : List ForkEntry} {trail : List Int} {S : List Shape} {num : Nat}
    (hwf : WellFormedForkSet L) (h : RawOK L raw trail S num) {a b : ForkEntry}
    (ha : a ∈ raw) (hb : b ∈ raw) (hid : a.ID = b.ID) : a = b :=
  List.inj_on_of_nodup_map (h.raw_ids_nodup hwf) ha hb hid

/-- While an entry is unprocessed, the fork trail is not empty. -/
theorem RawOK.trail_ne_nil {L raw : List ForkEntry} {trail : List Int} {S : List Shape}
    {num : Nat} (hwf : WellFormedForkSet L) (h : RawOK L raw trail S num) (hnum : 0 < num) :
    trail ≠ [] := by
  have main : ∀ (id : Int) (d : Nat), HopDepth L id d →
      ∀ e ∈ raw.tail, e.ID = id → e.Processed = false → trail ≠ [] := by
    intro id d hd
    induction hd with
    | @root r rest hL =>
      intro e he hid _
      obtain ⟨r0, rest0, hraw, _⟩ := h.root_done
      have hids := skel_ids h.skel_eq
      rw [hraw, hL] at hids
      simp only [List.map_cons, List.cons.injEq] at hids
      have hnd := h.raw_ids_nodup hwf
      rw [hraw] at hnd he
      simp only [List.map_cons, List.nodup_cons, List.tail_cons] at hnd he
      exact (hnd.1 (List.mem_map.mpr ⟨e, he, by rw [hid, hids.1]⟩)).elim
    | @child e' d' he' hd' ih =>
      intro e he hid hproc
      have heraw : e ∈ raw := List.mem_of_mem_tail he
      obtain ⟨e'', he'', hid'', hff''⟩ := skel_mem h.skel_eq heraw
      have : e'' = e' := hwf.entry_eq_of_ID he'' he' (by rw [hid'', hid])
      subst this
      rcases h.cover e he hproc with hin | ⟨p, hp, hpp, hpid⟩
      · exact List.ne_nil_of_mem hin
      · exact ih p hp (by rw [hpid, hff'']) hpp
  have hpos : 0 < raw.tail.countP (fun e => !e.Processed) := by rw [← h.num_eq]; exact hnum
  obtain ⟨e, he, hproc⟩ := List.countP_pos_iff.mp hpos
  obtain ⟨e', he', hid', _⟩ := skel_mem h.skel_eq (List.mem_of_mem_tail he)
  obtain ⟨d, hd⟩ := hwf.reachable e' he'
  exact main _ d hd e he hid'.symm (by simpa using hproc)

/-! ### No child found: the trail is popped -/

theorem mem_dropLast_of_ne_getLast {l : List Int} {a x : Int} (hl : l.getLast? = some a)
    (hx : x ∈ l) (hne : x ≠ a) : x ∈ l.dropLast := by
  have := List.dropLast_append_getLast? a (by simpa using hl)
  rw [← this] at hx
  rcases List.mem_append.mp hx with h | h
  · exact h
  · simp at h; exact absurd h hne

theorem RawOK.pop_trail {L raw : List ForkEntry} {trail : List Int} {S : List Shape} {num : Nat}
    (h : RawOK L raw trail S num) {pid : Int} (hlast : trail.getLast? = some pid)
    (hnone : ∀ x ∈ raw.tail, ¬ (x.Processed = false ∧ x.ForkedFrom = pid)) :
    RawOK L raw trail.dropLast S num where
  skel_eq := h.skel_eq
  count := h.count
  root_done := h.root_done
  num_eq := h.num_eq
  fresh := h.fresh
  out_done := h.out_done
  cover := by
    intro e he hproc
    rcases h.cover e he hproc with hin | hp
    · left
      exact mem_dropLast_of_ne_getLast hlast hin (fun hEq => hnone e he ⟨hproc, hEq⟩)
    · exact Or.inr hp

theorem ShapeOK.pop_shape {L : List ForkEntry} {trail : List Int} {S : List Shape}
    (h : ShapeOK L trail S) : ShapeOK L trail.dropLast S where
  first := h.first
  nodup := h.nodup
  hop := h.hop
  trail_pos := by
    intro t id ht
    rw [List.getElem?_dropLast] at ht
    split at ht
    · exact h.trail_pos t id ht
    · simp at ht
  parent_pos := h.parent_pos

/-! ### A child was found: raw list and shapes -/

theorem RawOK.push_child {L : List ForkEntry} {r0 : ForkEntry} {pre post : List ForkEntry}
    {e0 : ForkEntry} {trail : List Int} {S : List Shape} {num : Nat}
    (h : RawOK L (r0 :: (pre ++ e0 :: post)) trail S num) (he0 : e0.Processed = false)
    (n : ForkEntry) (hid : n.ID = e0.ID) (hff : n.ForkedFrom = e0.ForkedFrom) :
    RawOK L (r0 :: (pre ++ { n with Processed := true } :: post)) (trail ++ [n.ID])
      (S ++ [shapeOf n]) (num - 1) where
  skel_eq := by
    rw [← h.skel_eq]
    simp [skel, hid, hff]
  count := by
    have h1 := h.count
    have h2 := h.num_eq
    simp only [List.tail_cons, List.countP_append, List.countP_cons, he0, Bool.not_false,
      if_true] at h2
    simp only [List.length_append, List.length_singleton]
    omega
  root_done := by
    obtain ⟨r, rest, hEq, hr⟩ := h.root_done
    simp only [List.cons.injEq] at hEq
    exact ⟨r0, _, rfl, by rw [hEq.1]; exact hr⟩
  num_eq := by
    have := h.num_eq
    simp only [List.tail_cons, List.countP_append, List.countP_cons, he0, Bool.not_false,
      if_true] at this
    simp only [List.tail_cons, List.countP_append, List.countP_cons, Bool.not_true]
    simp
    omega
  fresh := by
    intro e he hproc
    simp only [List.tail_cons, List.mem_append, List.mem_cons] at he
    apply h.fresh e _ hproc
    simp only [List.tail_cons, List.mem_append, List.mem_cons]
    rcases he with he | rfl | he
    · exact Or.inl he
    · simp at hproc
    · exact Or.inr (Or.inr he)
  out_done := by
    intro s hs
    rcases List.mem_append.mp hs with hs | hs
    · obtain ⟨e, he, hp, hi, hf⟩ := h.out_done s hs
      refine ⟨e, ?_, hp, hi, hf⟩
      simp only [List.mem_cons, List.mem_append] at he ⊢
      rcases he with rfl | he | rfl | he
      · exact Or.inl rfl
      · exact Or.inr (Or.inl he)
      · rw [he0] at hp; cases hp
      · exact Or.inr (Or.inr (Or.inr he))
    · simp only [List.mem_singleton] at hs
      subst hs
      exact ⟨{ n with Processed := true }, by simp, rfl, rfl, rfl⟩
  cover := by
    intro e he hproc
    simp only [List.tail_cons, List.mem_append, List.mem_cons] at he
    have heold : e ∈ (r0 :: (pre ++ e0 :: post)).tail := by
      simp only [List.tail_cons, List.mem_append, List.mem_cons]
      rcases he with he | rfl | he
      · exact Or.inl he
      · simp at hproc
      · exact Or.inr (Or.inr he)
    rcases h.cover e heold hproc with hin | ⟨p, hp, hpp, hpid⟩
    · exact Or.inl (List.mem_append_left _ hin)
    · simp only [List.tail_cons, List.mem_append, List.mem_cons] at hp
      rcases hp with hp | rfl | hp
      · exact Or.inr ⟨p, by simp [hp], hpp, hpid⟩
      · left
        rw [← hpid, ← hid]
        simp
      · exact Or.inr ⟨p, by simp [hp], hpp, hpid⟩

theorem getLast?_eq_getElem?_pred {l : List Int} {a : Int} (h : l.getLast? = some a) :
    0 < l.length ∧ l[l.length - 1]? = some a := by
  rw [List.getLast?_eq_getElem?] at h
  refine ⟨?_, h⟩
  rcases Nat.eq_zero_or_pos l.length with h0 | h0
  · rw [h0] at h
    have : l = [] := List.length_eq_zero.mp h0
    subst this
    simp at h
  · exact h0

theorem ShapeOK.push_shape {L : List ForkEntry} {trail : List Int} {S : List Shape}
    (h : ShapeOK L trail S) {pid : Int} (hlast : trail.getLast? = some pid) (n : Shape)
    (hff : n.ff = pid) (hlen : n.len = trail.length + 1) (hnew : n.id ∉ S.map Shape.id)
    (hL : ∃ e ∈ L, e.ID = n.id ∧ e.ForkedFrom = n.ff) :
    ShapeOK L (trail ++ [n.id]) (S ++ [n]) := by
  obtain ⟨hK, hKget⟩ := getLast?_eq_getElem?_pred hlast
  obtain ⟨pk, y, hy, hyid, hylen, hylater⟩ := h.trail_pos _ _ hKget
  have hpk : pk < S.length := by
    by_contra hc
    rw [List.getElem?_eq_none (by omega)] at hy
    cases hy
  have hylen' : y.len = trail.length := by omega
  refine ⟨?_, ?_, ?_, ?_, ?_⟩
  · intro s hs
    rw [List.getElem?_append_left (by omega)] at hs
    exact h.first s hs
  · rw [List.map_append, List.nodup_append]
    refine ⟨h.nodup, by simp, ?_⟩
    intro a ha hb
    simp only [List.map_cons, List.map_nil, List.mem_singleton] at hb
    subst hb
    exact hnew ha
  · intro s hs
    rcases List.mem_append.mp hs with hs | hs
    · exact h.hop s hs
    · simp only [List.mem_singleton] at hs
      subst hs
      obtain ⟨dy, hdy, hhop⟩ := h.hop y (List.mem_iff_getElem?.mpr ⟨pk, hy⟩)
      obtain ⟨e, he, heid, heff⟩ := hL
      refine ⟨dy + 1, by omega, ?_⟩
      rw [← heid]
      apply HopDepth.child he
      rw [heff, hff, ← hyid]
      exact hhop
  · intro t id ht
    by_cases htK : t < trail.length
    · rw [List.getElem?_append_left htK] at ht
      obtain ⟨p, s, hs, hsid, hslen, hslater⟩ := h.trail_pos t id ht
      have hp : p < S.length := by
        by_contra hc
        rw [List.getElem?_eq_none (by omega)] at hs
        cases hs
      refine ⟨p, s, by rw [List.getElem?_append_left hp]; exact hs, hsid, hslen, ?_⟩
      intro m u hm hu
      by_cases hmS : m < S.length
      · rw [List.getElem?_append_left hmS] at hu
        exact hslater m u hm hu
      · rw [List.getElem?_append_right (by omega)] at hu
        have : m - S.length = 0 := by
          by_contra hc
          rw [List.getElem?_eq_none (by simp; omega)] at hu
          cases hu
        rw [this] at hu
        simp only [List.getElem?_cons_zero, Option.some.injEq] at hu
        subst hu
        omega
    · rw [List.getElem?_append_right (by omega)] at ht
      have ht0 : t - trail.length = 0 := by
        by_contra hc
        rw [List.getElem?_eq_none (by simp; omega)] at ht
        cases ht
      rw [ht0] at ht
      simp only [List.getElem?_cons_zero, Option.some.injEq] at ht
      subst ht
      refine ⟨S.length, n, by simp, rfl, by omega, ?_⟩
      intro m u hm hu
      rw [List.getElem?_eq_none (by simp; omega)] at hu
      cases hu
  · intro i s hi hs
    by_cases hiS : i < S.length
    · rw [List.getElem?_append_left hiS] at hs
      obtain ⟨q, z, hq, hz, hzid, hzlen, hbetween⟩ := h.parent_pos i s hi hs
      refine ⟨q, z, hq, by rw [List.getElem?_append_left (by omega)]; exact hz, hzid, hzlen, ?_⟩
      intro m u h1 h2 hu
      rw [List.getElem?_append_left (by omega)] at hu
      exact hbetween m u h1 h2 hu
    · rw [List.getElem?_append_right (by omega)] at hs
      have hi0 : i - S.length = 0 := by
        by_contra hc
        rw [List.getElem?_eq_none (by simp; omega)] at hs
        cases hs
      rw [hi0] at hs
      simp only [List.getElem?_cons_zero, Option.some.injEq] at hs
      subst hs
      have hiEq : i = S.length := by omega
      subst hiEq
      refine ⟨pk, y, hpk, by rw [List.getElem?_append_left hpk]; exact hy, by rw [hyid, hff],
        by omega, ?_⟩
      intro m u h1 h2 hu
      rw [List.getElem?_append_left h2] at hu
      have := hylater m u h1 hu
      omega

theorem ShapeOK.pos_unique {L : List ForkEntry} {trail : List Int} {S : List Shape}
    (h : ShapeOK L trail S) {i j : Nat} {a b : Shape} (ha : S[i]? = some a)
    (hb : S[j]? = some b) (hid : a.id = b.id) : i = j := by
  have hi : i < S.length := by
    by_contra hc
    rw [List.getElem?_eq_none (by omega)] at ha
    cases ha
  have h1 : (S.map Shape.id)[i]? = some a.id := by simp [ha]
  have h2 : (S.map Shape.id)[j]? = some b.id := by simp [hb]
  exact List.getElem?_inj (by simpa using hi) h.nodup (by rw [h1, h2, hid])

/-- The children of the entry on top of the fork trail are the entries that come after it
in the output and lie one level below it. -/
theorem ShapeOK.sibling_iff {L : List ForkEntry} {trail : List Int} {S : List Shape}
    (hwf : WellFormedForkSet L) (h : ShapeOK L trail S) {pid : Int}
    (hlast : trail.getLast? = some pid) :
    ∃ (pk : Nat) (y : Shape), S[pk]? = some y ∧ y.id = pid ∧ y.len = trail.length ∧
      (∀ (m : Nat) (u : Shape), S[m]? = some u → pk < m → trail.length < u.len) ∧
      (∀ (m : Nat) (u : Shape), S[m]? = some u →
        (u.ff = pid ↔ pk < m ∧ u.len = trail.length + 1)) := by
  obtain ⟨hK, hKget⟩ := getLast?_eq_getElem?_pred hlast
  obtain ⟨pk, y, hy, hyid, hylen, hylater⟩ := h.trail_pos _ _ hKget
  have hylen' : y.len = trail.length := by omega
  have hpid0 : pid ≠ 0 := by
    obtain ⟨d, _, hd⟩ := h.hop y (List.mem_iff_getElem?.mpr ⟨pk, hy⟩)
    obtain ⟨e, he, heid⟩ := hd.mem_set
    rw [← hyid, ← heid]
    exact hwf.ids_nonzero e he
  refine ⟨pk, y, hy, hyid, hylen', ?_, ?_⟩
  · intro m u hu hm
    have := hylater m u hm hu
    omega
  · intro m u hu
    constructor
    · intro hff
      rcases Nat.eq_zero_or_pos m with hm0 | hmpos
      · subst hm0
        have h0 := (h.first u hu).1
        rw [hff] at h0
        exact absurd h0 hpid0
      · obtain ⟨q, z, hq, hz, hzid, hzlen, _⟩ := h.parent_pos m u hmpos hu
        have : q = pk := h.pos_unique hz hy (by rw [hzid, hff, hyid])
        subst this
        rw [hy] at hz
        cases hz
        exact ⟨hq, by omega⟩
    · rintro ⟨hm, hlen⟩
      obtain ⟨q, z, hq, hz, hzid, hzlen, hbetween⟩ := h.parent_pos m u (by omega) hu
      have hqpk : q = pk := by
        rcases Nat.lt_trichotomy q pk with hlt | heq | hgt
        · have := hbetween pk y hlt hm hy
          omega
        · exact heq
        · have := hylater q z hgt hz
          omega
      subst hqpk
      rw [hy] at hz
      cases hz
      rw [← hzid, hyid]

/-- A bounded search from above: either no index below `N` satisfies `P`, or there is a
largest one. -/
theorem exists_greatest (P : Nat → Prop) (N : Nat) :
    (∀ q, q < N → ¬ P q) ∨ ∃ p, p < N ∧ P p ∧ ∀ q, p < q → q < N → ¬ P q := by
  induction N with
  | zero => left; intro q hq; omega
  | succ N ih =>
    by_cases hN : P N
    · right
      exact ⟨N, by omega, hN, fun q h1 h2 => by omega⟩
    · rcases ih with hno | ⟨p, hp, hPp, hmax⟩
      · left
        intro q hq
        rcases Nat.lt_succ_iff_lt_or_eq.mp hq with h | h
        · exact hno q h
        · subst h; exact hN
      · right
        refine ⟨p, by omega, hPp, ?_⟩
        intro q h1 h2
        rcases Nat.lt_succ_iff_lt_or_eq.mp h2 with h | h
        · exact hmax q h1 h
        · subst h; exact hN

/-! ### Glyphs -/

theorem stemAt_length (K : Nat) (e : ForkEntry) :
    (stemAt K e).IconList.length = e.IconList.length := by
  unfold stemAt; split_ifs <;> simp

theorem stemAt_other (K : Nat) (e : ForkEntry) {c : Nat} (hc : c ≠ K) :
    (stemAt K e).IconList[c]? = e.IconList[c]? := by
  unfold stemAt
  split_ifs
  · simp [List.getElem?_set_ne (fun h => hc h.symm)]
  · rfl

theorem stemAt_space (K : Nat) (e : ForkEntry) (h : e.IconList[K]? = some ForkType.SPACE) :
    (stemAt K e).IconList[K]? = some ForkType.STEM := by
  unfold stemAt
  have hlt : K < e.IconList.length := by
    by_contra hc
    rw [List.getElem?_eq_none (by omega)] at h
    cases h
  simp [h, hlt]

theorem branchAt_length (K : Nat) (e : ForkEntry) :
    (branchAt K e).IconList.length = e.IconList.length := by
  simp [branchAt]

theorem branchAt_other (K : Nat) (e : ForkEntry) {c : Nat} (hc : c ≠ K) :
    (branchAt K e).IconList[c]? = e.IconList[c]? := by
  simp [branchAt, List.getElem?_set_ne (fun h => hc h.symm)]

theorem branchAt_self (K : Nat) (e : ForkEntry) (h : K < e.IconList.length) :
    (branchAt K e).IconList[K]? = some ForkType.BRANCH := by
  simp [branchAt, h]

theorem rewriteAt_length (K p N q : Nat) (e : ForkEntry) :
    (rewriteAt K p N q e).IconList.length = e.IconList.length := by
  unfold rewriteAt
  split_ifs
  · exact branchAt_length K e
  · exact stemAt_length K e
  · rfl

theorem rewriteAt_other (K p N q : Nat) (e : ForkEntry) {c : Nat} (hc : c ≠ K) :
    (rewriteAt K p N q e).IconList[c]? = e.IconList[c]? := by
  unfold rewriteAt
  split_ifs
  · exact branchAt_other K e hc
  · exact stemAt_other K e hc
  · rfl

theorem shapeOf_rewriteAt (K p N q : Nat) (e : ForkEntry) :
    shapeOf (rewriteAt K p N q e) = shapeOf e := by
  unfold rewriteAt
  split_ifs
  · exact shapeOf_branchAt K e
  · exact shapeOf_stemAt K e
  · rfl

theorem map_shapeOf_rewrite {K p N : Nat} {out1 out2 : List ForkEntry}
    (hq : ∀ q, out2[q]? = (out1[q]?).map (rewriteAt K p N q)) :
    out2.map shapeOf = out1.map shapeOf := by
  apply List.ext_getElem?
  intro q
  rw [List.getElem?_map, List.getElem?_map, hq q]
  cases out1[q]? with
  | none => rfl
  | some e => simp [shapeOf_rewriteAt]

theorem getElem?_lt_length {α : Type} {l : List α} {i : Nat} {a : α} (h : l[i]? = some a) :
    i < l.length := by
  by_contra hc
  rw [List.getElem?_eq_none (by omega)] at h
  cases h

theorem NextAt_append_iff {S : List Shape} {t : Shape} {i c : Nat} (hi : i < S.length) :
    NextAt (S ++ [t]) i c ↔
      NextAt S i c ∨
        (t.len = c + 1 ∧ ∀ (m : Nat) (u : Shape), i < m → S[m]? = some u → c + 1 < u.len) := by
  constructor
  · rintro ⟨j, s, hij, hs, hlen, hbetween⟩
    by_cases hj : j < S.length
    · left
      rw [List.getElem?_append_left hj] at hs
      refine ⟨j, s, hij, hs, hlen, ?_⟩
      intro m u h1 h2 hu
      exact hbetween m u h1 h2 (by rw [List.getElem?_append_left (by omega)]; exact hu)
    · right
      have hjl := getElem?_lt_length hs
      simp only [List.length_append, List.length_singleton] at hjl
      have hjEq : j = S.length := by omega
      subst hjEq
      simp only [List.getElem?_concat_length, Option.some.injEq] at hs
      subst hs
      refine ⟨hlen, ?_⟩
      intro m u h1 hu
      have hm := getElem?_lt_length hu
      exact hbetween m u h1 hm (by rw [List.getElem?_append_left hm]; exact hu)
  · rintro (⟨j, s, hij, hs, hlen, hbetween⟩ | ⟨hlen, hall⟩)
    · have hj := getElem?_lt_length hs
      refine ⟨j, s, hij, by rw [List.getElem?_append_left hj]; exact hs, hlen, ?_⟩
      intro m u h1 h2 hu
      rw [List.getElem?_append_left (by omega)] at hu
      exact hbetween m u h1 h2 hu
    · refine ⟨S.length, t, hi, by simp, hlen, ?_⟩
      intro m u h1 h2 hu
      rw [List.getElem?_append_left h2] at hu
      exact hall m u h1 hu

theorem not_NextAt_of_length_le {S : List Shape} {i c : Nat} (hi : S.length ≤ i + 1) :
    ¬ NextAt S i c := by
  rintro ⟨j, s, hij, hs, _, _⟩
  have := getElem?_lt_length hs
  omega

theorem rewrite_cases {K p : Nat} {out out2 : List ForkEntry} {n : ForkEntry}
    (hq : ∀ q, out2[q]? = ((out ++ [n])[q]?).map (rewriteAt K p out.length q))
    {i : Nat} {x : ForkEntry} (hx : out2[i]? = some x) :
    (i < out.length ∧ ∃ e, out[i]? = some e ∧ x = rewriteAt K p out.length i e) ∨
      (i = out.length ∧ x = rewriteAt K p out.length i n) := by
  rw [hq] at hx
  by_cases hi : i < out.length
  · left
    rw [List.getElem?_append_left hi] at hx
    cases he : out[i]? with
    | none => rw [he] at hx; cases hx
    | some e =>
      rw [he] at hx
      simp only [Option.map_some', Option.some.injEq] at hx
      exact ⟨hi, e, rfl, hx.symm⟩
  · right
    by_cases hi2 : i = out.length
    · subst hi2
      simp only [List.getElem?_concat_length, Option.map_some', Option.some.injEq] at hx
      exact ⟨rfl, hx.symm⟩
    · rw [List.getElem?_eq_none (by simp; omega)] at hx
      cases hx

theorem replicate_space_end_getElem? (K c : Nat) :
    (List.replicate K ForkType.SPACE ++ [ForkType.END])[c]? =
      if c < K then some ForkType.SPACE else if c = K then some ForkType.END else none := by
  by_cases h : c < K
  · rw [List.getElem?_append_left (by simpa using h)]
    simp [h]
  · rw [List.getElem?_append_right (by simpa using h)]
    simp only [List.length_replicate, h, if_false]
    by_cases h2 : c = K
    · subst h2; simp
    · rw [List.getElem?_eq_none (by simp; omega)]
      simp [h2]

/-- The glyph invariant after a child was appended and the sibling and stem rewrite done. -/
theorem GlyphOK.push_glyph {out : List ForkEntry} (hG : GlyphOK out) (hne : 0 < out.length)
    {K p : Nat} (hK : 0 < K) (hp0 : 0 < p) (n : ForkEntry)
    (hn : n.IconList = List.replicate K ForkType.SPACE ++ [ForkType.END])
    (hpr : p ≠ out.length)
    (hdeep : ∀ (i : Nat) (x : Shape), (out.map shapeOf)[i]? = some x → K + 1 ≤ x.len →
      ((∀ (m : Nat) (u : Shape), i < m → (out.map shapeOf)[m]? = some u → K + 1 < u.len)
        ↔ p ≤ i))
    (hplen : ∀ s : Shape, (out.map shapeOf)[p]? = some s → s.len = K + 1)
    (hafter : ∀ (m : Nat) (u : Shape), p < m → (out.map shapeOf)[m]? = some u → K + 1 < u.len)
    {out2 : List ForkEntry}
    (hq : ∀ q, out2[q]? = ((out ++ [n])[q]?).map (rewriteAt K p out.length q)) :
    GlyphOK out2 := by
  have hS2 : out2.map shapeOf = out.map shapeOf ++ [shapeOf n] := by
    rw [map_shapeOf_rewrite hq]; simp
  have hnlen : n.IconList.length = K + 1 := by simp [hn]
  have hSlen : (out.map shapeOf).length = out.length := by simp
  -- the new child itself is not rewritten
  have hnew : rewriteAt K p out.length out.length n = n := by
    unfold rewriteAt
    have h1 : ¬ out.length = p := fun h => hpr h.symm
    have h2 : ¬ (p < out.length ∧ out.length < out.length) := by omega
    simp [h1, h2]
  have hshape : ∀ {i : Nat} {e : ForkEntry}, out[i]? = some e →
      (out.map shapeOf)[i]? = some (shapeOf e) := by
    intro i e he; simp [he]
  refine ⟨?_, ?_, ?_, ?_⟩
  · intro x hx
    rcases rewrite_cases hq hx with ⟨_, e, he, hxe⟩ | ⟨h0, _⟩
    · have : rewriteAt K p out.length 0 e = e := by
        unfold rewriteAt
        have h1 : ¬ 0 = p := by omega
        have h2 : ¬ (p < 0 ∧ 0 < out.length) := by omega
        simp [h1, h2]
      rw [hxe, this]
      exact hG.root_icon e he
    · omega
  · intro i x hi hx h1
    rcases rewrite_cases hq hx with ⟨_, e, he, hxe⟩ | ⟨_, hxe⟩
    · subst hxe
      rw [rewriteAt_other _ _ _ _ _ (by omega : (0 : Nat) ≠ K)]
      rw [rewriteAt_length] at h1
      exact hG.col0 i e hi he h1
    · subst hxe
      rw [rewriteAt_other _ _ _ _ _ (by omega : (0 : Nat) ≠ K), hn,
        replicate_space_end_getElem?]
      simp [hK]
  · intro i x c hi hx hc hclen
    rw [hS2]
    rcases rewrite_cases hq hx with ⟨hil, e, he, hxe⟩ | ⟨hiEq, hxe⟩
    · subst hxe
      rw [rewriteAt_length] at hclen
      have hold := hG.inner i e c hi he hc hclen
      rw [NextAt_append_iff (by rw [hSlen]; exact hil)]
      by_cases hcK : c = K
      · subst hcK
        have hd := hdeep i (shapeOf e) (hshape he) (by simp [shapeOf]; omega)
        by_cases hpi : p ≤ i
        · have hall := hd.mpr hpi
          have hip : i ≠ p := by
            intro hEq
            subst hEq
            have := hplen (shapeOf e) (hshape he)
            simp [shapeOf] at this
            omega
          have hno : ¬ NextAt (out.map shapeOf) i c := by
            rintro ⟨j, s, hij, hs, hlen, _⟩
            have := hall j s hij hs
            omega
          have hsp := hold.2 hno
          have hre : rewriteAt c p out.length i e = stemAt c e := by
            unfold rewriteAt
            have h2 : p < i ∧ i < out.length := ⟨by omega, hil⟩
            simp [hip, h2]
          rw [hre, stemAt_space c e hsp]
          refine ⟨fun _ => rfl, fun hneg => ?_⟩
          exact absurd (Or.inr ⟨by simp [shapeOf, hnlen], hall⟩) hneg
        · have hnall := fun hall => hpi (hd.mp hall)
          have hre : rewriteAt c p out.length i e = e := by
            unfold rewriteAt
            have h1 : ¬ i = p := by omega
            have h2 : ¬ (p < i ∧ i < out.length) := by omega
            simp [h1, h2]
          rw [hre]
          constructor
          · rintro (h | ⟨_, hall⟩)
            · exact hold.1 h
            · exact absurd hall hnall
          · intro hneg
            exact hold.2 (fun h => hneg (Or.inl h))
      · rw [rewriteAt_other _ _ _ _ _ hcK]
        constructor
        · rintro (h | ⟨hl, _⟩)
          · exact hold.1 h
          · simp [shapeOf, hnlen] at hl
            omega
        · intro hneg
          exact hold.2 (fun h => hneg (Or.inl h))
    · subst hiEq
      subst hxe
      rw [hnew] at hclen ⊢
      rw [hnlen] at hclen
      rw [hn, replicate_space_end_getElem?]
      have hcK : c < K := by omega
      refine ⟨fun hnext => ?_, fun _ => by simp [hcK]⟩
      rw [← List.map_singleton shapeOf, ← List.map_append] at hnext
      exact absurd hnext (not_NextAt_of_length_le (by simp))
  · intro i x c hi hx hclen
    rw [hS2]
    rcases rewrite_cases hq hx with ⟨hil, e, he, hxe⟩ | ⟨hiEq, hxe⟩
    · subst hxe
      rw [rewriteAt_length] at hclen
      have hold := hG.last i e c hi he hclen
      rw [NextAt_append_iff (by rw [hSlen]; exact hil)]
      by_cases hcK : c = K
      · subst hcK
        have hd := hdeep i (shapeOf e) (hshape he) (by simp [shapeOf]; omega)
        by_cases hpi : p ≤ i
        · have hall := hd.mpr hpi
          have hip : i = p := by
            by_contra hne'
            have := hafter i (shapeOf e) (by omega) (hshape he)
            simp [shapeOf] at this
            omega
          have hre : rewriteAt c p out.length i e = branchAt c e := by
            unfold rewriteAt
            simp [hip]
          rw [hre, branchAt_self c e (by omega)]
          refine ⟨fun _ => rfl, fun hneg => ?_⟩
          exact absurd (Or.inr ⟨by simp [shapeOf, hnlen], hall⟩) hneg
        · have hnall := fun hall => hpi (hd.mp hall)
          have hre : rewriteAt c p out.length i e = e := by
            unfold rewriteAt
            have h1 : ¬ i = p := by omega
            have h2 : ¬ (p < i ∧ i < out.length) := by omega
            simp [h1, h2]
          rw [hre]
          constructor
          · rintro (h | ⟨_, hall⟩)
            · exact hold.1 h
            · exact absurd hall hnall
          · intro hneg
            exact hold.2 (fun h => hneg (Or.inl h))
      · rw [rewriteAt_other _ _ _ _ _ hcK]
        constructor
        · rintro (h | ⟨hl, _⟩)
          · exact hold.1 h
          · simp [shapeOf, hnlen] at hl
            omega
        · intro hneg
          exact hold.2 (fun h => hneg (Or.inl h))
    · subst hiEq
      subst hxe
      rw [hnew] at hclen ⊢
      rw [hnlen] at hclen
      rw [hn, replicate_space_end_getElem?]
      have hcK : c = K := by omega
      refine ⟨fun hnext => ?_, fun _ => by simp [hcK]⟩
      rw [← List.map_singleton shapeOf, ← List.map_append] at hnext
      exact absurd hnext (not_NextAt_of_length_le (by simp))

/-- When the entry on top of the fork trail has no child in the output yet, it is the last
entry of the output. -/
theorem ShapeOK.no_later_of_no_child {L : List ForkEntry} {trail : List Int} {S : List Shape}
    (h : ShapeOK L trail S) {pk : Nat} {y : Shape} (hy : S[pk]? = some y)
    (hlater : ∀ (m : Nat) (u : Shape), S[m]? = some u → pk < m → y.len < u.len)
    (hno : ∀ (m : Nat) (u : Shape), S[m]? = some u → pk < m → u.len ≠ y.len + 1) :
    ∀ (m : Nat) (u : Shape), S[m]? = some u → ¬ pk < m := by
  have main : ∀ (k : Nat) (m : Nat) (u : Shape), S[m]? = some u → pk < m →
      u.len ≠ y.len + 1 + k := by
    intro k
    induction k with
    | zero => intro m u hu hm; simpa using hno m u hu hm
    | succ k ih =>
      intro m u hu hm hlen
      obtain ⟨q, z, hq, hz, _, hzlen, hbetween⟩ := h.parent_pos m u (by omega) hu
      have hqpk : pk < q := by
        rcases Nat.lt_trichotomy q pk with hlt | heq | hgt
        · have := hbetween pk y hlt hm hy
          omega
        · subst heq
          rw [hy] at hz
          cases hz
          omega
        · exact hgt
      exact ih q z hz hqpk (by omega)
  intro m u hu hm
  have h1 := hlater m u hu hm
  exact main (u.len - (y.len + 1)) m u hu hm (by omega)

/-- The sibling and stem rewrite after a child `n` of the entry on top of the fork trail
was appended: it ends normally, and rewrites the output as `rewriteAt` says, from a
position `p` that meets what the glyph invariant needs. -/
theorem sibling_rewrite_ok {L : List ForkEntry} {trail : List Int} {out : List ForkEntry}
    (hwf : WellFormedForkSet L) (h : ShapeOK L trail (out.map shapeOf)) {pid : Int}
    (hlast : trail.getLast? = some pid) (n : ForkEntry) (hff : n.ForkedFrom = pid)
    (hnew : n.ID ∉ (out.map shapeOf).map Shape.id) :
    ∃ (out2 : List ForkEntry) (p : Nat),
      siblingLoop (trail.length : Int) n.ID n.ForkedFrom (out ++ [n]).length
        (out ++ [n]).length (out ++ [n]) = .ok out2 ∧
      (∀ q, out2[q]? = ((out ++ [n])[q]?).map (rewriteAt trail.length p out.length q)) ∧
      0 < p ∧ p ≠ out.length ∧ 0 < out.length ∧
      (∀ (i : Nat) (x : Shape), (out.map shapeOf)[i]? = some x → trail.length + 1 ≤ x.len →
        ((∀ (m : Nat) (u : Shape), i < m → (out.map shapeOf)[m]? = some u →
          trail.length + 1 < u.len) ↔ p ≤ i)) ∧
      (∀ s : Shape, (out.map shapeOf)[p]? = some s → s.len = trail.length + 1) ∧
      (∀ (m : Nat) (u : Shape), p < m → (out.map shapeOf)[m]? = some u →
        trail.length + 1 < u.len) := by
  obtain ⟨pk, y, hy, hyid, hylen, hlater, hsib⟩ := h.sibling_iff hwf hlast
  have hpk : pk < out.length := by simpa using getElem?_lt_length hy
  have hshape : ∀ {i : Nat} {e : ForkEntry}, out[i]? = some e →
      (out.map shapeOf)[i]? = some (shapeOf e) := by
    intro i e he; simp [he]
  -- an earlier entry never has the ID of the new child
  have hidne : ∀ {q : Nat} {e : ForkEntry}, out[q]? = some e → e.ID ≠ n.ID := by
    intro q e he hEq
    apply hnew
    rw [← hEq]
    exact List.mem_map.mpr ⟨shapeOf e,
      List.mem_map.mpr ⟨e, List.mem_iff_getElem?.mpr ⟨q, he⟩, rfl⟩, rfl⟩
  -- the sibling test of the code, on positions of the old output
  have hcond : ∀ {q : Nat} {e : ForkEntry}, out[q]? = some e →
      ((e.ForkedFrom = n.ForkedFrom ∧ e.ID ≠ n.ID) ↔
        (pk < q ∧ e.IconList.length = trail.length + 1)) := by
    intro q e he
    have := hsib q (shapeOf e) (hshape he)
    simp only [shapeOf] at this
    rw [hff]
    constructor
    · rintro ⟨h1, _⟩; exact this.mp h1
    · intro h1; exact ⟨this.mpr h1, hidne he⟩
  rcases exists_greatest
    (fun q => ∃ e, out[q]? = some e ∧ pk < q ∧ e.IconList.length = trail.length + 1)
    out.length with hnone | ⟨p, hp, ⟨s, hs, hps, hslen⟩, hmax⟩
  · -- no sibling: nothing is rewritten
    have hrun := siblingLoop_none (trail.length : Int) n.ID n.ForkedFrom (out ++ [n]).length
      (out ++ [n]).length (out ++ [n]) (le_refl _) (by
        intro q e hq he
        by_cases hql : q < out.length
        · rw [List.getElem?_append_left hql] at he
          rw [hcond he]
          exact fun hc => hnone q hql ⟨e, he, hc⟩
        · have hqEq : q = out.length := by
            simp only [List.length_append, List.length_singleton] at hq
            omega
          subst hqEq
          simp only [List.getElem?_concat_length, Option.some.injEq] at he
          subst he
          simp)
    have hnolater := h.no_later_of_no_child hy
      (fun m u hu hm => by have := hlater m u hu hm; omega)
      (fun m u hu hm hlen => by
        have hml : m < out.length := by simpa using getElem?_lt_length hu
        have hget : out[m]? = some out[m] := List.getElem?_eq_getElem hml
        have hu' := hshape hget
        rw [hu] at hu'
        cases hu'
        simp only [shapeOf] at hlen
        exact hnone m hml ⟨out[m], hget, hm, by omega⟩)
    refine ⟨out ++ [n], out.length + 1, hrun, ?_, by omega, by omega, by omega, ?_, ?_, ?_⟩
    · intro q
      cases hq : (out ++ [n])[q]? with
      | none => rfl
      | some e =>
        have hql := getElem?_lt_length hq
        simp only [List.length_append, List.length_singleton] at hql
        have h1 : ¬ q = out.length + 1 := by omega
        have h2 : ¬ (out.length + 1 < q ∧ q < out.length) := by omega
        simp [rewriteAt, h1, h2]
    · intro i x hx hxlen
      have hil : i < out.length := by simpa using getElem?_lt_length hx
      constructor
      · intro hall
        exfalso
        rcases Nat.lt_trichotomy i pk with hlt | heq | hgt
        · have := hall pk y hlt hy
          omega
        · subst heq
          rw [hy] at hx
          cases hx
          omega
        · exact hnolater i x hx hgt
      · intro hle; omega
    · intro s' hs'
      have := getElem?_lt_length hs'
      simp at this
    · intro m u hm hu
      have := getElem?_lt_length hu
      simp at this
      omega
  · -- the nearest earlier sibling sits at position `p`
    have hpN : p < (out ++ [n]).length := by simp; omega
    have hafter : ∀ (m : Nat) (u : Shape), p < m → (out.map shapeOf)[m]? = some u →
        trail.length + 1 < u.len := by
      intro m u hm hu
      have hml : m < out.length := by simpa using getElem?_lt_length hu
      have hget : out[m]? = some out[m] := List.getElem?_eq_getElem hml
      have hu' := hshape hget
      rw [hu] at hu'
      cases hu'
      have h1 := hlater m _ hu (by omega)
      have h2 : (out[m]).IconList.length ≠ trail.length + 1 :=
        fun hc => hmax m hm hml ⟨out[m], hget, by omega, hc⟩
      simp only [shapeOf] at h1 ⊢
      omega
    obtain ⟨out2, hrun, _, hq⟩ := rewrite_some trail.length n.ID n.ForkedFrom (out ++ [n]) p s
      hpN (by rw [List.getElem?_append_left hp]; exact hs) ((hcond hs).mpr ⟨hps, hslen⟩)
      (by
        intro q e h1 h2 he
        by_cases hql : q < out.length
        · rw [List.getElem?_append_left hql] at he
          rw [hcond he]
          exact fun hc => hmax q h1 hql ⟨e, he, hc⟩
        · have hqEq : q = out.length := by
            simp only [List.length_append, List.length_singleton] at h2
            omega
          subst hqEq
          simp only [List.getElem?_concat_length, Option.some.injEq] at he
          subst he
          simp)
      (by omega)
      (by
        intro m e h1 h2 he
        simp only [List.length_append, List.length_singleton, Nat.add_sub_cancel] at h2
        rw [List.getElem?_append_left h2] at he
        have := hafter m (shapeOf e) h1 (hshape he)
        simp only [shapeOf] at this
        omega)
    refine ⟨out2, p, hrun, ?_, by omega, by omega, by omega, ?_, ?_, hafter⟩
    · intro q
      rw [hq q]
      simp only [List.length_append, List.length_singleton, Nat.add_sub_cancel]
      rfl
    · intro i x hx hxlen
      constructor
      · intro hall
        by_contra hlt
        have := hall p (shapeOf s) (by omega) (hshape hs)
        simp only [shapeOf] at this
        omega
      · intro hle m u hm hu
        exact hafter m u (by omega) hu
    · intro s' hs'
      rw [hshape hs] at hs'
      cases hs'
      exact hslen

/-! ### One iteration keeps the invariant -/

theorem forkStep_inv {L : List ForkEntry} (u : String) {st : ForkState}
    (hwf : WellFormedForkSet L) (hinv : ForkInv L st) (hnum : 0 < st.numUnprocessedEntries) :
    ∃ st', forkStep u st = .ok st' ∧ ForkInv L st' ∧
      2 * st'.numUnprocessedEntries + st'.forkTrail.length + 1
        = 2 * st.numUnprocessedEntries + st.forkTrail.length := by
  obtain ⟨raw, out, trail, iconDepth, num⟩ := st
  obtain ⟨hdepth, hraw, hshape, hglyph⟩ := hinv
  simp only at hdepth hraw hshape hglyph hnum
  have htrail := hraw.trail_ne_nil hwf hnum
  obtain ⟨pid, hlast⟩ : ∃ pid, trail.getLast? = some pid := by
    cases h : trail.getLast? with
    | none => exact absurd (List.getLast?_eq_none_iff.mp h) htrail
    | some a => exact ⟨a, rfl⟩
  have hKpos : 0 < trail.length := (getLast?_eq_getElem?_pred hlast).1
  obtain ⟨r0, rest, hrawEq, hr0⟩ := hraw.root_done
  subst hrawEq
  unfold forkStep nextChild
  simp only [hlast]
  cases hscan : scanChild u pid iconDepth rest with
  | none =>
    simp only
    refine ⟨_, rfl, ⟨?_, ?_, ?_, ?_⟩, ?_⟩
    · simp only [List.length_dropLast]
      omega
    · exact hraw.pop_trail hlast (by simpa using scanChild_none hscan)
    · exact hshape.pop_shape
    · exact hglyph
    · simp only [List.length_dropLast]
      omega
  | some res =>
    obtain ⟨child, rest'⟩ := res
    obtain ⟨pre, e0, post, hrest, _, he0, he0ff, hchild, hrest'⟩ := scanChild_some hscan
    subst hrest hrest'
    have hcid : child.ID = e0.ID := by rw [hchild]; exact childEntry_ID _ _ _
    have hcff : child.ForkedFrom = e0.ForkedFrom := by
      rw [hchild]; exact childEntry_ForkedFrom _ _ _
    have he0icon : e0.IconList = [] := hraw.fresh e0 (by simp) he0
    have hcicon : child.IconList
        = List.replicate trail.length ForkType.SPACE ++ [ForkType.END] := by
      rw [hchild, childEntry_IconList, he0icon, hdepth]
      simp
    have hcnew : child.ID ∉ (out.map shapeOf).map Shape.id := by
      intro hmem
      obtain ⟨s, hs, hsid⟩ := List.mem_map.mp hmem
      obtain ⟨e, he, hp, hi, _⟩ := hraw.out_done s hs
      have : e = e0 := hraw.raw_eq_of_ID hwf he (by simp) (by rw [hi, hsid, hcid])
      subst this
      rw [he0] at hp
      cases hp
    have hcL : ∃ e ∈ L, e.ID = (shapeOf child).id ∧ e.ForkedFrom = (shapeOf child).ff := by
      obtain ⟨e, he, h1, h2⟩ := skel_mem hraw.skel_eq (e := e0) (by simp)
      exact ⟨e, he, by simp [shapeOf, h1, hcid], by simp [shapeOf, h2, hcff]⟩
    obtain ⟨out2, p, hrun, hq, hp0, hpr, hne, hdeep, hplen, hafter⟩ :=
      sibling_rewrite_ok hwf hshape hlast child (by rw [hcff, he0ff]) hcnew
    have hcol : iconDepth + 1 - 1 = (trail.length : Int) := by omega
    have hme : (out ++ [child])[(out ++ [child]).length - 1]? = some child := by simp
    simp only [hme, hcol, hrun]
    have hS2 : out2.map shapeOf = out.map shapeOf ++ [shapeOf child] := by
      rw [map_shapeOf_rewrite hq]; simp
    refine ⟨_, rfl, ⟨?_, ?_, ?_, ?_⟩, ?_⟩
    · simp only [List.length_append, List.length_singleton]
      push_cast
      omega
    · simp only [hS2]
      have := hraw.push_child he0 child hcid hcff
      rw [hchild] at this ⊢
      exact this
    · simp only [hS2]
      exact hshape.push_shape hlast (shapeOf child) (by simp [shapeOf, hcff, he0ff])
        (by simp [shapeOf, hcicon]) hcnew hcL
    · exact hglyph.push_glyph hne hKpos hp0 child hcicon hpr hdeep hplen hafter hq
    · simp only [List.length_append, List.length_singleton]
      omega

/-! ### The whole loop -/

theorem rootEntry_ID (r : ForkEntry) : (rootEntry r).ID = r.ID := by
  unfold rootEntry; simp only; split_ifs <;> rfl

theorem rootEntry_ForkedFrom (r : ForkEntry) : (rootEntry r).ForkedFrom = r.ForkedFrom := by
  unfold rootEntry; simp only; split_ifs <;> rfl

theorem rootEntry_IconList (r : ForkEntry) :
    (rootEntry r).IconList = r.IconList ++ [ForkType.ROOT] := by
  unfold rootEntry; simp only; split_ifs <;> rfl

/-- The invariant holds when the loop is entered. -/
theorem forkInv_init {r : ForkEntry} {rest : List ForkEntry}
    (hwf : WellFormedForkSet (r :: rest)) :
    ForkInv (r :: rest)
      ⟨{ rootEntry r with Processed := true } :: rest, [rootEntry r], [(rootEntry r).ID], 1,
        (r :: rest).length - 1⟩ := by
  have hricon : (rootEntry r).IconList = [ForkType.ROOT] := by
    rw [rootEntry_IconList, (hwf.fresh r (by simp)).1]; rfl
  have hr0 : r.ForkedFrom = 0 := by
    obtain ⟨r', rest', hEq, h0⟩ := hwf.root_first
    cases hEq
    exact h0
  refine ⟨by simp, ⟨?_, ?_, ?_, ?_, ?_, ?_, ?_⟩, ⟨?_, ?_, ?_, ?_, ?_⟩, ⟨?_, ?_, ?_, ?_⟩⟩
  · simp [skel, rootEntry_ID, rootEntry_ForkedFrom]
  · simp
    omega
  · exact ⟨_, _, rfl, rfl⟩
  · simp only [List.length_cons, Nat.add_sub_cancel, List.tail_cons]
    have : ∀ e ∈ rest, (fun e : ForkEntry => !e.Processed) e = true := by
      intro e he
      simp [(hwf.fresh e (List.mem_cons_of_mem _ he)).2]
    rw [List.countP_eq_length.mpr this]
  · intro e he _
    exact (hwf.fresh e (List.mem_cons_of_mem _ (by simpa using he))).1
  · intro s hs
    simp only [List.map_cons, List.map_nil, List.mem_singleton] at hs
    subst hs
    exact ⟨{ rootEntry r with Processed := true }, by simp, rfl, rfl, rfl⟩
  · intro e he _
    simp only [List.tail_cons] at he ⊢
    have heL : e ∈ r :: rest := List.mem_cons_of_mem _ he
    obtain ⟨d, hd⟩ := hwf.reachable e heL
    have hne : e.ID ≠ r.ID := by
      have := hwf.ids_nodup
      simp only [List.map_cons, List.nodup_cons] at this
      intro hEq
      exact this.1 (List.mem_map.mpr ⟨e, he, hEq⟩)
    generalize hid : e.ID = id at hd
    cases hd with
    | @root r' rest' hL =>
      cases hL
      exact absurd hid hne
    | @child e' d' he' hd' =>
      have : e' = e := hwf.entry_eq_of_ID he' heL hid.symm
      subst this
      obtain ⟨p, hp, hpid⟩ := hd'.mem_set
      rcases List.mem_cons.mp hp with rfl | hp'
      · left
        simp [rootEntry_ID, hpid]
      · right
        exact ⟨p, hp', (hwf.fresh p hp).2, hpid⟩
  · intro s hs
    simp only [List.map_cons, List.map_nil, List.getElem?_cons_zero, Option.some.injEq] at hs
    subst hs
    simp [shapeOf, rootEntry_ForkedFrom, hr0, hricon]
  · simp
  · intro s hs
    simp only [List.map_cons, List.map_nil, List.mem_singleton] at hs
    subst hs
    refine ⟨0, by simp [shapeOf, hricon], ?_⟩
    simp only [shapeOf, rootEntry_ID]
    exact HopDepth.root rfl
  · intro t id ht
    cases t with
    | zero =>
      simp only [List.getElem?_cons_zero, Option.some.injEq] at ht
      subst ht
      refine ⟨0, shapeOf (rootEntry r), by simp, rfl, by simp [shapeOf, hricon], ?_⟩
      intro m u hm hu
      cases m with
      | zero => omega
      | succ m => simp at hu
    | succ t => simp at ht
  · intro i s hi hs
    cases i with
    | zero => omega
    | succ i => simp at hs
  · intro x hx
    simp only [List.getElem?_cons_zero, Option.some.injEq] at hx
    subst hx
    exact hricon
  · intro i x hi hx
    cases i with
    | zero => omega
    | succ i => simp at hx
  · intro i x c hi hx
    cases i with
    | zero => omega
    | succ i => simp at hx
  · intro i x c hi hx
    cases i with
    | zero => omega
    | succ i => simp at hx

theorem forkLoop_inv {L : List ForkEntry} (u : String) (hwf : WellFormedForkSet L) :
    ∀ (fuel : Nat) (st : ForkState), ForkInv L st →
      2 * st.numUnprocessedEntries + st.forkTrail.length < fuel →
      ∃ out, forkLoop u fuel st = .ok out ∧
        ∃ st', ForkInv L st' ∧ st'.outputList = out ∧ st'.numUnprocessedEntries = 0 := by
  intro fuel
  induction fuel with
  | zero => intro st _ h; omega
  | succ f ih =>
    intro st hinv hf
    unfold forkLoop
    by_cases hnum : st.numUnprocessedEntries > 0
    · obtain ⟨st1, hstep, hinv1, hmeasure⟩ := forkStep_inv u hwf hinv hnum
      simp only [hnum, if_true, hstep]
      exact ih st1 hinv1 (by omega)
    · simp only [hnum, if_false]
      exact ⟨st.outputList, rfl, st, hinv, rfl, by omega⟩

/-- On a well-formed fork set `ForkTree` returns normally, and its output is the output
list of a final state of the loop that satisfies the invariant. -/
theorem ForkTree_inv (u : String) {L : List ForkEntry} (hwf : WellFormedForkSet L) :
    ∃ out, ForkTree u L = .ok out ∧
      ∃ st, ForkInv L st ∧ st.outputList = out ∧ st.numUnprocessedEntries = 0 := by
  obtain ⟨r, rest, hL, hr0⟩ := hwf.root_first
  subst hL
  unfold ForkTree
  simp only [hr0, ne_eq, not_true_eq_false, if_false]
  exact forkLoop_inv u hwf _ _ (forkInv_init hwf) (by simp)

/-! ### From the pre-order shape back to parents, siblings and ancestors -/

theorem exists_least (P : Nat → Prop) (i : Nat) :
    ∀ j, i < j → P j → ∃ j', i < j' ∧ j' ≤ j ∧ P j' ∧ ∀ m, i < m → m < j' → ¬ P m := by
  intro j
  induction j using Nat.strong_induction_on with
  | _ j ih =>
    intro hij hP
    by_cases hex : ∃ m, i < m ∧ m < j ∧ P m
    · obtain ⟨m, h1, h2, h3⟩ := hex
      obtain ⟨j', a, b, c, d⟩ := ih m h2 h1 h3
      exact ⟨j', a, by omega, c, d⟩
    · refine ⟨j, hij, le_refl _, hP, ?_⟩
      intro m h1 h2 h3
      exact hex ⟨m, h1, h2, h3⟩

/-- A line of column `c` passes row `i` exactly when the ancestor (or the entry itself) at
depth `c`, found at position `k`, has a sibling later in the output. -/
theorem ShapeOK.nextAt_iff_sibling {L : List ForkEntry} {trail : List Int} {S : List Shape}
    (h : ShapeOK L trail S) {k i c : Nat} {a : Shape} (hc : 1 ≤ c) (ha : S[k]? = some a)
    (halen : a.len = c + 1) (hki : k ≤ i)
    (hbetween : ∀ (m : Nat) (u : Shape), k < m → m ≤ i → S[m]? = some u → c + 1 < u.len) :
    NextAt S i c ↔ ∃ (j : Nat) (b : Shape), k < j ∧ S[j]? = some b ∧ b.ff = a.ff := by
  have hk0 : 0 < k := by
    rcases Nat.eq_zero_or_pos k with h0 | h0
    · subst h0
      have := (h.first a ha).2
      omega
    · exact h0
  obtain ⟨qa, za, hqa, hza, hzaid, hzalen, hba⟩ := h.parent_pos k a hk0 ha
  constructor
  · rintro ⟨j, s, hij, hs, hslen, hbj⟩
    obtain ⟨qj, zj, hqj, hzj, hzjid, hzjlen, hbs⟩ := h.parent_pos j s (by omega) hs
    have hq : qj = qa := by
      rcases Nat.lt_trichotomy qj qa with hlt | heq | hgt
      · have := hbs qa za hlt (by omega) hza
        omega
      · exact heq
      · have hqjk : qj < k := by
          by_contra hge
          rcases Nat.lt_trichotomy qj k with h1 | h1 | h1
          · exact hge h1
          · subst h1
            rw [ha] at hzj
            cases hzj
            omega
          · by_cases h2 : qj ≤ i
            · have := hbetween qj zj h1 h2 hzj
              omega
            · have := hbj qj zj (by omega) hqj hzj
              omega
        have := hba qj zj hgt hqjk hzj
        omega
    subst hq
    rw [hza] at hzj
    cases hzj
    exact ⟨j, s, by omega, hs, by rw [← hzjid, hzaid]⟩
  · rintro ⟨j, b, hkj, hb, hbff⟩
    obtain ⟨qb, zb, hqb, hzb, hzbid, hzblen, hbb⟩ := h.parent_pos j b (by omega) hb
    have hq : qb = qa := h.pos_unique hzb hza (by rw [hzbid, hbff, hzaid])
    subst hq
    rw [hza] at hzb
    cases hzb
    have hblen : b.len = c + 1 := by omega
    have hij : i < j := by
      by_contra hle
      have := hbetween j b hkj (by omega) hb
      omega
    obtain ⟨j', h1, h2, ⟨u', hu', hu'len⟩, hmin⟩ :=
      exists_least (fun m => ∃ u, S[m]? = some u ∧ u.len = c + 1) i j hij ⟨b, hb, hblen⟩
    refine ⟨j', u', h1, hu', hu'len, ?_⟩
    intro m u hm1 hm2 hu
    have hge := hbb m u (by omega) (by omega) hu
    have hne : u.len ≠ c + 1 := fun hEq => hmin m hm1 hm2 ⟨u, hu, hEq⟩
    omega

theorem AncestorOrSelf.mem_target {L : List ForkEntry} {a x : Int} (h : AncestorOrSelf L a x) :
    ∃ e ∈ L, e.ID = x := by
  cases h with
  | self he => exact ⟨_, he, rfl⟩
  | up he _ => exact ⟨_, he, rfl⟩

/-- An ancestor of an output entry comes before it in the output, and everything after the
ancestor up to the entry lies deeper than the ancestor. -/
theorem ShapeOK.ancestor_pos {L : List ForkEntry} {trail : List Int} {S : List Shape}
    (hwf : WellFormedForkSet L) (h : ShapeOK L trail S)
    (hcorr : ∀ s ∈ S, ∀ e ∈ L, e.ID = s.id → e.ForkedFrom = s.ff) :
    ∀ (aid xid : Int), AncestorOrSelf L aid xid →
      ∀ (k i : Nat) (a x : Shape), S[k]? = some a → S[i]? = some x → a.id = aid → x.id = xid →
        k ≤ i ∧ ∀ (m : Nat) (u : Shape), k < m → m ≤ i → S[m]? = some u → a.len < u.len := by
  intro aid xid hanc
  induction hanc with
  | @self e he =>
    intro k i a x ha hx haid hxid
    have : k = i := h.pos_unique ha hx (by rw [haid, hxid])
    subst this
    exact ⟨le_refl _, fun m u h1 h2 => by omega⟩
  | @up e aid he hup ih =>
    intro k i a x ha hx haid hxid
    have hxff : e.ForkedFrom = x.ff := hcorr x (List.mem_iff_getElem?.mpr ⟨i, hx⟩) e he hxid.symm
    have hi0 : 0 < i := by
      rcases Nat.eq_zero_or_pos i with h0 | h0
      · subst h0
        have hff0 := (h.first x hx).1
        rw [← hxff] at hff0
        rw [hff0] at hup
        obtain ⟨e', he', hid'⟩ := hup.mem_target
        exact absurd hid' (hwf.ids_nonzero e' he')
      · exact h0
    obtain ⟨q, z, hq, hz, hzid, hzlen, hbz⟩ := h.parent_pos i x hi0 hx
    obtain ⟨hkq, hbetween⟩ := ih k q a z ha hz haid (by rw [hzid, hxff])
    have hza : a.len ≤ z.len := by
      rcases Nat.lt_or_ge k q with h1 | h1
      · have := hbetween q z h1 (le_refl _) hz
        omega
      · have : k = q := by omega
        subst this
        rw [ha] at hz
        cases hz
        exact le_refl _
    refine ⟨by omega, ?_⟩
    intro m u h1 h2 hu
    by_cases hmq : m ≤ q
    · exact hbetween m u h1 hmq hu
    · by_cases hmi : m < i
      · have := hbz m u (by omega) hmi hu
        omega
      · have : m = i := by omega
        subst this
        rw [hx] at hu
        cases hu
        omega

/-- Every output entry has, at each depth up to its own, an ancestor (or itself) in the
output. -/
theorem ShapeOK.ancestor_exists {L : List ForkEntry} {trail : List Int} {S : List Shape}
    (h : ShapeOK L trail S)
    (hcorr : ∀ s ∈ S, ∀ e ∈ L, e.ID = s.id → e.ForkedFrom = s.ff) :
    ∀ (n i : Nat) (x : Shape) (c : Nat), S[i]? = some x → x.len = c + 1 + n →
      ∃ (k : Nat) (a : Shape), S[k]? = some a ∧ a.len = c + 1 ∧ AncestorOrSelf L a.id x.id := by
  intro n
  induction n with
  | zero =>
    intro i x c hx hlen
    obtain ⟨d, _, hd⟩ := h.hop x (List.mem_iff_getElem?.mpr ⟨i, hx⟩)
    obtain ⟨e, he, heid⟩ := hd.mem_set
    refine ⟨i, x, hx, by omega, ?_⟩
    rw [← heid]
    exact AncestorOrSelf.self he
  | succ n ih =>
    intro i x c hx hlen
    have hi0 : 0 < i := by
      rcases Nat.eq_zero_or_pos i with h0 | h0
      · subst h0
        have := (h.first x hx).2
        omega
      · exact h0
    obtain ⟨q, z, hq, hz, hzid, hzlen, _⟩ := h.parent_pos i x hi0 hx
    obtain ⟨k, a, ha, halen, hanc⟩ := ih q z c hz (by omega)
    obtain ⟨d, _, hd⟩ := h.hop x (List.mem_iff_getElem?.mpr ⟨i, hx⟩)
    obtain ⟨e, he, heid⟩ := hd.mem_set
    have hxff : e.ForkedFrom = x.ff := hcorr x (List.mem_iff_getElem?.mpr ⟨i, hx⟩) e he heid
    refine ⟨k, a, ha, halen, ?_⟩
    rw [← heid]
    apply AncestorOrSelf.up he
    rw [hxff, ← hzid]
    exact hanc

/-- The rows of the initial fork set and the output entries agree on `ForkedFrom`. -/
theorem ForkInv.corr {L : List ForkEntry} {st : ForkState} (hwf : WellFormedForkSet L)
    (hinv : ForkInv L st) :
    ∀ s ∈ st.outputList.map shapeOf, ∀ e ∈ L, e.ID = s.id → e.ForkedFrom = s.ff := by
  intro s hs e he hid
  obtain ⟨e', he', _, hid', hff'⟩ := hinv.raw.out_done s hs
  obtain ⟨e'', he'', hid'', hff''⟩ := skel_mem hinv.raw.skel_eq he'
  have : e'' = e := hwf.entry_eq_of_ID he'' he (by rw [hid'', hid', hid])
  subst this
  rw [hff'', hff']

/-! ### Broken references -/

theorem stemLoop_ok_or_panic (col : Int) (i : Nat) :
    ∀ (l : Nat) (out : List ForkEntry),
      stemLoop col i l out = .panic ∨ ∃ out', stemLoop col i l out = .ok out' := by
  intro l
  induction l with
  | zero => intro out; exact Or.inr ⟨out, rfl⟩
  | succ l ih =>
    intro out
    unfold stemLoop
    split
    · split
      · exact Or.inl rfl
      · split
        · exact Or.inl rfl
        · split
          · split
            · exact Or.inl rfl
            · exact ih _
          · exact ih _
    · exact Or.inr ⟨out, rfl⟩

theorem siblingLoop_ok_or_panic (col : Int) (myID myFF : Int) (N : Nat) :
    ∀ (i : Nat) (out : List ForkEntry),
      siblingLoop col myID myFF N i out = .panic ∨
        ∃ out', siblingLoop col myID myFF N i out = .ok out' := by
  intro i
  induction i with
  | zero => intro out; exact Or.inr ⟨out, rfl⟩
  | succ i ih =>
    intro out
    unfold siblingLoop
    split
    · exact Or.inl rfl
    · split
      · split
        · exact Or.inl rfl
        · exact stemLoop_ok_or_panic _ _ _ _
      · exact ih _

/-- One iteration on a fork set with any references: it panics, or it goes on with the
reachability invariant and a smaller measure. -/
theorem forkStep_reach {L : List ForkEntry} (u : String) {st : ForkState}
    (hinv : ReachInv L st.dbList st.forkTrail st.numUnprocessedEntries)
    (hnum : 0 < st.numUnprocessedEntries) :
    forkStep u st = .panic ∨
      ∃ st', forkStep u st = .ok st' ∧
        ReachInv L st'.dbList st'.forkTrail st'.numUnprocessedEntries ∧
        2 * st'.numUnprocessedEntries + st'.forkTrail.length + 1
          = 2 * st.numUnprocessedEntries + st.forkTrail.length := by
  obtain ⟨raw, out, trail, iconDepth, num⟩ := st
  simp only at hinv hnum
  unfold forkStep nextChild
  cases hlast : trail.getLast? with
  | none => exact Or.inl rfl
  | some pid =>
    have hKpos : 0 < trail.length := (getLast?_eq_getElem?_pred hlast).1
    have hpid : pid ∈ trail := List.mem_of_getLast?_eq_some hlast
    cases hrawEq : raw with
    | nil => exact absurd hrawEq hinv.nonempty
    | cons r0 rest =>
      subst hrawEq
      simp only
      cases hscan : scanChild u pid iconDepth rest with
      | none =>
        right
        refine ⟨_, rfl, ⟨hinv.skel_eq, hinv.nonempty, hinv.num_eq, ?_, hinv.done_reach⟩, ?_⟩
        · intro id hid
          exact hinv.trail_reach id (List.mem_of_mem_dropLast hid)
        · simp only [List.length_dropLast]
          omega
      | some res =>
        obtain ⟨child, rest'⟩ := res
        obtain ⟨pre, e0, post, hrest, _, he0, he0ff, hchild, hrest'⟩ := scanChild_some hscan
        subst hrest hrest'
        have hcid : child.ID = e0.ID := by rw [hchild]; exact childEntry_ID _ _ _
        have hcff : child.ForkedFrom = e0.ForkedFrom := by
          rw [hchild]; exact childEntry_ForkedFrom _ _ _
        have hreach : ∃ d, HopDepth L child.ID d := by
          obtain ⟨d, hd⟩ := hinv.trail_reach pid hpid
          obtain ⟨e, he, h1, h2⟩ := skel_mem hinv.skel_eq (e := e0) (by simp)
          refine ⟨d + 1, ?_⟩
          rw [hcid, ← h1]
          apply HopDepth.child he
          rw [h2, he0ff]
          exact hd
        have hme : (out ++ [child])[(out ++ [child]).length - 1]? = some child := by simp
        simp only [hme]
        rcases siblingLoop_ok_or_panic (iconDepth + 1 - 1) child.ID child.ForkedFrom
            (out ++ [child]).length (out ++ [child]).length (out ++ [child]) with hp | ⟨out2, hok⟩
        · left
          rw [hp]
        · right
          rw [hok]
          have hnum_eq := hinv.num_eq
          simp only [List.tail_cons, List.countP_append, List.countP_cons, he0, Bool.not_false,
            if_true] at hnum_eq
          refine ⟨_, rfl, ⟨?_, by simp, ?_, ?_, ?_⟩, ?_⟩
          · rw [← hinv.skel_eq, hchild]
            simp [skel, childEntry_ID, childEntry_ForkedFrom]
          · simp only [List.tail_cons, List.countP_append, List.countP_cons, Bool.not_true]
            simp
            omega
          · intro id hid
            rcases List.mem_append.mp hid with h | h
            · exact hinv.trail_reach id h
            · simp only [List.mem_singleton] at h
              subst h
              exact hreach
          · intro e he hproc
            simp only [List.tail_cons, List.mem_append, List.mem_cons] at he
            rcases he with he | rfl | he
            · exact hinv.done_reach e (by simp [he]) hproc
            · rw [← hchild]
              exact hreach
            · exact hinv.done_reach e (by simp [he]) hproc
          · simp only [List.length_append, List.length_singleton]
            omega

/-- While an unreachable entry is in the raw list, the counter of unprocessed entries is
positive. -/
theorem ReachInv.num_pos {L raw : List ForkEntry} {trail : List Int} {num : Nat}
    (hinv : ReachInv L raw trail num) {x : ForkEntry} (hx : x ∈ L.tail)
    (hun : ¬ ∃ d, HopDepth L x.ID d) : 0 < num := by
  have htail : raw.tail.map skel = L.tail.map skel := by
    have := congrArg List.tail hinv.skel_eq
    simpa [List.map_tail] using this
  have : skel x ∈ raw.tail.map skel := by rw [htail]; exact List.mem_map_of_mem _ hx
  obtain ⟨e, he, hs⟩ := List.mem_map.mp this
  simp only [skel, Prod.mk.injEq] at hs
  rw [hinv.num_eq]
  apply List.countP_pos_iff.mpr
  refine ⟨e, he, ?_⟩
  cases hp : e.Processed with
  | false => rfl
  | true =>
    obtain ⟨d, hd⟩ := hinv.done_reach e he hp
    rw [hs.1] at hd
    exact absurd ⟨d, hd⟩ hun

theorem forkLoop_reach {L : List ForkEntry} (u : String) {x : ForkEntry} (hx : x ∈ L.tail)
    (hun : ¬ ∃ d, HopDepth L x.ID d) :
    ∀ (fuel : Nat) (st : ForkState),
      ReachInv L st.dbList st.forkTrail st.numUnprocessedEntries →
      2 * st.numUnprocessedEntries + st.forkTrail.length < fuel →
      forkLoop u fuel st = .panic := by
  intro fuel
  induction fuel with
  | zero => intro st _ h; omega
  | succ f ih =>
    intro st hinv hf
    have hnum := hinv.num_pos hx hun
    unfold forkLoop
    simp only [gt_iff_lt, hnum, if_true]
    rcases forkStep_reach u hinv hnum with hp | ⟨st1, hstep, hinv1, hm⟩
    · rw [hp]
    · rw [hstep]
      exact ih st1 hinv1 (by omega)

/-- On every fork set whose first entry is the root and in which some other row is not
reachable from the root through `ForkedFrom`, `ForkTree` ends in a panic. -/
theorem ForkTree_panics_of_unreachable (u : String) (r : ForkEntry) (rest : List ForkEntry)
    (hr : r.ForkedFrom = 0) (hfresh : ∀ e ∈ rest, e.Processed = false) {x : ForkEntry}
    (hx : x ∈ rest) (hun : ¬ ∃ d, HopDepth (r :: rest) x.ID d) :
    ForkTree u (r :: rest) = .panic := by
  unfold ForkTree
  simp only [hr, ne_eq, not_true_eq_false, if_false]
  apply forkLoop_reach u (x := x) (by simpa using hx) hun
  · refine ⟨?_, by simp, ?_, ?_, ?_⟩
    · simp [skel, rootEntry_ID, rootEntry_ForkedFrom]
    · simp only [List.length_cons, Nat.add_sub_cancel, List.tail_cons]
      have : ∀ e ∈ rest, (fun e : ForkEntry => !e.Processed) e = true := by
        intro e he
        simp [hfresh e he]
      rw [List.countP_eq_length.mpr this]
    · intro id hid
      simp only [List.mem_singleton] at hid
      subst hid
      rw [rootEntry_ID]
      exact ⟨0, HopDepth.root rfl⟩
    · intro e he hp
      simp only [List.tail_cons] at he
      rw [hfresh e he] at hp
      cases hp
  · simp

/-! ### The claims on the fork tree -/

theorem exampleForks_wf : WellFormedForkSet exampleForks := by
  have hR : HopDepth exampleForks 1 0 :=
    HopDepth.root (r := forkRow "r" "R" true 1 0) rfl
  have hA : HopDepth exampleForks 2 1 :=
    HopDepth.child (e := forkRow "a" "A" true 2 1) (by simp [exampleForks]) hR
  have hC : HopDepth exampleForks 3 2 :=
    HopDepth.child (e := forkRow "c" "C" true 3 2) (by simp [exampleForks]) hA
  have hB : HopDepth exampleForks 4 1 :=
    HopDepth.child (e := forkRow "b" "B" true 4 1) (by simp [exampleForks]) hR
  refine ⟨⟨_, _, rfl, rfl⟩, by decide, by decide, ?_, by decide⟩
  intro e he
  simp only [exampleForks, List.mem_cons, List.mem_singleton, List.not_mem_nil, or_false] at he
  rcases he with rfl | rfl | rfl | rfl
  · exact ⟨0, hR⟩
  · exact ⟨1, hA⟩
  · exact ⟨2, hC⟩
  · exact ⟨1, hB⟩

theorem laterSibling_iff {out : List ForkEntry} {k : Nat} {a : ForkEntry}
    (ha : out[k]? = some a) :
    LaterSibling out k ↔
      ∃ (j : Nat) (b : Shape), k < j ∧ (out.map shapeOf)[j]? = some b ∧ b.ff = (shapeOf a).ff := by
  constructor
  · rintro ⟨j, x, y, hkj, hx, hy, hff⟩
    rw [ha] at hx
    cases hx
    exact ⟨j, shapeOf y, hkj, by simp [hy], hff⟩
  · rintro ⟨j, b, hkj, hb, hff⟩
    rw [List.getElem?_map] at hb
    cases hy : out[j]? with
    | none => rw [hy] at hb; cases hb
    | some y =>
      rw [hy] at hb
      simp only [Option.map_some', Option.some.injEq] at hb
      subst hb
      exact ⟨j, a, y, hkj, ha, hy, hff⟩

/-- C7: on a well-formed fork set `ForkTree` returns normally with as many entries as the
set has; the first output entry is the root, with icon list `[ROOT]`, and every other
output entry has an icon list of length `d + 1`, where `d` is its number of `ForkedFrom`
hops to the root (which exists and is unique). -/
theorem ForkTree_icon_length (u : String) (L : List ForkEntry) (hwf : WellFormedForkSet L) :
    ∃ out, ForkTree u L = .ok out ∧ out.length = L.length ∧
      ∃ root rest, out = root :: rest ∧ root.IconList = [ForkType.ROOT] ∧
        HopDepth L root.ID 0 ∧
        ∀ x ∈ rest, ∃ d, HopDepth L x.ID d ∧ x.IconList.length = d + 1 ∧
          ∀ d', HopDepth L x.ID d' → d' = d := by
  obtain ⟨out, hrun, st, hinv, hout, hnum⟩ := ForkTree_inv u hwf
  subst hout
  have hcount := hinv.raw.count
  rw [hnum] at hcount
  simp only [List.length_map, Nat.add_zero] at hcount
  refine ⟨st.outputList, hrun, hcount, ?_⟩
  have hLpos : 0 < L.length := by
    obtain ⟨r, rest, hL, _⟩ := hwf.root_first
    simp [hL]
  cases hO : st.outputList with
  | nil => rw [hO] at hcount; simp at hcount; omega
  | cons root rest =>
    have hhop : ∀ x ∈ st.outputList, ∃ d, HopDepth L x.ID d ∧ x.IconList.length = d + 1 ∧
        ∀ d', HopDepth L x.ID d' → d' = d := by
      intro x hx
      obtain ⟨d, hlen, hd⟩ := hinv.shape.hop (shapeOf x) (List.mem_map_of_mem _ hx)
      exact ⟨d, hd, hlen, fun d' hd' => hd'.unique hwf hd⟩
    have hricon : root.IconList = [ForkType.ROOT] :=
      hinv.glyph.root_icon root (by rw [hO]; simp)
    refine ⟨root, rest, rfl, hricon, ?_, ?_⟩
    · obtain ⟨d, hd, hlen, _⟩ := hhop root (by rw [hO]; simp)
      rw [hricon] at hlen
      simp only [List.length_singleton] at hlen
      have : d = 0 := by omega
      subst this
      exact hd
    · intro x hx
      exact hhop x (by rw [hO]; exact List.mem_cons_of_mem _ hx)

/-- Witness of C7 on the fork set R, A (from R), C (from A), B (from R): the icon lists
have lengths 1, 2, 3, 2 for the depths 0, 1, 2, 1. -/
theorem ForkTree_icon_length_witness :
    (∃ out, ForkTree "viewer" exampleForks = .ok out ∧ out.length = exampleForks.length ∧
      ∃ root rest, out = root :: rest ∧ root.IconList = [ForkType.ROOT] ∧
        HopDepth exampleForks root.ID 0 ∧
        ∀ x ∈ rest, ∃ d, HopDepth exampleForks x.ID d ∧ x.IconList.length = d + 1 ∧
          ∀ d', HopDepth exampleForks x.ID d' → d' = d) ∧
    ∃ r a c b, ForkTree "viewer" exampleForks = .ok [r, a, c, b] ∧
      (r.ID = 1 ∧ r.IconList.length = 1) ∧ (a.ID = 2 ∧ a.IconList.length = 2) ∧
      (c.ID = 3 ∧ c.IconList.length = 3) ∧ (b.ID = 4 ∧ b.IconList.length = 2) :=
  ⟨ForkTree_icon_length "viewer" exampleForks exampleForks_wf, _, _, _, _, rfl,
    ⟨rfl, rfl⟩, ⟨rfl, rfl⟩, ⟨rfl, rfl⟩, ⟨rfl, rfl⟩⟩

/-- C8: on a well-formed fork set, in the output of `ForkTree` the glyph of a non-root
entry in the column of its depth (its last glyph) is `BRANCH` when an entry with the same
`ForkedFrom` comes later in the output, and `END` when none does. -/
theorem ForkTree_last_glyph (u : String) (L : List ForkEntry) (hwf : WellFormedForkSet L) :
    ∃ out, ForkTree u L = .ok out ∧
      ∀ (i : Nat) (x : ForkEntry) (d : Nat), 0 < i → out[i]? = some x → HopDepth L x.ID d →
        x.IconList.length = d + 1 ∧
        (LaterSibling out i → x.IconList[d]? = some ForkType.BRANCH) ∧
        (¬ LaterSibling out i → x.IconList[d]? = some ForkType.END) := by
  obtain ⟨out, hrun, st, hinv, hout, _⟩ := ForkTree_inv u hwf
  subst hout
  refine ⟨st.outputList, hrun, ?_⟩
  intro i x d hi hx hd
  have hSx : (st.outputList.map shapeOf)[i]? = some (shapeOf x) := by simp [hx]
  obtain ⟨d', hlen, hd'⟩ := hinv.shape.hop (shapeOf x) (List.mem_iff_getElem?.mpr ⟨i, hSx⟩)
  have hdd : d = d' := hd.unique hwf hd'
  subst hdd
  simp only [shapeOf] at hlen
  have hd1 : 1 ≤ d := by
    obtain ⟨q, y, _, hy, _, hylen, _⟩ := hinv.shape.parent_pos i (shapeOf x) hi hSx
    obtain ⟨dy, hdy, _⟩ := hinv.shape.hop y (List.mem_iff_getElem?.mpr ⟨q, hy⟩)
    simp only [shapeOf] at hylen
    omega
  have hiff := hinv.shape.nextAt_iff_sibling hd1 hSx (by simp [shapeOf, hlen]) (le_refl i)
    (fun m u h1 h2 => by omega)
  have hlast := hinv.glyph.last i x d hi hx hlen.symm
  rw [hiff, ← laterSibling_iff hx] at hlast
  exact ⟨hlen, hlast⟩

/-- Witness of C8 on the fork set R, A (from R), C (from A), B (from R): of the two
children A and B of R, A ends with `BRANCH` and B with `END`. -/
theorem ForkTree_last_glyph_witness :
    (∃ out, ForkTree "viewer" exampleForks = .ok out ∧
      ∀ (i : Nat) (x : ForkEntry) (d : Nat), 0 < i → out[i]? = some x →
        HopDepth exampleForks x.ID d →
        x.IconList.length = d + 1 ∧
        (LaterSibling out i → x.IconList[d]? = some ForkType.BRANCH) ∧
        (¬ LaterSibling out i → x.IconList[d]? = some ForkType.END)) ∧
    ∃ r a c b, ForkTree "viewer" exampleForks = .ok [r, a, c, b] ∧
      (a.ForkedFrom = r.ID ∧ a.IconList.getLast? = some ForkType.BRANCH) ∧
      (b.ForkedFrom = r.ID ∧ b.IconList.getLast? = some ForkType.END) :=
  ⟨ForkTree_last_glyph "viewer" exampleForks exampleForks_wf, _, _, _, _, rfl,
    ⟨rfl, rfl⟩, ⟨rfl, rfl⟩⟩

/-- C9: on a well-formed fork set, in the output of `ForkTree` an entry at depth `e > 0`
has `SPACE` in column 0 and, in each column `c` with `1 ≤ c < e`, `STEM` when its ancestor
at depth `c` (which is in the output) has a sibling later in the output, and `SPACE` when
it has none. -/
theorem ForkTree_stems (u : String) (L : List ForkEntry) (hwf : WellFormedForkSet L) :
    ∃ out, ForkTree u L = .ok out ∧
      ∀ (i : Nat) (x : ForkEntry) (e : Nat), out[i]? = some x → HopDepth L x.ID e → 0 < e →
        x.IconList[0]? = some ForkType.SPACE ∧
        ∀ c, 1 ≤ c → c < e →
          (∃ (k : Nat) (a : ForkEntry), out[k]? = some a ∧ AncestorOrSelf L a.ID x.ID ∧
            HopDepth L a.ID c) ∧
          ∀ (k : Nat) (a : ForkEntry), out[k]? = some a → AncestorOrSelf L a.ID x.ID →
            HopDepth L a.ID c →
            (LaterSibling out k → x.IconList[c]? = some ForkType.STEM) ∧
            (¬ LaterSibling out k → x.IconList[c]? = some ForkType.SPACE) := by
  obtain ⟨out, hrun, st, hinv, hout, _⟩ := ForkTree_inv u hwf
  subst hout
  refine ⟨st.outputList, hrun, ?_⟩
  intro i x e hx he hepos
  have hcorr := hinv.corr hwf
  have hSx : (st.outputList.map shapeOf)[i]? = some (shapeOf x) := by simp [hx]
  obtain ⟨e', hlen, he'⟩ := hinv.shape.hop (shapeOf x) (List.mem_iff_getElem?.mpr ⟨i, hSx⟩)
  have hee : e = e' := he.unique hwf he'
  subst hee
  simp only [shapeOf] at hlen
  have hi : 0 < i := by
    rcases Nat.eq_zero_or_pos i with h0 | h0
    · subst h0
      have := (hinv.shape.first (shapeOf x) hSx).2
      simp only [shapeOf] at this
      omega
    · exact h0
  refine ⟨hinv.glyph.col0 i x hi hx (by omega), ?_⟩
  intro c hc1 hce
  constructor
  · obtain ⟨k, a, ha, halen, hanc⟩ :=
      hinv.shape.ancestor_exists hcorr (e - c) i (shapeOf x) c hSx (by simp [shapeOf]; omega)
    rw [List.getElem?_map] at ha
    cases hak : st.outputList[k]? with
    | none => rw [hak] at ha; cases ha
    | some a' =>
      rw [hak] at ha
      simp only [Option.map_some', Option.some.injEq] at ha
      subst ha
      obtain ⟨d, hd, hhop⟩ := hinv.shape.hop (shapeOf a')
        (List.mem_map_of_mem _ (List.mem_iff_getElem?.mpr ⟨k, hak⟩))
      have hdc : d = c := by omega
      subst hdc
      exact ⟨k, a', hak, hanc, hhop⟩
  · intro k a ha hanc hac
    have hSa : (st.outputList.map shapeOf)[k]? = some (shapeOf a) := by simp [ha]
    obtain ⟨d, hd, hhop⟩ := hinv.shape.hop (shapeOf a) (List.mem_iff_getElem?.mpr ⟨k, hSa⟩)
    have hdc : c = d := hac.unique hwf hhop
    subst hdc
    obtain ⟨hki, hbetween⟩ :=
      hinv.shape.ancestor_pos hwf hcorr a.ID x.ID hanc k i (shapeOf a) (shapeOf x) hSa hSx rfl rfl
    have hiff := hinv.shape.nextAt_iff_sibling hc1 hSa hd hki
      (fun m u h1 h2 hu => by have := hbetween m u h1 h2 hu; omega)
    have hinner := hinv.glyph.inner i x c hi hx (by omega) (by omega)
    rw [hiff, ← laterSibling_iff ha] at hinner
    exact hinner

/-- Witness of C9 on the fork set R, A (from R), C (from A), B (from R), with the rendered
icon lists of the specification. -/
theorem ForkTree_stems_witness :
    (∃ out, ForkTree "viewer" exampleForks = .ok out ∧
      ∀ (i : Nat) (x : ForkEntry) (e : Nat), out[i]? = some x →
        HopDepth exampleForks x.ID e → 0 < e →
        x.IconList[0]? = some ForkType.SPACE ∧
        ∀ c, 1 ≤ c → c < e →
          (∃ (k : Nat) (a : ForkEntry), out[k]? = some a ∧
            AncestorOrSelf exampleForks a.ID x.ID ∧ HopDepth exampleForks a.ID c) ∧
          ∀ (k : Nat) (a : ForkEntry), out[k]? = some a →
            AncestorOrSelf exampleForks a.ID x.ID → HopDepth exampleForks a.ID c →
            (LaterSibling out k → x.IconList[c]? = some ForkType.STEM) ∧
            (¬ LaterSibling out k → x.IconList[c]? = some ForkType.SPACE)) ∧
    ∃ r a c b, ForkTree "viewer" exampleForks = .ok [r, a, c, b] ∧
      r.IconList = [ForkType.ROOT] ∧
      a.IconList = [ForkType.SPACE, ForkType.BRANCH] ∧
      c.IconList = [ForkType.SPACE, ForkType.STEM, ForkType.END] ∧
      b.IconList = [ForkType.SPACE, ForkType.END] :=
  ⟨ForkTree_stems "viewer" exampleForks exampleForks_wf, _, _, _, _, rfl, rfl, rfl, rfl, rfl⟩

/-- A fork set in which no row has `ForkedFrom` null is refused with an error. -/
theorem ForkTree_error_of_no_root (u : String) (L : List ForkEntry)
    (h : ∀ e ∈ L, e.ForkedFrom ≠ 0) : ∃ msg, ForkTree u L = .error msg := by
  cases L with
  | nil => exact ⟨_, rfl⟩
  | cons r rest =>
    have hr : r.ForkedFrom ≠ 0 := h r (by simp)
    refine ⟨"Incorrect root entry data in retrieved database list", ?_⟩
    simp [ForkTree, hr]

/-- A second row with `ForkedFrom` null, in a fork set with distinct non-zero IDs, makes
`ForkTree` panic: no ID is 0, so the row is never found as a child. -/
theorem ForkTree_panics_of_second_root (u : String) (r : ForkEntry) (rest : List ForkEntry)
    (hr : r.ForkedFrom = 0) (hfresh : ∀ e ∈ rest, e.Processed = false)
    (hnodup : ((r :: rest).map (fun e => e.ID)).Nodup) (hnz : ∀ e ∈ r :: rest, e.ID ≠ 0)
    {x : ForkEntry} (hx : x ∈ rest) (hx0 : x.ForkedFrom = 0) :
    ForkTree u (r :: rest) = .panic := by
  apply ForkTree_panics_of_unreachable u r rest hr hfresh hx
  rintro ⟨d, hd⟩
  have hxL : x ∈ r :: rest := List.mem_cons_of_mem _ hx
  generalize hid : x.ID = id at hd
  cases hd with
  | @root r' rest' hL =>
    cases hL
    simp only [List.map_cons, List.nodup_cons] at hnodup
    exact hnodup.1 (List.mem_map.mpr ⟨x, hx, hid⟩)
  | @child e d' he hd' =>
    have : e = x := List.inj_on_of_nodup_map hnodup he hxL hid.symm
    subst this
    rw [hx0] at hd'
    obtain ⟨p, hp, hp0⟩ := hd'.mem_set
    exact hnz p hp hp0

/-- C11 (the code departs from the claim): a fork set without a root row is refused with an
error, but on the fork set with the two root rows 1 and 2 `ForkTree` neither returns an
error nor a tree: after the first root the fork trail runs empty and `nextChild` panics. -/
theorem ForkTree_two_roots_panics :
    (∃ msg, ForkTree "viewer" exampleNoRoot = .error msg) ∧
      ForkTree "viewer" exampleTwoRoots = .panic ∧
      ∀ msg, ForkTree "viewer" exampleTwoRoots ≠ .error msg := by
  refine ⟨⟨_, rfl⟩, by decide, ?_⟩
  intro msg h
  have hp : ForkTree "viewer" exampleTwoRoots = .panic := by decide
  rw [hp] at h
  cases h

/-! ### Atomicity and the commit counter -/

/-- Every exit of `DeleteLatestBranchCommit` other than the normal one leaves the stored
row as it was. -/
theorem delete_not_ok_unchanged (fails : StoreOp → Bool) (db : Database) (b : String)
    (h : (DeleteLatestBranchCommit fails db b).2 ≠ .ok ()) :
    (DeleteLatestBranchCommit fails db b).1 = db := by
  unfold DeleteLatestBranchCommit at h ⊢
  by_cases hb : fails .Begin = true
  · simp [hb]
  · simp only [hb, if_false] at h ⊢
    cases htx : deleteLatestBranchCommitTx fails db b with
    | ok db' =>
      rw [htx] at h
      by_cases hc : fails .Commit = true
      · simp [hc]
      · simp [hc] at h
    | error msg => rfl
    | panic => rfl
    | diverge => rfl

theorem GoMap.keys_delete {V : Type} (m : GoMap V) (k : String) :
    GoMap.keys (GoMap.delete m k) = (GoMap.keys m).filter (fun x => x ≠ k) := by
  induction m with
  | nil => rfl
  | cons kv rest ih =>
    obtain ⟨k', v⟩ := kv
    by_cases hk : k' = k
    · simp [GoMap.keys, GoMap.delete, List.filter_cons, hk] at ih ⊢
      exact ih
    · simp [GoMap.keys, GoMap.delete, List.filter_cons, hk] at ih ⊢
      exact ih

theorem GoMap.keyCount_delete {V : Type} (m : GoMap V) (k : String) {v : V}
    (h : GoMap.get m k = some v) :
    GoMap.keyCount (GoMap.delete m k) + 1 = GoMap.keyCount m := by
  have hmem : k ∈ (GoMap.keys m).toFinset := by
    rw [List.mem_toFinset]
    exact List.mem_map.mpr ⟨(k, v), GoMap.mem_of_get h, rfl⟩
  unfold GoMap.keyCount
  rw [← List.card_toFinset, ← List.card_toFinset, GoMap.keys_delete, List.toFinset_filter]
  have : Finset.filter (fun x => decide (x ≠ k) = true) (GoMap.keys m).toFinset
      = (GoMap.keys m).toFinset.erase k := by
    ext x
    simp [Finset.mem_erase, and_comm]
  rw [this, Finset.card_erase_of_mem hmem]
  have hpos : 0 < (GoMap.keys m).toFinset.card := Finset.card_pos.mpr ⟨k, hmem⟩
  omega

/-- C17: whatever way `DeleteLatestBranchCommit` ends, the stored row is all or nothing:
when the call does not end normally (an error for an unknown branch, a missing head
commit, a head with empty `Parent`, a dangling `Parent` in another branch, or a failing
store statement), branch heads, commit list and counter are those from before the
call; when it ends normally, the head has moved, the commit list is the old one with the
removed commit kept or deleted, and the counter is the key count of the stored list when
that list has a key; over a stored list without keys the counter statement changes no row
and the counter is the one from before the call. -/
theorem DeleteLatestBranchCommit_all_or_nothing (fails : StoreOp → Bool) (db db' : Database)
    (b : String) (o : Outcome Unit) (h : DeleteLatestBranchCommit fails db b = (db', o)) :
    (o ≠ .ok () → db' = db) ∧
    (o = .ok () → ∃ br head, db.branch_heads.get b = some br ∧
      db.commit_list.get br.Commit = some head ∧
      db'.branch_heads = db.branch_heads.set b { br with Commit := head.Parent } ∧
      (db'.commit_list = db.commit_list ∨
        db'.commit_list = db.commit_list.delete br.Commit) ∧
      db'.commits = (if db'.commit_list.keyCount = 0 then db.commits
        else (db'.commit_list.keyCount : Int))) := by
  constructor
  · intro hne
    have h1 := delete_not_ok_unchanged fails db b (by rw [h]; exact hne)
    rw [h] at h1
    exact h1
  · intro hok
    subst hok
    obtain ⟨br, head, found, hbr, hhead, _, _, hbh, hcl, hc⟩ := delete_ok_inv h
    refine ⟨br, head, hbr, hhead, hbh, ?_, hc⟩
    cases found
    · right; simpa using hcl
    · left; simpa using hcl

/-- Witness of C17: the head of "master" is missing from the commit list; the call fails
and changes nothing. -/
theorem DeleteLatestBranchCommit_all_or_nothing_witness :
    ((DeleteLatestBranchCommit noFault exampleHeadMissing "master").2 ≠ .ok () →
      (DeleteLatestBranchCommit noFault exampleHeadMissing "master").1 = exampleHeadMissing) ∧
    ((DeleteLatestBranchCommit noFault exampleHeadMissing "master").2 = .ok () →
      ∃ br head, exampleHeadMissing.branch_heads.get "master" = some br ∧
      exampleHeadMissing.commit_list.get br.Commit = some head ∧
      (DeleteLatestBranchCommit noFault exampleHeadMissing "master").1.branch_heads
        = exampleHeadMissing.branch_heads.set "master" { br with Commit := head.Parent } ∧
      ((DeleteLatestBranchCommit noFault exampleHeadMissing "master").1.commit_list
          = exampleHeadMissing.commit_list ∨
        (DeleteLatestBranchCommit noFault exampleHeadMissing "master").1.commit_list
          = exampleHeadMissing.commit_list.delete br.Commit) ∧
      (DeleteLatestBranchCommit noFault exampleHeadMissing "master").1.commits
        = (if (DeleteLatestBranchCommit noFault exampleHeadMissing
              "master").1.commit_list.keyCount = 0
            then exampleHeadMissing.commits
            else ((DeleteLatestBranchCommit noFault exampleHeadMissing
              "master").1.commit_list.keyCount : Int))) :=
  DeleteLatestBranchCommit_all_or_nothing noFault exampleHeadMissing
    (DeleteLatestBranchCommit noFault exampleHeadMissing "master").1 "master"
    (DeleteLatestBranchCommit noFault exampleHeadMissing "master").2 rfl

/-- The causes of failure named by C17, one by one: an unknown branch, a head commit
missing from the commit list and a failing `tx.Commit()` each give an error and the
unchanged row. -/
theorem delete_error_causes (db : Database) (b : String) :
    (db.branch_heads.get b = none →
      ∃ msg, DeleteLatestBranchCommit noFault db b = (db, .error msg)) ∧
    (∀ br, db.branch_heads.get b = some br → db.commit_list.get br.Commit = none →
      ∃ msg, DeleteLatestBranchCommit noFault db b = (db, .error msg)) ∧
    (∃ o, o ≠ .ok () ∧ DeleteLatestBranchCommit commitFault db b = (db, o)) := by
  refine ⟨?_, ?_, ?_⟩
  · intro h
    refine ⟨"Database error when attempting to delete the commit", ?_⟩
    simp [DeleteLatestBranchCommit, deleteLatestBranchCommitTx, noFault, h]
  · intro br h1 h2
    refine ⟨"Error when retrieving commit information for the database", ?_⟩
    simp [DeleteLatestBranchCommit, deleteLatestBranchCommitTx, noFault, h1, h2]
  · have hne : (DeleteLatestBranchCommit commitFault db b).2 ≠ .ok () := by
      unfold DeleteLatestBranchCommit
      have hb : commitFault .Begin = false := rfl
      have hc : commitFault .Commit = true := rfl
      simp only [hb, hc, if_true]
      cases deleteLatestBranchCommitTx commitFault db b <;> simp
    have hun := delete_not_ok_unchanged commitFault db b hne
    refine ⟨(DeleteLatestBranchCommit commitFault db b).2, hne, ?_⟩
    exact Prod.ext hun rfl

/-- After a successful `DeleteLatestBranchCommit` whose stored commit list has a key, the
stored commit counter is the number of distinct keys of that list; over a stored list
without keys the counter is the one from before the call.  The number of keys is one less
than before when the removed commit is gone from the list, and the same as before when it
was kept. -/
theorem delete_counter_of_keys (fails : StoreOp → Bool) (db db' : Database)
    (b : String) (hok : DeleteLatestBranchCommit fails db b = (db', .ok ())) :
    (db'.commit_list.keyCount ≠ 0 → db'.commits = (db'.commit_list.keyCount : Int)) ∧
    (db'.commit_list.keyCount = 0 → db'.commits = db.commits) ∧
    ∃ br, db.branch_heads.get b = some br ∧
      (db'.commit_list.get br.Commit = none →
        db'.commit_list.keyCount + 1 = db.commit_list.keyCount) ∧
      ((db'.commit_list.get br.Commit).isSome = true →
        db'.commit_list.keyCount = db.commit_list.keyCount) := by
  obtain ⟨br, head, found, hbr, hhead, _, _, _, hcl, hc⟩ := delete_ok_inv hok
  refine ⟨?_, ?_, br, hbr, ?_, ?_⟩
  · intro hne
    rw [hc, if_neg hne]
  · intro hz
    rw [hc, if_pos hz]
  · intro hnone
    cases found
    · simp only [Bool.false_eq_true, if_false] at hcl
      rw [hcl]
      exact GoMap.keyCount_delete _ _ hhead
    · simp only [if_true] at hcl
      rw [hcl, hhead] at hnone
      cases hnone
  · intro hsome
    cases found
    · simp only [Bool.false_eq_true, if_false] at hcl
      rw [hcl, GoMap.get_delete_self] at hsome
      cases hsome
    · simp only [if_true] at hcl
      rw [hcl]

/-- C18: the stored commit counter after a successful `DeleteLatestBranchCommit` is not
always the number of keys of the stored commit list.  On the database whose only commit
C2 is the head of "master" and has the missing `Parent` C1, the call succeeds and stores
a commit list without keys, and the counter is still 1: the counter statement joins on
the keys of the stored list and changes no row. -/
theorem DeleteLatestBranchCommit_counter_skips_empty :
    (DeleteLatestBranchCommit noFault exampleDangling "master").2 = .ok () ∧
    (DeleteLatestBranchCommit noFault exampleDangling "master").1.branch_heads
      = [("master", ⟨"C1", 2, ""⟩)] ∧
    (DeleteLatestBranchCommit noFault exampleDangling "master").1.commit_list = [] ∧
    (DeleteLatestBranchCommit noFault exampleDangling "master").1.commit_list.keyCount = 0 ∧
    (DeleteLatestBranchCommit noFault exampleDangling "master").1.commits = 1 ∧
    (DeleteLatestBranchCommit noFault exampleDangling "master").1.commits
      ≠ ((DeleteLatestBranchCommit noFault exampleDangling "master").1.commit_list.keyCount
          : Int) := by
  refine ⟨rfl, rfl, rfl, rfl, rfl, ?_⟩
  decide

/-! ### Broken histories -/

theorem DanglingFrom.det_chain {cl : GoMap CommitEntry} {p : String} {ks1 : List String}
    (h1 : DanglingFrom cl p ks1) : ∀ {ks2 : List String}, DanglingFrom cl p ks2 → ks1 = ks2 := by
  induction h1 with
  | stop hne hg =>
    intro ks2 h2
    cases h2 with
    | stop _ _ => rfl
    | step _ hg2 _ => rw [hg] at hg2; cases hg2
  | step hne hg _ ih =>
    intro ks2 h2
    cases h2 with
    | stop _ hg2 => rw [hg] at hg2; cases hg2
    | step _ hg2 h2' =>
      rw [hg] at hg2
      cases hg2
      rw [ih h2']

theorem DanglingFrom.suffix_chain {cl : GoMap CommitEntry} {p : String} {ks : List String}
    (h : DanglingFrom cl p ks) : ∀ k ∈ ks, ∃ pre post, ks = pre ++ k :: post ∧
      DanglingFrom cl k (k :: post) := by
  induction h with
  | stop _ _ => intro k hk; simp at hk
  | @step p c ks hne hg hrest ih =>
    intro k hk
    rcases List.mem_cons.mp hk with rfl | hk'
    · exact ⟨[], ks, rfl, DanglingFrom.step hne hg hrest⟩
    · obtain ⟨pre, post, hEq, hH⟩ := ih k hk'
      exact ⟨p :: pre, post, by simp [hEq], hH⟩

theorem DanglingFrom.nodup_chain {cl : GoMap CommitEntry} {p : String} {ks : List String}
    (h : DanglingFrom cl p ks) : ks.Nodup := by
  induction h with
  | stop _ _ => exact List.nodup_nil
  | @step p c ks hne hg hrest ih =>
    refine List.nodup_cons.mpr ⟨?_, ih⟩
    intro hmem
    obtain ⟨pre, post, hEq, hH⟩ := hrest.suffix_chain p hmem
    have hfull : DanglingFrom cl p (p :: ks) := DanglingFrom.step hne hg hrest
    have := hH.det_chain hfull
    have hlen := congrArg List.length this
    rw [hEq] at hlen
    simp at hlen
    omega

theorem DanglingFrom.subset_keys_chain {cl : GoMap CommitEntry} {p : String}
    {ks : List String} (h : DanglingFrom cl p ks) : ks ⊆ GoMap.keys cl := by
  induction h with
  | stop _ _ => intro k hk; simp at hk
  | @step p c ks hne hg hrest ih =>
    intro k hk
    rcases List.mem_cons.mp hk with rfl | hk'
    · exact List.mem_map.mpr ⟨(k, c), GoMap.mem_of_get hg, rfl⟩
    · exact ih hk'

theorem DanglingFrom.length_le_chain {cl : GoMap CommitEntry} {p : String} {ks : List String}
    (h : DanglingFrom cl p ks) : ks.length ≤ cl.length := by
  have := (List.subperm_of_subset h.nodup_chain h.subset_keys_chain).length_le
  simpa [GoMap.keys] using this

/-- Over an acyclic commit list every walk along `Parent` ends: at an empty `Parent` or at
a missing commit. -/
theorem Acyclic.history_or_dangling {cl : GoMap CommitEntry} (hac : Acyclic cl) (p : String) :
    (∃ ks, History cl p ks) ∨ (∃ ks, DanglingFrom cl p ks) := by
  obtain ⟨rank, hrank⟩ := hac
  have main : ∀ n p, rank p ≤ n →
      (∃ ks, History cl p ks) ∨ (∃ ks, DanglingFrom cl p ks) := by
    intro n
    induction n with
    | zero =>
      intro p hp
      by_cases hp0 : p = ""
      · subst hp0; exact Or.inl ⟨[], History.root⟩
      · cases hg : cl.get p with
        | none => exact Or.inr ⟨[], DanglingFrom.stop hp0 hg⟩
        | some c =>
          by_cases hc : c.Parent = ""
          · left
            refine ⟨[p], History.step hp0 hg ?_⟩
            rw [hc]; exact History.root
          · have := hrank p c hg hc
            omega
    | succ n ih =>
      intro p hp
      by_cases hp0 : p = ""
      · subst hp0; exact Or.inl ⟨[], History.root⟩
      · cases hg : cl.get p with
        | none => exact Or.inr ⟨[], DanglingFrom.stop hp0 hg⟩
        | some c =>
          by_cases hc : c.Parent = ""
          · left
            refine ⟨[p], History.step hp0 hg ?_⟩
            rw [hc]; exact History.root
          · have hlt := hrank p c hg hc
            rcases ih c.Parent (by omega) with ⟨ks, hks⟩ | ⟨ks, hks⟩
            · exact Or.inl ⟨p :: ks, History.step hp0 hg hks⟩
            · exact Or.inr ⟨p :: ks, DanglingFrom.step hp0 hg hks⟩
  exact main (rank p) p (le_refl _)

theorem History.not_dangling {cl : GoMap CommitEntry} {p : String} {ks : List String}
    (h : History cl p ks) : ∀ ks', ¬ DanglingFrom cl p ks' := by
  induction h with
  | root =>
    intro ks' hd
    cases hd with
    | stop hne _ => exact hne rfl
    | step hne _ _ => exact hne rfl
  | step hne hg _ ih =>
    intro ks' hd
    cases hd with
    | stop _ hg2 => rw [hg] at hg2; cases hg2
    | step _ hg2 hd' =>
      rw [hg] at hg2
      cases hg2
      exact ih _ hd'

theorem countCommits_of_dangling {cl : GoMap CommitEntry} {p : String} {ks : List String}
    (h : DanglingFrom cl p ks) :
    ∀ (fuel : Nat) (n : Int), ks.length < fuel →
      countCommits cl fuel p n = .error "Error when counting commits in branch" := by
  induction h with
  | stop hne hg =>
    intro fuel n hf
    cases fuel with
    | zero => omega
    | succ f => simp [countCommits, hne, hg]
  | @step p c ks hne hg hrest ih =>
    intro fuel n hf
    cases fuel with
    | zero => omega
    | succ f =>
      simp only [List.length_cons] at hf
      simp only [countCommits, hne, hg, if_false]
      exact ih f (n + 1) (by omega)

theorem countCommits_error {cl : GoMap CommitEntry} :
    ∀ (fuel : Nat) (p : String) (n : Int) (msg : String),
      countCommits cl fuel p n = .error msg → ∃ ks, DanglingFrom cl p ks := by
  intro fuel
  induction fuel with
  | zero => intro p n msg h; simp [countCommits] at h
  | succ f ih =>
    intro p n msg h
    unfold countCommits at h
    split at h
    · simp at h
    · rename_i hp
      split at h
      · rename_i hg
        exact ⟨[], DanglingFrom.stop hp hg⟩
      · rename_i c2 hg
        obtain ⟨ks, hks⟩ := ih _ _ _ h
        exact ⟨p :: ks, DanglingFrom.step hp hg hks⟩

theorem historyLoop_of_dangling {cl : GoMap CommitEntry} {commit p : String}
    {ks : List String} (h : DanglingFrom cl p ks) :
    (∀ k ∈ ks, ∀ c', cl.get k = some c' → c'.ID ≠ commit) →
    ∀ (fuel : Nat) (c : CommitEntry), c.Parent = p → ks.length < fuel →
      historyLoop cl commit fuel c
        = .error "Broken commit history encountered when looking up commit details" := by
  induction h with
  | stop hne hg =>
    intro _ fuel c hc hf
    cases fuel with
    | zero => omega
    | succ f =>
      subst hc
      simp [historyLoop, hne, hg]
  | @step p c1 ks hne hg hrest ih =>
    intro hid fuel c hc hf
    cases fuel with
    | zero => omega
    | succ f =>
      subst hc
      simp only [List.length_cons] at hf
      have hne1 : c1.ID ≠ commit := hid c.Parent (by simp) c1 hg
      simp only [historyLoop, hne, hg, hne1, if_false]
      exact ih (fun k hk c' hc' => hid k (List.mem_cons_of_mem _ hk) c' hc') f c1 rfl (by omega)

/-- C19: `IsCommitInBranchHistory` returns an error, never `(false, nil)`, when the branch
is unknown, when the head commit is missing from the commit list, and when the walk from
the head commit meets a `Parent` missing from the commit list before it has met the
candidate. -/
theorem IsCommitInBranchHistory_broken (db : Database) (b commit : String) :
    (db.branch_heads.get b = none →
      ∃ msg, IsCommitInBranchHistory db b commit = .error msg) ∧
    (∀ head, db.branch_heads.get b = some head → db.commit_list.get head.Commit = none →
      ∃ msg, IsCommitInBranchHistory db b commit = .error msg) ∧
    (∀ head c ks, db.branch_heads.get b = some head →
      db.commit_list.get head.Commit = some c → DanglingFrom db.commit_list c.Parent ks →
      (∀ k ∈ ks, ∀ c', db.commit_list.get k = some c' → c'.ID ≠ commit) →
      ∃ msg, IsCommitInBranchHistory db b commit = .error msg) := by
  refine ⟨?_, ?_, ?_⟩
  · intro h
    refine ⟨"Branch not found in the database", ?_⟩
    simp [IsCommitInBranchHistory, h]
  · intro head h1 h2
    refine ⟨"Head commit not found in database commit list.  This shouldn't happen", ?_⟩
    simp [IsCommitInBranchHistory, h1, h2]
  · intro head c ks h1 h2 hd hid
    refine ⟨"Broken commit history encountered when looking up commit details", ?_⟩
    simp only [IsCommitInBranchHistory, h1, h2]
    exact historyLoop_of_dangling hd hid _ c rfl (Nat.lt_succ_of_le hd.length_le_chain)

/-- Witness of C19: the head C2 of "master" has the `Parent` C1, which is missing. -/
theorem IsCommitInBranchHistory_broken_witness :
    ∃ msg, IsCommitInBranchHistory exampleDangling "master" "C9" = .error msg :=
  (IsCommitInBranchHistory_broken exampleDangling "master" "C9").2.2 ⟨"C2", 2, ""⟩
    (commitOf "C2" "C1") [] (by decide) (by decide)
    (DanglingFrom.stop (by decide) (by decide)) (by intro k hk; simp at hk)

/-- C20: over an acyclic commit list `cl`, the commit counting walk of `AddDatabase` from
the new commit's `Parent` `p` ends normally with 1 plus the number of commits on the chain
from `p` when the chain is unbroken, and with an error when a `Parent` on it is missing;
one of the two holds, the walk fails exactly when a `Parent` is missing, and a failed
walk makes `AddDatabase` return the error, with no commit and no branch map to store. -/
theorem AddDatabase_count_walk (cl : GoMap CommitEntry) (p : String) (hac : Acyclic cl) :
    (∀ ks, History cl p ks →
      countCommits cl (cl.length + 1) p 1 = .ok (1 + (ks.length : Int))) ∧
    (∀ ks, DanglingFrom cl p ks →
      ∃ msg, countCommits cl (cl.length + 1) p 1 = .error msg) ∧
    ((∃ ks, History cl p ks) ∨ (∃ ks, DanglingFrom cl p ks)) ∧
    ((∃ msg, countCommits cl (cl.length + 1) p 1 = .error msg) ↔
      ∃ ks, DanglingFrom cl p ks) ∧
    (∀ (lib : GoLib) (d : Database) (createBranch : Bool) (b commitID dn em commitMsg : String)
      (now : Time) (t : DBTree) (e : BranchEntry),
      d.commit_list = cl → d.branch_heads.get b = some e →
      (if commitID ≠ "" then commitID else e.Commit) = p →
      (∃ ks, DanglingFrom cl p ks) →
      ∃ msg, AddDatabase lib (some d) createBranch b commitID dn em commitMsg now t
        = .error msg) := by
  refine ⟨?_, ?_, hac.history_or_dangling p, ?_, ?_⟩
  · intro ks hks
    exact countCommits_of_history hks _ 1 (Nat.lt_succ_of_le hks.length_le)
  · intro ks hks
    exact ⟨_, countCommits_of_dangling hks _ 1 (Nat.lt_succ_of_le hks.length_le_chain)⟩
  · constructor
    · rintro ⟨msg, h⟩
      exact countCommits_error _ _ _ _ h
    · rintro ⟨ks, hks⟩
      exact ⟨_, countCommits_of_dangling hks _ 1 (Nat.lt_succ_of_le hks.length_le_chain)⟩
  · intro lib d createBranch b commitID dn em commitMsg now t e hcl hb hp hd
    obtain ⟨ks, hks⟩ := hd
    subst hcl
    have hcount := countCommits_of_dangling hks (d.commit_list.length + 1) 1
      (Nat.lt_succ_of_le hks.length_le_chain)
    refine ⟨"Error when counting commits in branch", ?_⟩
    by_cases hc : commitID = ""
    · simp only [hc, ne_eq, not_true_eq_false, if_false] at hp
      subst hp
      simp [AddDatabase, hb, hc, hcount]
    · simp only [hc, ne_eq, not_false_eq_true, if_true] at hp
      subst hp
      simp [AddDatabase, hb, hc, hcount]

theorem exampleDB_acyclic : Acyclic exampleDB.commit_list := by
  refine ⟨fun k => if k = "C3" then 3 else if k = "C2" then 2 else if k = "C1" then 1 else 0,
    ?_⟩
  intro k c hg hne
  have hmem := GoMap.mem_of_get hg
  simp only [exampleDB, List.mem_cons, Prod.mk.injEq, List.mem_singleton, List.not_mem_nil,
    or_false] at hmem
  rcases hmem with ⟨rfl, rfl⟩ | ⟨rfl, rfl⟩ | ⟨rfl, rfl⟩
  · exact absurd rfl hne
  · decide
  · decide

/-- Witness of C20 on the example C1 <- C2 <- C3: the walk from C3 counts 1 + 3 commits. -/
theorem AddDatabase_count_walk_witness :
    countCommits exampleDB.commit_list (exampleDB.commit_list.length + 1) "C3" 1 = .ok 4 := by
  have h3 : History exampleDB.commit_list "C3" ["C3", "C2", "C1"] :=
    History.step (by decide) (by decide : exampleDB.commit_list.get "C3" = some (commitOf "C3" "C2"))
      (History.step (by decide) (by decide : exampleDB.commit_list.get "C2" = some (commitOf "C2" "C1"))
        (History.step (by decide) (by decide : exampleDB.commit_list.get "C1" = some (commitOf "C1" ""))
          History.root))
  have := (AddDatabase_count_walk exampleDB.commit_list "C3" exampleDB_acyclic).1 _ h3
  simpa using this

/-! ### Commit and tree serialization -/

theorem string_data_inj {a b : String} (h : a.data = b.data) : a = b := String.ext h

/-- C13: changing exactly one of `Message`, `Parent` or `AuthorEmail` of a commit changes
the bytes hashed by `CreateCommitID`; for `Parent` this holds between two non-empty values
and between the empty and a non-empty value. -/
theorem commitBytes_field_change (lib : GoLib) (c : CommitEntry) :
    (∀ m, m ≠ c.Message → commitBytes lib { c with Message := m } ≠ commitBytes lib c) ∧
    (∀ p, p ≠ c.Parent → commitBytes lib { c with Parent := p } ≠ commitBytes lib c) ∧
    (∀ e, e ≠ c.AuthorEmail →
      commitBytes lib { c with AuthorEmail := e } ≠ commitBytes lib c) := by
  refine ⟨?_, ?_, ?_⟩
  · intro m hm h
    apply hm
    have := congrArg String.data h
    simp only [commitBytes, String.data_append, List.append_assoc,
      List.append_cancel_left_eq, List.append_cancel_right_eq] at this
    exact String.ext this
  · intro p hp h
    have hd := congrArg String.data h
    by_cases h1 : p = ""
    · by_cases h2 : c.Parent = ""
      · exact hp (h1.trans h2.symm)
      · have hl := congrArg List.length hd
        simp [commitBytes, h1, h2, String.data_append] at hl
        omega
    · by_cases h2 : c.Parent = ""
      · have hl := congrArg List.length hd
        simp [commitBytes, h1, h2, String.data_append] at hl
        omega
      · apply hp
        simp only [commitBytes, h1, h2, ne_eq, not_false_eq_true, if_true, String.data_append,
          List.append_assoc, List.append_cancel_left_eq, List.append_cancel_right_eq] at hd
        exact String.ext hd
  · intro e he h
    apply he
    have := congrArg String.data h
    simp only [commitBytes, String.data_append, List.append_assoc,
      List.append_cancel_left_eq, List.append_cancel_right_eq] at this
    exact String.ext this

/-- Witness of C13: another message, another parent, another author email. -/
theorem commitBytes_field_change_witness :
    commitBytes exampleLib { exampleCommit 0 with Message := "n" }
        ≠ commitBytes exampleLib (exampleCommit 0) ∧
      commitBytes exampleLib { exampleCommit 0 with Parent := "C1" }
        ≠ commitBytes exampleLib (exampleCommit 0) ∧
      commitBytes exampleLib { exampleCommit 0 with AuthorEmail := "x@y" }
        ≠ commitBytes exampleLib (exampleCommit 0) :=
  ⟨(commitBytes_field_change exampleLib (exampleCommit 0)).1 "n" (by decide),
    (commitBytes_field_change exampleLib (exampleCommit 0)).2.1 "C1" (by decide),
    (commitBytes_field_change exampleLib (exampleCommit 0)).2.2 "x@y" (by decide)⟩

/-- C14 (counterexample): two commits that agree in every field but `Timestamp`, with
timestamps 999 nanoseconds apart in the same second, have the same bytes and so the same
ID. -/
theorem commitBytes_same_second :
    exampleCommit 999 = { exampleCommit 0 with Timestamp := exampleTime 999 } ∧
      exampleTime 999 ≠ exampleTime 0 ∧
      commitBytes (goLib id) (exampleCommit 999) = commitBytes (goLib id) (exampleCommit 0) ∧
      CreateCommitID (goLib id) (exampleCommit 999)
        = CreateCommitID (goLib id) (exampleCommit 0) := by
  refine ⟨rfl, by decide, by decide, ?_⟩
  have h : commitBytes (goLib id) (exampleCommit 999)
      = commitBytes (goLib id) (exampleCommit 0) := by decide
  simp only [CreateCommitID, h]

/-- C14 (amended): two commits that agree in every field but `Timestamp` have the same
bytes exactly when the two timestamps have the same `time.UnixDate` rendering; with Go's
layout the rendering, and so the bytes, do not depend on the nanoseconds. -/
theorem commitBytes_timestamp (lib : GoLib) (c : CommitEntry) (t : Time) :
    (commitBytes lib { c with Timestamp := t } = commitBytes lib c ↔
      lib.formatUnixDate t = lib.formatUnixDate c.Timestamp) ∧
    ∀ (sha : String → String) (n : Nat),
      commitBytes (goLib sha) { c with Timestamp := { c.Timestamp with nanosecond := n } }
        = commitBytes (goLib sha) c := by
  refine ⟨⟨?_, ?_⟩, ?_⟩
  · intro h
    have hd := congrArg String.data h
    by_cases hce : c.CommitterEmail = ""
    · simp only [commitBytes, hce, ne_eq, not_true_eq_false, if_false, String.data_append,
        List.append_assoc, List.append_cancel_left_eq, List.append_cancel_right_eq] at hd
      exact String.ext hd
    · simp only [commitBytes, hce, ne_eq, not_false_eq_true, if_true, String.data_append,
        List.append_assoc, List.append_cancel_left_eq] at hd
      have hl := congrArg List.length hd
      simp only [List.length_append] at hl
      exact String.ext (List.append_inj hd (by omega)).1
  · intro h
    simp only [commitBytes, h]
  · intro sha n
    rfl

/-- C15: `CreateCommitID` is the hash of the parts listed by the specification, in their
order; it does not depend on `ID`, `OtherParents` or `Tree.Entries`; and with both
optional fields empty the bytes hold nothing in their place. -/
theorem CreateCommitID_canonical (lib : GoLib) (c : CommitEntry) :
    CreateCommitID lib c = lib.sha256Hex (canonicalCommit lib c) ∧
    (∀ (id : String) (others : List String) (entries : List DBTreeEntry),
      CreateCommitID lib
          { c with ID := id, OtherParents := others, Tree := { c.Tree with Entries := entries } }
        = CreateCommitID lib c) ∧
    (c.Parent = "" → c.CommitterEmail = "" →
      commitBytes lib c
        = "tree " ++ c.Tree.ID ++ "\n" ++ "author " ++ c.AuthorName ++ " <" ++ c.AuthorEmail
            ++ "> " ++ lib.formatUnixDate c.Timestamp ++ "\n" ++ "\n" ++ c.Message ++ nul) := by
  refine ⟨?_, ?_, ?_⟩
  · have h : commitBytes lib c = canonicalCommit lib c := by
      apply String.ext
      by_cases h1 : c.Parent = "" <;> by_cases h2 : c.CommitterEmail = "" <;>
        simp [commitBytes, canonicalCommit, nul, h1, h2, String.join, String.data_append]
    simp only [CreateCommitID, h]
  · intro id others entries
    rfl
  · intro h1 h2
    apply String.ext
    simp [commitBytes, nul, h1, h2, String.data_append]

/-- Witness of C15 on a commit with neither parent nor committer. -/
theorem CreateCommitID_canonical_witness :
    commitBytes exampleLib (exampleCommit 0)
      = "tree " ++ "T" ++ "\n" ++ "author " ++ "A" ++ " <" ++ "a@b"
          ++ "> " ++ "" ++ "\n" ++ "\n" ++ "m" ++ nul :=
  (CreateCommitID_canonical exampleLib (exampleCommit 0)).2.2 rfl rfl

theorem nulCount_append (a b : String) : nulCount (a ++ b) = nulCount a + nulCount b := by
  simp [nulCount, String.data_append]

/-- C16 (counterexample): the serialization of a tree entry with empty licence hash holds
the empty licence field, two adjacent NUL bytes after the entry type, and has as many
NUL separators as the serialization of the same entry with a licence. -/
theorem treeBytes_empty_licence :
    exampleEntry.LicenceSHA = "" ∧
      treeBytes (goLib id) [exampleEntry]
        = "db\x00\x00abc\x00f.db\x002017-06-15T10:30:05Z\x0042\n" ∧
      nulCount (treeBytes (goLib id) [exampleEntry]) = 5 ∧
      nulCount (treeBytes (goLib id) [{ exampleEntry with LicenceSHA := "lic" }]) = 5 := by
  refine ⟨rfl, by decide, by decide, by decide⟩

/-- C16 (amended): `CreateDBTreeID` writes the licence field and its NUL separator for
every entry; with an empty licence hash the NUL after the entry type is followed at once
by the NUL that ends the licence field, and every entry has five separators besides the
NUL bytes of its fields. -/
theorem treeEntryBytes_licence (lib : GoLib) (j : DBTreeEntry) :
    (j.LicenceSHA = "" →
      treeEntryBytes lib j
        = j.EntryType ++ (nul ++ nul) ++ j.Sha256 ++ nul ++ j.Name ++ nul
            ++ lib.formatRFC3339 j.LastModified ++ nul ++ (toString j.Size ++ "\n")) ∧
    nulCount (treeEntryBytes lib j)
      = nulCount j.EntryType + nulCount j.LicenceSHA + nulCount j.Sha256 + nulCount j.Name
          + nulCount (lib.formatRFC3339 j.LastModified) + nulCount (toString j.Size) + 5 := by
  constructor
  · intro h
    apply String.ext
    simp [treeEntryBytes, h, String.data_append]
  · have hn : nulCount nul = 1 := by decide
    have hl : nulCount "\n" = 0 := by decide
    simp only [treeEntryBytes, nulCount_append, hn, hl]
    omega

/-- Witness of C16 on the example entry, whose licence hash is empty. -/
theorem treeEntryBytes_licence_witness :
    treeEntryBytes exampleLib exampleEntry
      = exampleEntry.EntryType ++ (nul ++ nul) ++ exampleEntry.Sha256 ++ nul
          ++ exampleEntry.Name ++ nul ++ exampleLib.formatRFC3339 exampleEntry.LastModified
          ++ nul ++ (toString exampleEntry.Size ++ "\n") :=
  (treeEntryBytes_licence exampleLib exampleEntry).1 rfl

/-! ### Names in the output of `ForkTree` -/

theorem childEntry_DBName (u : String) (d : Int) (e : ForkEntry) :
    (childEntry u d e).DBName
      = if e.Deleted then "deleted database"
        else if !e.Public && (e.Owner != u) then "private database" else e.DBName := by
  unfold childEntry; simp only; split_ifs <;> simp_all

theorem childEntry_rest (u : String) (d : Int) (e : ForkEntry) :
    (childEntry u d e).Owner = e.Owner ∧ (childEntry u d e).Public = e.Public ∧
      (childEntry u d e).Deleted = e.Deleted := by
  unfold childEntry; simp only; split_ifs <;> simp_all

theorem eraseIcons_setIcon {e e' : ForkEntry} {c : Int} {g : ForkType}
    (h : setIcon e c g = some e') : eraseIcons e' = eraseIcons e := by
  unfold setIcon at h
  split at h
  · simp only [Option.some.injEq] at h
    subst h
    rfl
  · simp at h

theorem map_eraseIcons_set {out : List ForkEntry} {l : Nat} {e e' : ForkEntry}
    (hget : out[l]? = some e) (h : eraseIcons e' = eraseIcons e) :
    (out.set l e').map eraseIcons = out.map eraseIcons := by
  apply List.ext_getElem?
  intro n
  simp only [List.getElem?_map, List.getElem?_set]
  by_cases hn : l = n
  · subst hn
    have hlt : l < out.length := by
      rcases Nat.lt_or_ge l out.length with h1 | h1
      · exact h1
      · rw [List.getElem?_eq_none h1] at hget; simp at hget
    simp [hlt, hget, h]
  · simp [hn]

theorem stemLoop_names (col : Int) (i : Nat) :
    ∀ (l : Nat) (out out' : List ForkEntry), stemLoop col i l out = .ok out' →
      out'.map eraseIcons = out.map eraseIcons := by
  intro l
  induction l with
  | zero =>
    intro out out' h
    simp only [stemLoop, Outcome.ok.injEq] at h
    rw [h]
  | succ l ih =>
    intro out out' h
    unfold stemLoop at h
    split at h
    · split at h
      · simp at h
      · rename_i thisEntry hget
        split at h
        · simp at h
        · split at h
          · split at h
            · simp at h
            · rename_i e' hset
              rw [ih _ _ h]
              exact map_eraseIcons_set hget (eraseIcons_setIcon hset)
          · exact ih _ _ h
    · simp only [Outcome.ok.injEq] at h
      rw [h]

theorem siblingLoop_names (col : Int) (myID myFF : Int) (N : Nat) :
    ∀ (i : Nat) (out out' : List ForkEntry), siblingLoop col myID myFF N i out = .ok out' →
      out'.map eraseIcons = out.map eraseIcons := by
  intro i
  induction i with
  | zero =>
    intro out out' h
    simp only [siblingLoop, Outcome.ok.injEq] at h
    rw [h]
  | succ i ih =>
    intro out out' h
    unfold siblingLoop at h
    split at h
    · simp at h
    · rename_i sibling hget
      split at h
      · split at h
        · simp at h
        · rename_i s' hset
          rw [stemLoop_names _ _ _ _ _ h]
          exact map_eraseIcons_set hget (eraseIcons_setIcon hset)
      · exact ih _ _ h

theorem forkStep_names {u : String} {L : List ForkEntry} {st st' : ForkState}
    (hn : NameOK u L st) (h : forkStep u st = .ok st') : NameOK u L st' := by
  obtain ⟨raw, out, trail, depth, num⟩ := st
  obtain ⟨hraw, r, cs, hr, hout, hcs⟩ := hn
  simp only at hraw hout
  unfold forkStep nextChild at h
  simp only at h
  cases hlast : trail.getLast? with
  | none => simp [hlast] at h
  | some pid =>
    simp only [hlast] at h
    cases raw with
    | nil =>
      simp only [Outcome.ok.injEq] at h
      subst h
      exact ⟨hraw, r, cs, hr, hout, hcs⟩
    | cons r0 rest =>
      simp only at h
      cases hscan : scanChild u pid depth rest with
      | none =>
        simp only [hscan, Outcome.ok.injEq] at h
        subst h
        exact ⟨hraw, r, cs, hr, hout, hcs⟩
      | some res =>
        obtain ⟨child, rest'⟩ := res
        simp only [hscan] at h
        obtain ⟨pre, e0, post, hrest, _, he0, _, hchild, hrest'⟩ := scanChild_some hscan
        have hme : (out ++ [child])[(out ++ [child]).length - 1]? = some child := by simp
        simp only [hme] at h
        split at h
        · rename_i out2 hsib
          simp only [Outcome.ok.injEq] at h
          subst h
          have hmap := siblingLoop_names _ _ _ _ _ _ _ hsib
          simp only [List.tail_cons] at hraw
          refine ⟨?_, r, cs ++ [eraseIcons child], hr, ?_, ?_⟩
          · intro e he hp
            simp only [List.tail_cons] at he
            subst hrest hrest'
            rcases List.mem_append.mp he with h1 | h1
            · exact hraw e (by simp [h1]) hp
            · rcases List.mem_cons.mp h1 with h2 | h2
              · subst h2; simp at hp
              · exact hraw e (by simp [h2]) hp
          · simp only
            rw [hmap]
            simp [hout]
          · intro c hc
            rcases List.mem_append.mp hc with h1 | h1
            · exact hcs c h1
            · simp only [List.mem_singleton] at h1
              subst h1
              refine ⟨e0, hraw e0 ?_ he0, depth, by rw [hchild]⟩
              subst hrest
              simp
        · simp at h
        · simp at h
        · simp at h

theorem forkLoop_names {u : String} {L : List ForkEntry} :
    ∀ (fuel : Nat) (st : ForkState) (out : List ForkEntry), NameOK u L st →
      forkLoop u fuel st = .ok out →
      ∃ r cs, L.head? = some r ∧ out.map eraseIcons = eraseIcons (rootEntry r) :: cs ∧
        ∀ c ∈ cs, ∃ e ∈ L.tail, ∃ d, c = eraseIcons (childEntry u d e) := by
  intro fuel
  induction fuel with
  | zero => intro st out _ h; simp [forkLoop] at h
  | succ fuel ih =>
    intro st out hn h
    unfold forkLoop at h
    split at h
    · cases hstep : forkStep u st with
      | ok st' =>
        simp only [hstep] at h
        exact ih st' out (forkStep_names hn hstep) h
      | error m => simp [hstep] at h
      | panic => simp [hstep] at h
      | diverge => simp [hstep] at h
    · simp only [Outcome.ok.injEq] at h
      subst h
      exact hn.out_rows

theorem ForkTree_rows {u : String} {L out : List ForkEntry} (h : ForkTree u L = .ok out) :
    ∃ r rest cs, L = r :: rest ∧ out.map eraseIcons = eraseIcons (rootEntry r) :: cs ∧
      ∀ c ∈ cs, ∃ e ∈ rest, ∃ d, c = eraseIcons (childEntry u d e) := by
  cases L with
  | nil => simp [ForkTree] at h
  | cons r rest =>
    unfold ForkTree at h
    simp only at h
    split at h
    · simp at h
    · have hn : NameOK u (r :: rest)
          ⟨{ rootEntry r with Processed := true } :: rest, [rootEntry r],
            [(rootEntry r).ID], 1, (r :: rest).length - 1⟩ :=
        ⟨fun e he _ => by simpa using he, r, [], rfl, rfl, by simp⟩
      obtain ⟨r', cs, hr, hout, hcs⟩ := forkLoop_names _ _ out hn h
      simp only [List.head?_cons, Option.some.injEq] at hr
      subst hr
      exact ⟨r, rest, cs, rfl, hout, hcs⟩

theorem eraseIcons_fields {x y : ForkEntry} (h : eraseIcons x = eraseIcons y) :
    x.ID = y.ID ∧ x.Owner = y.Owner ∧ x.Public = y.Public ∧ x.Deleted = y.Deleted ∧
      x.DBName = y.DBName := by
  cases x
  cases y
  simp only [eraseIcons, ForkEntry.mk.injEq] at h
  simp [h]

theorem rootEntry_fields (r : ForkEntry) :
    (rootEntry r).ID = r.ID ∧ (rootEntry r).Owner = r.Owner ∧
      (rootEntry r).Public = r.Public ∧ (rootEntry r).Deleted = r.Deleted ∧
      (rootEntry r).DBName = if r.Public then r.DBName else "private database" := by
  unfold rootEntry; simp only; split_ifs <;> simp_all

theorem exampleVisibility_wf : WellFormedForkSet exampleVisibility := by
  have hR : HopDepth exampleVisibility 1 0 :=
    HopDepth.root (r := forkRow "bob" "R" true 1 0) rfl
  have hA : HopDepth exampleVisibility 2 1 :=
    HopDepth.child (e := forkRow "alice" "mine" false 2 1) (by simp [exampleVisibility]) hR
  have hC : HopDepth exampleVisibility 3 1 :=
    HopDepth.child (e := forkRow "carol" "hers" false 3 1) (by simp [exampleVisibility]) hR
  have hG : HopDepth exampleVisibility 4 2 :=
    HopDepth.child (e := { forkRow "alice" "gone" true 4 2 with Deleted := true })
      (by simp [exampleVisibility]) hA
  refine ⟨⟨_, _, rfl, rfl⟩, by decide, by decide, ?_, by decide⟩
  intro e he
  simp only [exampleVisibility, List.mem_cons, List.mem_singleton, List.not_mem_nil,
    or_false] at he
  rcases he with rfl | rfl | rfl | rfl
  · exact ⟨0, hR⟩
  · exact ⟨1, hA⟩
  · exact ⟨1, hC⟩
  · exact ⟨2, hG⟩

/-- C12 (counterexample): a private root is shown as "private database" to its own owner,
and a fork whose `Deleted` flag is set is shown as "deleted database" to its own owner. -/
theorem ForkTree_owner_sees_placeholder :
    (∃ x, ForkTree "alice" examplePrivateRoot = .ok [x] ∧ x.Owner = "alice" ∧
      x.DBName = "private database" ∧ x.DBName ≠ "secret") ∧
    (∃ r a c g, ForkTree "alice" exampleVisibility = .ok [r, a, g, c] ∧ g.Owner = "alice" ∧
      g.Deleted = true ∧ g.DBName = "deleted database" ∧ g.DBName ≠ "gone") :=
  ⟨⟨_, rfl, rfl, rfl, by decide⟩, ⟨_, _, _, _, rfl, rfl, rfl, rfl, by decide⟩⟩

/-- C12 (amended): on a well-formed fork set `ForkTree` returns, and every output entry
is a row of the set with its ID, owner and flags.  After the root, an entry whose
`Deleted` flag is set is named "deleted database" for every viewer; otherwise a private
entry seen by another user than its owner is named "private database"; otherwise the
entry keeps its real name.  A root whose `Deleted` flag is not set keeps its real name when
public and is named "private database" when private and seen by another user than its
owner. -/
theorem ForkTree_names (u : String) {L : List ForkEntry} (hwf : WellFormedForkSet L) :
    ∃ out, ForkTree u L = .ok out ∧
      ∀ (i : Nat) (x : ForkEntry), out[i]? = some x →
        ∃ e ∈ L, x.ID = e.ID ∧ x.Owner = e.Owner ∧ x.Public = e.Public ∧
          x.Deleted = e.Deleted ∧
          (0 < i →
            (e.Deleted = true → x.DBName = "deleted database") ∧
            (e.Deleted = false → e.Public = false → e.Owner ≠ u →
              x.DBName = "private database") ∧
            (e.Deleted = false → (e.Public = true ∨ e.Owner = u) → x.DBName = e.DBName)) ∧
          (i = 0 → e.Deleted = false →
            (e.Public = true → x.DBName = e.DBName) ∧
            (e.Public = false → e.Owner ≠ u → x.DBName = "private database")) := by
  obtain ⟨out, hok, -⟩ := ForkTree_inv u hwf
  refine ⟨out, hok, ?_⟩
  obtain ⟨r, rest, cs, hL, hmap, hcs⟩ := ForkTree_rows hok
  subst hL
  intro i x hx
  have hxi : (out.map eraseIcons)[i]? = some (eraseIcons x) := by
    simp [List.getElem?_map, hx]
  rw [hmap] at hxi
  cases i with
  | zero =>
    simp only [List.getElem?_cons_zero, Option.some.injEq] at hxi
    obtain ⟨h1, h2, h3, h4, h5⟩ := eraseIcons_fields hxi.symm
    obtain ⟨g1, g2, g3, g4, g5⟩ := rootEntry_fields r
    refine ⟨r, by simp, h1.trans g1, h2.trans g2, h3.trans g3, h4.trans g4, ?_, ?_⟩
    · intro h; omega
    · intro _ _
      rw [h5, g5]
      constructor
      · intro hp; simp [hp]
      · intro hp _; simp [hp]
  | succ i =>
    simp only [List.getElem?_cons_succ] at hxi
    obtain ⟨e, he, d, hce⟩ := hcs _ (List.mem_iff_getElem?.mpr ⟨i, hxi⟩)
    obtain ⟨h1, h2, h3, h4, h5⟩ := eraseIcons_fields hce
    obtain ⟨g2, g3, g4⟩ := childEntry_rest u d e
    refine ⟨e, by simp [he], h1.trans (childEntry_ID u d e), h2.trans g2, h3.trans g3,
      h4.trans g4, ?_, ?_⟩
    · intro _
      rw [h5, childEntry_DBName]
      refine ⟨?_, ?_, ?_⟩
      · intro hd; simp [hd]
      · intro hd hp ho; simp [hd, hp, ho]
      · intro hd hpo
        rcases hpo with hp | ho
        · simp [hd, hp]
        · simp [hd, ho]
    · intro h; omega

/-- Witness of C12 (amended) on a fork set with private and deleted forks, seen by alice:
her private fork keeps its name, the private fork of carol and the deleted fork do not. -/
theorem ForkTree_names_witness :
    WellFormedForkSet exampleVisibility ∧
    (∃ out, ForkTree "alice" exampleVisibility = .ok out ∧
      ∀ (i : Nat) (x : ForkEntry), out[i]? = some x →
        ∃ e ∈ exampleVisibility, x.ID = e.ID ∧ x.Owner = e.Owner ∧ x.Public = e.Public ∧
          x.Deleted = e.Deleted ∧
          (0 < i →
            (e.Deleted = true → x.DBName = "deleted database") ∧
            (e.Deleted = false → e.Public = false → e.Owner ≠ "alice" →
              x.DBName = "private database") ∧
            (e.Deleted = false → (e.Public = true ∨ e.Owner = "alice") →
              x.DBName = e.DBName)) ∧
          (i = 0 → e.Deleted = false →
            (e.Public = true → x.DBName = e.DBName) ∧
            (e.Public = false → e.Owner ≠ "alice" → x.DBName = "private database"))) ∧
    (∃ r a g c, ForkTree "alice" exampleVisibility = .ok [r, a, g, c] ∧ r.DBName = "R" ∧
      a.DBName = "mine" ∧ g.DBName = "deleted database" ∧ c.DBName = "private database") :=
  ⟨exampleVisibility_wf, ForkTree_names "alice" exampleVisibility_wf,
    _, _, _, _, rfl, rfl, rfl, rfl, rfl⟩

/-! ### Pushing onto an existing or a missing branch -/

/-- C21 (counterexample): after the rollback of "master" in the example the branch has the
head C2 and the stored `CommitCount` 3; a push onto it without a commit ID gives the
`CommitCount` 3 (the new commit, C2 and C1), not 3 + 1. -/
theorem AddDatabase_recounts :
    ∃ e c' branches' e', exampleStale.branch_heads.get "master" = some e ∧
      e.Commit = "C2" ∧ e.CommitCount = 3 ∧
      AddDatabase exampleLib (some exampleStale) false "master" "" "A" "a@b" "m"
        Time.zero ⟨"T", []⟩ = .ok (c', branches') ∧
      c'.Parent = e.Commit ∧ branches'.get "master" = some e' ∧ e'.CommitCount = 3 ∧
      e'.CommitCount ≠ e.CommitCount + 1 :=
  ⟨_, _, _, _, rfl, rfl, rfl, rfl, rfl, rfl, rfl, by decide⟩

/-- C21 (amended): a push onto an existing branch `b` without a commit ID returns when the
head of `b` has an unbroken history; the new commit's `Parent` is that head and the new
`CommitCount` of `b` is 1 plus the number of commits on the chain from that head, counted
in the commit list.  It is the stored `CommitCount` plus 1 exactly when the stored
`CommitCount` was the length of that chain. -/
theorem AddDatabase_advance (lib : GoLib) (d : Database) (createBranch : Bool)
    (b dn em commitMsg : String) (now : Time) (t : DBTree) (e : BranchEntry)
    (hb : d.branch_heads.get b = some e) :
    (∀ ks, History d.commit_list e.Commit ks →
      ∃ c' branches', AddDatabase lib (some d) createBranch b "" dn em commitMsg now t
        = .ok (c', branches')) ∧
    ∀ c' branches', AddDatabase lib (some d) createBranch b "" dn em commitMsg now t
        = .ok (c', branches') →
      c'.Parent = e.Commit ∧
      ∃ e' ks, History d.commit_list e.Commit ks ∧ branches'.get b = some e' ∧
        e'.Commit = c'.ID ∧ e'.CommitCount = 1 + (ks.length : Int) ∧
        (e'.CommitCount = e.CommitCount + 1 ↔ e.CommitCount = (ks.length : Int)) := by
  constructor
  · intro ks hks
    exact AddDatabase_succeeds lib d createBranch b dn em commitMsg now t hb hks
  · intro c' branches' hok
    unfold AddDatabase at hok
    simp only [hb, ne_eq, not_true_eq_false, if_false] at hok
    split at hok
    · simp at hok
    · simp at hok
    · simp at hok
    · rename_i n hn
      simp only [Outcome.ok.injEq, Prod.mk.injEq] at hok
      obtain ⟨hc, hbr⟩ := hok
      subst hc hbr
      obtain ⟨ks, hks, hlen⟩ := countCommits_ok _ _ _ _ hn
      refine ⟨rfl, _, ks, hks, GoMap.get_set_self _ _ _, rfl, hlen, ?_⟩
      simp only [hlen]
      constructor <;> intro h <;> omega

/-- Witness of C21 (amended): a push onto "master" of the example C1 <- C2 <- C3, whose
stored `CommitCount` 3 is the length of the chain, gives the `CommitCount` 4. -/
theorem AddDatabase_advance_witness :
    ∃ c' branches' e', AddDatabase exampleLib (some exampleDB) false "master" "" "A" "a@b" "m"
        Time.zero ⟨"T", []⟩ = .ok (c', branches') ∧ c'.Parent = "C3" ∧
      branches'.get "master" = some e' ∧ e'.CommitCount = 4 := by
  obtain ⟨hp, e', ks, _, he', _, _, _⟩ :=
    (AddDatabase_advance exampleLib exampleDB false "master" "A" "a@b" "m" Time.zero
      ⟨"T", []⟩ ⟨"C3", 3, ""⟩ rfl).2 _ _ rfl
  exact ⟨_, _, _, rfl, hp, rfl, rfl⟩

/-- C22: for an existing database and a branch name that is not among its branch heads,
`AddDatabase` with `createBranch` false returns the error of the branch lookup, with no
commit and no branch map to store; with `createBranch` true a call that returns has made a
commit whose `Parent` is the commit ID passed by the caller, and it does return when that
commit ID has an unbroken history. -/
theorem AddDatabase_missing_branch (lib : GoLib) (d : Database) (b commitID dn em commitMsg : String)
    (now : Time) (t : DBTree) (hb : d.branch_heads.get b = none) :
    AddDatabase lib (some d) false b commitID dn em commitMsg now t
      = .error "Error when looking up branch details" ∧
    (∀ c' branches', AddDatabase lib (some d) true b commitID dn em commitMsg now t
        = .ok (c', branches') → c'.Parent = commitID) ∧
    (∀ ks, History d.commit_list commitID ks →
      ∃ c' branches' e', AddDatabase lib (some d) true b commitID dn em commitMsg now t
        = .ok (c', branches') ∧ c'.Parent = commitID ∧ branches'.get b = some e' ∧
        e'.Commit = c'.ID ∧ e'.CommitCount = 1 + (ks.length : Int)) := by
  refine ⟨by simp [AddDatabase, hb], ?_, ?_⟩
  · intro c' branches' hok
    unfold AddDatabase at hok
    simp only [hb, Bool.not_true, Bool.false_eq_true, if_false] at hok
    split at hok
    · simp at hok
    · simp at hok
    · simp at hok
    · simp only [Outcome.ok.injEq, Prod.mk.injEq] at hok
      obtain ⟨hc, -⟩ := hok
      subst hc
      rfl
  · intro ks hks
    have hcount := countCommits_of_history hks (d.commit_list.length + 1) 1
      (Nat.lt_succ_of_le hks.length_le)
    have hex : ∃ c' branches', AddDatabase lib (some d) true b commitID dn em commitMsg now t
        = .ok (c', branches') := by
      simp [AddDatabase, hb, hcount]
    obtain ⟨c', branches', hok⟩ := hex
    refine ⟨c', branches', ?_⟩
    have hok' := hok
    unfold AddDatabase at hok'
    simp only [hb, Bool.not_true, Bool.false_eq_true, if_false, hcount, Outcome.ok.injEq,
      Prod.mk.injEq] at hok'
    obtain ⟨hc, hbr⟩ := hok'
    subst hc hbr
    exact ⟨_, hok, rfl, GoMap.get_set_self _ _ _, rfl, rfl⟩

/-- Witness of C22: the branch "dev" is not a branch of the example C1 <- C2 <- C3. -/
theorem AddDatabase_missing_branch_witness :
    AddDatabase exampleLib (some exampleDB) false "dev" "C2" "A" "a@b" "m" Time.zero ⟨"T", []⟩
      = .error "Error when looking up branch details" :=
  (AddDatabase_missing_branch exampleLib exampleDB "dev" "C2" "A" "a@b" "m" Time.zero
    ⟨"T", []⟩ rfl).1

/-! ### Rollback keeps the history well formed -/

theorem ReachableFrom.cons_left {cl : GoMap CommitEntry} {p k : String} {c : CommitEntry}
    (hne : p ≠ "") (hg : cl.get p = some c) (h : ReachableFrom cl c.Parent k) :
    ReachableFrom cl p k := by
  induction h with
  | head => exact ReachableFrom.parent ReachableFrom.head hne hg
  | parent _ hk hgk ih => exact ReachableFrom.parent ih hk hgk

theorem DanglingFrom.reach_missing {cl : GoMap CommitEntry} {p : String} {ks : List String}
    (h : DanglingFrom cl p ks) : ∃ k, ReachableFrom cl p k ∧ k ≠ "" ∧ cl.get k = none := by
  induction h with
  | stop hne hg => exact ⟨_, ReachableFrom.head, hne, hg⟩
  | step hne hg _ ih =>
    obtain ⟨k, hr, hk, hn⟩ := ih
    exact ⟨k, hr.cons_left hne hg, hk, hn⟩

theorem History.reach_history {cl : GoMap CommitEntry} {p k : String} {ks : List String}
    (h : History cl p ks) (hr : ReachableFrom cl p k) : ∃ ks', History cl k ks' ∧ ks' ⊆ ks := by
  induction hr with
  | head => exact ⟨ks, h, fun _ hx => hx⟩
  | @parent k c _ hk hg ih =>
    obtain ⟨ks', hks', hsub⟩ := ih
    cases hks' with
    | root => exact absurd rfl hk
    | @step _ c' ks'' _ hg' hrest =>
      rw [hg] at hg'
      cases hg'
      exact ⟨ks'', hrest, fun x hx => hsub (List.mem_cons_of_mem _ hx)⟩

theorem History.reach_key {cl : GoMap CommitEntry} {p k : String} {ks : List String}
    (h : History cl p ks) (hr : ReachableFrom cl p k) (hk : k ≠ "") :
    (cl.get k).isSome = true := by
  obtain ⟨ks', hks', _⟩ := h.reach_history hr
  cases hks' with
  | root => exact absurd rfl hk
  | step _ hg _ => simp [hg]

theorem WellFormedHistory.heads_history {db : Database} (h : WellFormedHistory db) :
    HeadsHaveHistory db := by
  intro be hbe
  rcases h.acyclic.history_or_dangling be.2.Commit with hh | ⟨ks, hd⟩
  · exact hh
  · obtain ⟨k, hr, hk, hn⟩ := hd.reach_missing
    have := h.parents_keys be hbe k hr hk
    simp [hn] at this

theorem WellFormedHistory.of_histories {db : Database}
    (h1 : (GoMap.keys db.branch_heads).Nodup)
    (h2 : ∀ be ∈ db.branch_heads,
      be.2.Commit ≠ "" ∧ (db.commit_list.get be.2.Commit).isSome = true)
    (h3 : HeadsHaveHistory db) (h4 : KeysAreIDs db.commit_list) (h5 : Acyclic db.commit_list) :
    WellFormedHistory db := by
  refine ⟨h1, h2, ?_, h4, h5⟩
  intro be hbe k hr hk
  obtain ⟨ks, hks⟩ := h3 be hbe
  exact hks.reach_key hr hk

theorem History.delete_of_not_mem {cl : GoMap CommitEntry} {p x : String} {ks : List String}
    (h : History cl p ks) (hx : x ∉ ks) : History (cl.delete x) p ks := by
  induction h with
  | root => exact History.root
  | @step p c ks hne hg _ ih =>
    have hpx : p ≠ x := fun hEq => hx (by simp [hEq])
    refine History.step hne ?_ (ih (fun hm => hx (List.mem_cons_of_mem _ hm)))
    rw [GoMap.get_delete_ne _ hpx]
    exact hg

theorem KeysAreIDs.delete_keys {cl : GoMap CommitEntry} (h : KeysAreIDs cl) (x : String) :
    KeysAreIDs (cl.delete x) := by
  intro kv hkv
  exact h kv (List.mem_of_mem_filter hkv)

theorem Acyclic.delete_acyclic {cl : GoMap CommitEntry} (h : Acyclic cl) (x : String) :
    Acyclic (cl.delete x) := by
  obtain ⟨rank, hrank⟩ := h
  refine ⟨rank, ?_⟩
  intro k c hg hne
  by_cases hk : k = x
  · subst hk
    rw [GoMap.get_delete_self] at hg
    cases hg
  · rw [GoMap.get_delete_ne _ hk] at hg
    exact hrank k c hg hne

theorem GoMap.mem_set_nodup {V : Type} {m : GoMap V} {k : String} {v : V}
    (hnd : (GoMap.keys m).Nodup) {x : String × V} (hx : x ∈ GoMap.set m k v) :
    x = (k, v) ∨ (x ∈ m ∧ x.1 ≠ k) := by
  induction m with
  | nil =>
    simp only [GoMap.set, List.mem_singleton] at hx
    exact Or.inl hx
  | cons kv rest ih =>
    obtain ⟨k', v'⟩ := kv
    simp only [GoMap.keys, List.map_cons, List.nodup_cons, List.mem_map, not_exists,
      not_and] at hnd
    by_cases hk : k' = k
    · subst hk
      simp only [GoMap.set, if_true, List.mem_cons] at hx
      rcases hx with hx | hx
      · exact Or.inl hx
      · refine Or.inr ⟨List.mem_cons_of_mem _ hx, ?_⟩
        intro hEq
        exact hnd.1 x hx hEq
    · simp only [GoMap.set, hk, if_false, List.mem_cons] at hx
      rcases hx with hx | hx
      · subst hx
        exact Or.inr ⟨List.mem_cons_self _ _, hk⟩
      · rcases ih hnd.2 hx with h | ⟨h1, h2⟩
        · exact Or.inl h
        · exact Or.inr ⟨List.mem_cons_of_mem _ h1, h2⟩

theorem History.cons_inv {cl : GoMap CommitEntry} {p : String} {ks : List String}
    (h : History cl p ks) (hne : p ≠ "") :
    ∃ c ks', ks = p :: ks' ∧ cl.get p = some c ∧ History cl c.Parent ks' := by
  cases h with
  | root => exact absurd rfl hne
  | step _ hg hrest => exact ⟨_, _, rfl, hg, hrest⟩

theorem exampleSiblings_wf : WellFormedHistory exampleSiblings := by
  have h1 : History exampleSiblings.commit_list "C1" ["C1"] :=
    History.step (by decide)
      (by decide : exampleSiblings.commit_list.get "C1" = some (commitOf "C1" "")) History.root
  have h2 : History exampleSiblings.commit_list "C2" ["C2", "C1"] :=
    History.step (by decide)
      (by decide : exampleSiblings.commit_list.get "C2" = some (commitOf "C2" "C1")) h1
  have h3 : History exampleSiblings.commit_list "C3" ["C3", "C2", "C1"] :=
    History.step (by decide)
      (by decide : exampleSiblings.commit_list.get "C3" = some (commitOf "C3" "C2")) h2
  refine WellFormedHistory.of_histories (by decide) (by decide) ?_
    (by unfold KeysAreIDs; decide) ?_
  · intro be hbe
    simp only [exampleSiblings, List.mem_cons, List.mem_singleton, List.not_mem_nil,
      or_false] at hbe
    rcases hbe with rfl | rfl
    · exact ⟨_, h3⟩
    · exact ⟨_, h2⟩
  · refine ⟨fun k => if k = "C3" then 3 else if k = "C2" then 2 else if k = "C1" then 1 else 0,
      ?_⟩
    intro k c hg hne
    have hmem := GoMap.mem_of_get hg
    simp only [exampleSiblings, List.mem_cons, Prod.mk.injEq, List.mem_singleton,
      List.not_mem_nil, or_false] at hmem
    rcases hmem with ⟨rfl, rfl⟩ | ⟨rfl, rfl⟩ | ⟨rfl, rfl⟩
    · exact absurd rfl hne
    · decide
    · decide

/-- C27: `DeleteLatestBranchCommit` preserves history well-formedness.  When before the
call every branch head is a key of the commit list, every `Parent` reachable from a branch
head is a key, each key is the ID of its commit and the `Parent` relation is acyclic, then
after a successful call the same holds of the stored branch heads and commit list: no
branch is left with a head or a `Parent` that is missing. -/
theorem DeleteLatestBranchCommit_preserves (fails : StoreOp → Bool) (db db' : Database)
    (b : String) (hwf : WellFormedHistory db)
    (hok : DeleteLatestBranchCommit fails db b = (db', .ok ())) :
    WellFormedHistory db' := by
  obtain ⟨br, head, found, hbr, hhead, hpar, hwalk, hheads, hcl, _⟩ := delete_ok_inv hok
  have hhist := hwf.heads_history
  obtain ⟨r, hr, hiff⟩ :=
    walkOtherBranches_of_history hwf.keys_ids b br.Commit db.branch_heads false hhist
  rw [hwalk] at hr
  cases hr
  have hbmem : (b, br) ∈ db.branch_heads := GoMap.mem_of_get hbr
  obtain ⟨ksb, hksb⟩ := hhist _ hbmem
  have hbne : br.Commit ≠ "" := (hwf.heads_keys _ hbmem).1
  obtain ⟨c, ks', hksEq, hgc, hpast⟩ := hksb.cons_inv hbne
  simp only at hgc hpast
  rw [hhead] at hgc
  cases hgc
  have hnotin : br.Commit ∉ ks' :=
    (List.nodup_cons.mp (History.step hbne hhead hpast).nodup).1
  have key : ∀ be ∈ db'.branch_heads,
      be.2.Commit ≠ "" ∧ ∃ ks, History db'.commit_list be.2.Commit ks := by
    intro be hbe
    rw [hheads] at hbe
    rcases GoMap.mem_set_nodup hwf.names_distinct hbe with hEq | ⟨hold, hname⟩
    · subst hEq
      refine ⟨hpar, ks', ?_⟩
      rw [hcl]
      cases found
      · simpa using hpast.delete_of_not_mem hnotin
      · simpa using hpast
    · refine ⟨(hwf.heads_keys be hold).1, ?_⟩
      obtain ⟨ks, hks⟩ := hhist be hold
      refine ⟨ks, ?_⟩
      rw [hcl]
      cases found
      · have hno : br.Commit ∉ ks := by
          intro hm
          have : false = true := hiff.mpr (Or.inr ⟨be, hold, hname, ks, hks, hm⟩)
          cases this
        simpa using hks.delete_of_not_mem hno
      · simpa using hks
  refine WellFormedHistory.of_histories ?_ ?_ ?_ ?_ ?_
  · rw [hheads, GoMap.keys_set_of_get _ hbr]
    exact hwf.names_distinct
  · intro be hbe
    obtain ⟨hne, ks, hks⟩ := key be hbe
    exact ⟨hne, hks.reach_key ReachableFrom.head hne⟩
  · intro be hbe
    exact (key be hbe).2
  · rw [hcl]
    cases found
    · simpa using hwf.keys_ids.delete_keys br.Commit
    · simpa using hwf.keys_ids
  · rw [hcl]
    cases found
    · simpa using hwf.acyclic.delete_acyclic br.Commit
    · simpa using hwf.acyclic

/-- Witness of C27 on sibling branches sharing ancestry: the rollback of "master" removes
C3 and leaves "master" and "dev" at C2, both with a full history. -/
theorem DeleteLatestBranchCommit_preserves_witness :
    WellFormedHistory exampleSiblings ∧
      (DeleteLatestBranchCommit noFault exampleSiblings "master").2 = .ok () ∧
      WellFormedHistory (DeleteLatestBranchCommit noFault exampleSiblings "master").1 :=
  ⟨exampleSiblings_wf, rfl,
    DeleteLatestBranchCommit_preserves noFault exampleSiblings _ "master" exampleSiblings_wf rfl⟩

/-! ### Safety of the loop of `ForkTree` -/

theorem LoopReaches.inv {L : List ForkEntry} {u : String} (hwf : WellFormedForkSet L)
    {st0 st : ForkState} (h0 : ForkInv L st0) (h : LoopReaches u st0 st) : ForkInv L st := by
  induction h with
  | entry => exact h0
  | iteration _ hnum hstep ih =>
    obtain ⟨st1, hstep1, hinv1, _⟩ := forkStep_inv u hwf ih hnum
    rw [hstep] at hstep1
    cases hstep1
    exact hinv1

theorem setIcon_isSome (e : ForkEntry) (col : Int) (g : ForkType) :
    (setIcon e col g).isSome = true ↔ 0 ≤ col ∧ col.toNat < e.IconList.length := by
  unfold setIcon
  split <;> simp_all

/-- C30: on a well-formed fork set `ForkTree` ends normally: it neither runs on for ever
nor fails on an index out of range.  At the head of every iteration the loop comes to,
the fork trail is not empty (so `nextChild` can read its last element) and the iteration
ends normally (so every icon list written at column `iconDepth - 1` by the sibling and
stem rewrite is longer than `iconDepth - 1`), and it lowers
`2 * numUnprocessedEntries + len(forkTrail)` by one. -/
theorem ForkTree_safe (u : String) (L : List ForkEntry) (hwf : WellFormedForkSet L) :
    (∃ out, ForkTree u L = .ok out) ∧
    (∃ r rest, L = r :: rest ∧
      ForkTree u L = forkLoop u (2 * L.length + 1) (loopEntry r rest) ∧
      ∀ st, LoopReaches u (loopEntry r rest) st → 0 < st.numUnprocessedEntries →
        st.forkTrail ≠ [] ∧
        ∃ st', forkStep u st = .ok st' ∧
          2 * st'.numUnprocessedEntries + st'.forkTrail.length + 1
            = 2 * st.numUnprocessedEntries + st.forkTrail.length) ∧
    ∀ (e : ForkEntry) (col : Int) (g : ForkType),
      (setIcon e col g).isSome = true ↔ 0 ≤ col ∧ col.toNat < e.IconList.length := by
  refine ⟨?_, ?_, setIcon_isSome⟩
  · obtain ⟨out, hout, _⟩ := ForkTree_inv u hwf
    exact ⟨out, hout⟩
  · obtain ⟨r, rest, hL, hr0⟩ := hwf.root_first
    subst hL
    refine ⟨r, rest, rfl, ?_, ?_⟩
    · simp [ForkTree, hr0, loopEntry]
    · intro st hreach hnum
      have hinv : ForkInv (r :: rest) st := hreach.inv hwf (forkInv_init hwf)
      refine ⟨hinv.raw.trail_ne_nil hwf hnum, ?_⟩
      obtain ⟨st', hstep, _, hm⟩ := forkStep_inv u hwf hinv hnum
      exact ⟨st', hstep, hm⟩

/-- Witness of C30 on the fork set of the specification. -/
theorem ForkTree_safe_witness :
    WellFormedForkSet exampleForks ∧ ∃ out, ForkTree "viewer" exampleForks = .ok out :=
  ⟨exampleForks_wf, (ForkTree_safe "viewer" exampleForks exampleForks_wf).1⟩

/-! ### The shape of the fork tree does not depend on visibility -/

theorem childEntry_mask (u v : String) (d : Int) (e : ForkEntry) :
    childEntry v d (maskEntry e) = maskEntry (childEntry u d e) := by
  unfold childEntry maskEntry
  simp only
  split_ifs <;> simp_all

theorem rootEntry_mask (r : ForkEntry) : rootEntry (maskEntry r) = maskEntry (rootEntry r) := by
  unfold rootEntry maskEntry
  simp only
  split_ifs <;> simp_all

theorem scanChild_mask (u v : String) (pid d : Int) :
    ∀ rest : List ForkEntry,
      scanChild v pid d (rest.map maskEntry)
        = (scanChild u pid d rest).map (fun p => (maskEntry p.1, p.2.map maskEntry)) := by
  intro rest
  induction rest with
  | nil => rfl
  | cons e rest ih =>
    simp only [List.map_cons, scanChild]
    have h1 : (maskEntry e).Processed = e.Processed := rfl
    have h2 : (maskEntry e).ForkedFrom = e.ForkedFrom := rfl
    rw [h1, h2]
    by_cases hc : e.Processed = false ∧ e.ForkedFrom = pid
    · simp only [hc, and_self, if_true, Option.map_some', childEntry_mask u v]
      rfl
    · simp only [hc, if_false, ih]
      cases scanChild u pid d rest with
      | none => rfl
      | some p => rfl

theorem nextChild_mask (u v : String) (raw out : List ForkEntry) (trail : List Int) (d : Int) :
    nextChild v (raw.map maskEntry) (out.map maskEntry) trail d
      = (nextChild u raw out trail d).mapOk
          (fun p => (p.1.map maskEntry, p.2.1.map maskEntry, p.2.2.1, p.2.2.2)) := by
  unfold nextChild
  cases trail.getLast? with
  | none => rfl
  | some pid =>
    cases raw with
    | nil => rfl
    | cons r0 rest =>
      simp only [List.map_cons, scanChild_mask u v]
      cases h : scanChild u pid d rest with
      | none => rfl
      | some p =>
        obtain ⟨c, r'⟩ := p
        simp [Outcome.mapOk, maskEntry]

theorem getIcon_mask (e : ForkEntry) (col : Int) : getIcon (maskEntry e) col = getIcon e col :=
  rfl

theorem setIcon_mask (e : ForkEntry) (col : Int) (g : ForkType) :
    setIcon (maskEntry e) col g = (setIcon e col g).map maskEntry := by
  unfold setIcon
  have : (maskEntry e).IconList = e.IconList := rfl
  rw [this]
  split <;> rfl

theorem stemLoop_mask (col : Int) (i : Nat) :
    ∀ (l : Nat) (out : List ForkEntry),
      stemLoop col i l (out.map maskEntry) = (stemLoop col i l out).mapOk (List.map maskEntry) := by
  intro l
  induction l with
  | zero => intro out; rfl
  | succ l ih =>
    intro out
    unfold stemLoop
    by_cases hi : l + 1 > i
    · simp only [hi, if_true, List.getElem?_map]
      cases hget : out[l]? with
      | none => rfl
      | some e =>
        simp only [Option.map_some', getIcon_mask]
        cases hg : getIcon e col with
        | none => rfl
        | some g =>
          simp only
          by_cases hs : g = ForkType.SPACE
          · simp only [hs, if_true, setIcon_mask]
            cases hset : setIcon e col ForkType.STEM with
            | none => rfl
            | some e' =>
              simp only [Option.map_some']
              rw [← ih (out.set l e'), List.map_set]
          · simp only [hs, if_false]
            exact ih out
    · simp only [hi, if_false]
      rfl

theorem siblingLoop_mask (col : Int) (myID myFF : Int) (N : Nat) :
    ∀ (i : Nat) (out : List ForkEntry),
      siblingLoop col myID myFF N i (out.map maskEntry)
        = (siblingLoop col myID myFF N i out).mapOk (List.map maskEntry) := by
  intro i
  induction i with
  | zero => intro out; rfl
  | succ i ih =>
    intro out
    unfold siblingLoop
    simp only [List.getElem?_map]
    cases hget : out[i]? with
    | none => rfl
    | some s =>
      simp only [Option.map_some']
      have h1 : (maskEntry s).ForkedFrom = s.ForkedFrom := rfl
      have h2 : (maskEntry s).ID = s.ID := rfl
      rw [h1, h2]
      by_cases hc : s.ForkedFrom = myFF ∧ s.ID ≠ myID
      · simp only [hc, ne_eq, not_false_eq_true, and_self, if_true, setIcon_mask]
        cases hset : setIcon s col ForkType.BRANCH with
        | none => rfl
        | some s' =>
          simp only [Option.map_some']
          rw [← stemLoop_mask, List.map_set]
      · simp only [hc, if_false]
        exact ih out

theorem forkStep_mask (u v : String) (st : ForkState) :
    forkStep v (maskState st) = (forkStep u st).mapOk maskState := by
  obtain ⟨raw, out, trail, depth, num⟩ := st
  unfold forkStep
  simp only [maskState, nextChild_mask u v]
  cases hnc : nextChild u raw out trail depth with
  | error m => rfl
  | panic => rfl
  | diverge => rfl
  | ok res =>
    obtain ⟨raw', out', trail', found⟩ := res
    cases found with
    | false => rfl
    | true =>
      simp only [Outcome.mapOk, List.length_map, List.getElem?_map]
      cases hme : out'[out'.length - 1]? with
      | none => rfl
      | some me =>
        simp only [Option.map_some']
        have h1 : (maskEntry me).ForkedFrom = me.ForkedFrom := rfl
        have h2 : (maskEntry me).ID = me.ID := rfl
        rw [h1, h2, siblingLoop_mask]
        cases siblingLoop (depth + 1 - 1) me.ID me.ForkedFrom out'.length out'.length out' with
        | ok o => rfl
        | error m => rfl
        | panic => rfl
        | diverge => rfl

theorem forkLoop_mask (u v : String) :
    ∀ (fuel : Nat) (st : ForkState),
      forkLoop v fuel (maskState st) = (forkLoop u fuel st).mapOk (List.map maskEntry) := by
  intro fuel
  induction fuel with
  | zero => intro st; rfl
  | succ fuel ih =>
    intro st
    unfold forkLoop
    have hnum : (maskState st).numUnprocessedEntries = st.numUnprocessedEntries := rfl
    rw [hnum]
    by_cases hn : st.numUnprocessedEntries > 0
    · simp only [hn, if_true, forkStep_mask u v]
      cases forkStep u st with
      | ok st' => exact ih st'
      | error m => rfl
      | panic => rfl
      | diverge => rfl
    · simp only [hn, if_false]
      rfl

/-- Masking the rows and changing the viewer changes the output of `ForkTree` by the
masking of its entries only. -/
theorem ForkTree_mask (u v : String) (L : List ForkEntry) :
    ForkTree v (L.map maskEntry) = (ForkTree u L).mapOk (List.map maskEntry) := by
  cases L with
  | nil => rfl
  | cons r rest =>
    unfold ForkTree
    simp only [List.map_cons]
    have h0 : (maskEntry r).ForkedFrom = r.ForkedFrom := rfl
    rw [h0]
    by_cases hr : r.ForkedFrom ≠ 0
    · simp only [hr, ne_eq, not_false_eq_true, if_true]
      rfl
    · simp only [hr, if_false, rootEntry_mask, List.length_cons, List.length_map]
      rw [← forkLoop_mask u v]
      rfl

theorem maskEntry_flagsOnly (x : ForkEntry) : maskEntry (flagsOnly x) = maskEntry x := rfl

/-- C28: the tree shape that `ForkTree` draws does not depend on visibility.  For two
well-formed fork sets that differ only in the `Public` and `Deleted` flags of their
entries, and for any two viewers, both calls return, the outputs have the same length and
agree at every position on everything but `DBName`, `Public` and `Deleted` (so on ID,
owner and icon list); and an entry after the root that is private and not owned by the
viewer is shown under a placeholder, whatever its real name is. -/
theorem ForkTree_shape_hides_visibility (u1 u2 : String) (L1 L2 : List ForkEntry)
    (hwf1 : WellFormedForkSet L1) (hwf2 : WellFormedForkSet L2)
    (hsame : L1.map flagsOnly = L2.map flagsOnly) :
    ∃ out1 out2, ForkTree u1 L1 = .ok out1 ∧ ForkTree u2 L2 = .ok out2 ∧
      out1.length = out2.length ∧
      out1.map (fun x => x.ID) = out2.map (fun x => x.ID) ∧
      out1.map (fun x => x.Owner) = out2.map (fun x => x.Owner) ∧
      out1.map (fun x => x.IconList) = out2.map (fun x => x.IconList) ∧
      out1.map maskEntry = out2.map maskEntry ∧
      ∀ (i : Nat) (x : ForkEntry), 0 < i → out1[i]? = some x → x.Public = false →
        x.Owner ≠ u1 → x.DBName = "private database" ∨ x.DBName = "deleted database" := by
  obtain ⟨out1, hok1, -⟩ := ForkTree_inv u1 hwf1
  obtain ⟨out2, hok2, -⟩ := ForkTree_inv u2 hwf2
  have hmaskL : L1.map maskEntry = L2.map maskEntry := by
    have := congrArg (List.map maskEntry) hsame
    simpa [List.map_map, Function.comp_def, maskEntry_flagsOnly] using this
  have hmask : out1.map maskEntry = out2.map maskEntry := by
    have h1 := ForkTree_mask u1 "" L1
    have h2 := ForkTree_mask u2 "" L2
    rw [hok1] at h1
    rw [hok2, ← hmaskL, h1] at h2
    simpa [Outcome.mapOk] using h2
  have hproj : ∀ {β : Type} (f : ForkEntry → β), (∀ x, f (maskEntry x) = f x) →
      out1.map f = out2.map f := by
    intro β f hf
    have := congrArg (List.map f) hmask
    simpa [List.map_map, Function.comp_def, hf] using this
  refine ⟨out1, out2, hok1, hok2, ?_, hproj _ (fun _ => rfl), hproj _ (fun _ => rfl),
    hproj _ (fun _ => rfl), hmask, ?_⟩
  · have := congrArg List.length hmask
    simpa using this
  · intro i x hi hx hpriv hown
    obtain ⟨r, rest, cs, hL, hmap, hcs⟩ := ForkTree_rows hok1
    have hxi : (out1.map eraseIcons)[i]? = some (eraseIcons x) := by
      simp [List.getElem?_map, hx]
    rw [hmap] at hxi
    cases i with
    | zero => omega
    | succ i =>
      simp only [List.getElem?_cons_succ] at hxi
      obtain ⟨e, he, d, hce⟩ := hcs _ (List.mem_iff_getElem?.mpr ⟨i, hxi⟩)
      obtain ⟨_, h2, h3, _, h5⟩ := eraseIcons_fields hce
      obtain ⟨g2, g3, _⟩ := childEntry_rest u1 d e
      rw [h5, childEntry_DBName]
      have hp : e.Public = false := by rw [← g3, ← h3]; exact hpriv
      have ho : e.Owner ≠ u1 := by rw [← g2, ← h2]; exact hown
      by_cases hd : e.Deleted = true
      · right; simp [hd]
      · left; simp [hd, hp, ho]

theorem exampleAllPublic_wf : WellFormedForkSet exampleAllPublic := by
  have hR : HopDepth exampleAllPublic 1 0 :=
    HopDepth.root (r := forkRow "bob" "R" true 1 0) rfl
  have hA : HopDepth exampleAllPublic 2 1 :=
    HopDepth.child (e := forkRow "alice" "mine" true 2 1) (by simp [exampleAllPublic]) hR
  have hC : HopDepth exampleAllPublic 3 1 :=
    HopDepth.child (e := forkRow "carol" "hers" true 3 1) (by simp [exampleAllPublic]) hR
  have hG : HopDepth exampleAllPublic 4 2 :=
    HopDepth.child (e := forkRow "alice" "gone" true 4 2) (by simp [exampleAllPublic]) hA
  refine ⟨⟨_, _, rfl, rfl⟩, by decide, by decide, ?_, by decide⟩
  intro e he
  simp only [exampleAllPublic, List.mem_cons, List.mem_singleton, List.not_mem_nil,
    or_false] at he
  rcases he with rfl | rfl | rfl | rfl
  · exact ⟨0, hR⟩
  · exact ⟨1, hA⟩
  · exact ⟨1, hC⟩
  · exact ⟨2, hG⟩

/-- Witness of C28: the fork set with private and deleted forks seen by alice, against
the same fork set with every entry public seen by carol. -/
theorem ForkTree_shape_hides_visibility_witness :
    exampleVisibility.map flagsOnly = exampleAllPublic.map flagsOnly ∧
    ∃ out1 out2, ForkTree "alice" exampleVisibility = .ok out1 ∧
      ForkTree "carol" exampleAllPublic = .ok out2 ∧
      out1.length = out2.length ∧
      out1.map (fun x => x.ID) = out2.map (fun x => x.ID) ∧
      out1.map (fun x => x.Owner) = out2.map (fun x => x.Owner) ∧
      out1.map (fun x => x.IconList) = out2.map (fun x => x.IconList) ∧
      out1.map maskEntry = out2.map maskEntry ∧
      ∀ (i : Nat) (x : ForkEntry), 0 < i → out1[i]? = some x → x.Public = false →
        x.Owner ≠ "alice" → x.DBName = "private database" ∨ x.DBName = "deleted database" :=
  ⟨by decide, ForkTree_shape_hides_visibility "alice" "carol" exampleVisibility
    exampleAllPublic exampleVisibility_wf exampleAllPublic_wf (by decide)⟩

/-! ### The iterative traversal against the recursive one -/

theorem restOf_append (L raw : List ForkEntry) (c : Int) :
    ∀ (ts : List Int) (n : Nat),
      restOf L raw n (ts ++ [c])
        = ((pendingOf raw c).map (preorderFrom L (n - ts.length))).flatten ++ restOf L raw n ts := by
  intro ts
  induction ts with
  | nil => intro n; simp [restOf]
  | cons t ts ih =>
    intro n
    show restOf L raw n (t :: (ts ++ [c])) = _
    have hsub : n - 1 - ts.length = n - (ts.length + 1) := by omega
    simp only [restOf, ih, List.length_cons, List.append_assoc, hsub]

theorem restOf_congr (L : List ForkEntry) {raw raw' : List ForkEntry} :
    ∀ (ts : List Int) (n : Nat), (∀ t ∈ ts, pendingOf raw' t = pendingOf raw t) →
      restOf L raw' n ts = restOf L raw n ts := by
  intro ts
  induction ts with
  | nil => intro n _; rfl
  | cons t ts ih =>
    intro n h
    simp only [restOf]
    rw [ih (n - 1) (fun x hx => h x (List.mem_cons_of_mem _ hx)), h t (List.mem_cons_self _ _)]

theorem restOf_nil_of_pending (L : List ForkEntry) {raw : List ForkEntry}
    (h : ∀ t, pendingOf raw t = []) : ∀ (ts : List Int) (n : Nat), restOf L raw n ts = [] := by
  intro ts
  induction ts with
  | nil => intro n; rfl
  | cons t ts ih => intro n; simp [restOf, ih, h]

theorem filter_skel {L raw : List ForkEntry} (h : raw.map skel = L.map skel) (id : Int) :
    (raw.filter (fun e => e.ForkedFrom = id)).map (fun e => e.ID) = childrenOf L id := by
  have key : ∀ M : List ForkEntry, (M.filter (fun e => e.ForkedFrom = id)).map (fun e => e.ID)
      = ((M.map skel).filter (fun p => p.2 = id)).map Prod.fst := by
    intro M
    induction M with
    | nil => rfl
    | cons e M ih =>
      by_cases he : e.ForkedFrom = id
      · simp [List.filter_cons, he, skel, ih]
      · simp [List.filter_cons, he, skel, ih]
  unfold childrenOf
  rw [key raw, key L, h]

theorem HopDepth.chain {L : List ForkEntry} (hwf : WellFormedForkSet L) {id : Int} {d : Nat}
    (h : HopDepth L id d) :
    ∃ ks : List Int, ks.length = d + 1 ∧ ks.Nodup ∧
      ∀ k ∈ ks, k ∈ L.map (fun e => e.ID) ∧ ∃ d', d' ≤ d ∧ HopDepth L k d' := by
  induction h with
  | @root r rest hL =>
    refine ⟨[r.ID], rfl, by simp, ?_⟩
    intro k hk
    simp only [List.mem_singleton] at hk
    subst hk
    exact ⟨by simp [hL], 0, le_refl _, HopDepth.root hL⟩
  | @child e d he hd ih =>
    obtain ⟨ks, hlen, hnd, hall⟩ := ih
    refine ⟨e.ID :: ks, by simp [hlen], ?_, ?_⟩
    · refine List.nodup_cons.mpr ⟨?_, hnd⟩
      intro hmem
      obtain ⟨_, d', hle, hd'⟩ := hall _ hmem
      have := HopDepth.unique hwf (HopDepth.child he hd) hd'
      omega
    · intro k hk
      rcases List.mem_cons.mp hk with rfl | hk'
      · exact ⟨List.mem_map_of_mem _ he, d + 1, le_refl _, HopDepth.child he hd⟩
      · obtain ⟨h1, d', hle, hd'⟩ := hall k hk'
        exact ⟨h1, d', by omega, hd'⟩

/-- No entry of a well-formed fork set is as deep as the set has entries. -/
theorem HopDepth.lt_length {L : List ForkEntry} (hwf : WellFormedForkSet L) {id : Int} {d : Nat}
    (h : HopDepth L id d) : d < L.length := by
  obtain ⟨ks, hlen, hnd, hall⟩ := h.chain hwf
  have hsub : ks ⊆ L.map (fun e => e.ID) := fun k hk => (hall k hk).1
  have := (List.subperm_of_subset hnd hsub).length_le
  simp only [List.length_map] at this
  omega

theorem forkStep_cases {u : String} {st st' : ForkState} (h : forkStep u st = .ok st') :
    ∃ pid, st.forkTrail.getLast? = some pid ∧
      ((∃ r0 rest child rest', st.dbList = r0 :: rest ∧
          scanChild u pid st.iconDepth rest = some (child, rest') ∧
          st'.dbList = r0 :: rest' ∧
          st'.outputList.map eraseIcons = (st.outputList ++ [child]).map eraseIcons ∧
          st'.forkTrail = st.forkTrail ++ [child.ID]) ∨
       ((∀ r0 rest, st.dbList = r0 :: rest → scanChild u pid st.iconDepth rest = none) ∧
          st'.dbList = st.dbList ∧ st'.outputList = st.outputList ∧
          st'.forkTrail = st.forkTrail.dropLast)) := by
  obtain ⟨raw, out, trail, depth, num⟩ := st
  unfold forkStep nextChild at h
  simp only at h
  cases hlast : trail.getLast? with
  | none => simp [hlast] at h
  | some pid =>
    refine ⟨pid, rfl, ?_⟩
    simp only [hlast] at h
    cases raw with
    | nil =>
      simp only [Outcome.ok.injEq] at h
      subst h
      exact Or.inr ⟨(fun _ _ hc => by cases hc), rfl, rfl, rfl⟩
    | cons r0 rest =>
      simp only at h
      cases hscan : scanChild u pid depth rest with
      | none =>
        simp only [hscan, Outcome.ok.injEq] at h
        subst h
        refine Or.inr ⟨?_, rfl, rfl, rfl⟩
        intro a b hab
        simp only [List.cons.injEq] at hab
        rw [← hab.2]
        exact hscan
      | some res =>
        obtain ⟨child, rest'⟩ := res
        simp only [hscan] at h
        have hme : (out ++ [child])[(out ++ [child]).length - 1]? = some child := by simp
        simp only [hme] at h
        split at h
        · rename_i out2 hsib
          simp only [Outcome.ok.injEq] at h
          subst h
          exact Or.inl ⟨r0, rest, child, rest', rfl, hscan, rfl,
            siblingLoop_names _ _ _ _ _ _ _ hsib, rfl⟩
        · simp at h
        · simp at h
        · simp at h

theorem map_ID_of_eraseIcons {a b : List ForkEntry}
    (h : a.map eraseIcons = b.map eraseIcons) :
    a.map (fun x => x.ID) = b.map (fun x => x.ID) := by
  have := congrArg (List.map (fun x : ForkEntry => x.ID)) h
  simpa [List.map_map, Function.comp_def, eraseIcons] using this

theorem ShapeOK.trail_nodup {L : List ForkEntry} {trail : List Int} {S : List Shape}
    (h : ShapeOK L trail S) : trail.Nodup := by
  rw [List.nodup_iff_getElem?_ne_getElem?]
  intro i j hij hj heq
  have hjv : trail[j]? = some trail[j] := List.getElem?_eq_getElem hj
  have hiv : trail[i]? = some trail[j] := by rw [heq, hjv]
  obtain ⟨p1, s1, hp1, hid1, hlen1, _⟩ := h.trail_pos i _ hiv
  obtain ⟨p2, s2, hp2, hid2, hlen2, _⟩ := h.trail_pos j _ hjv
  have hpp : p1 = p2 := h.pos_unique hp1 hp2 (by rw [hid1, hid2])
  subst hpp
  rw [hp1] at hp2
  cases hp2
  omega

theorem pendingOf_found (u : String) (d : Int) (r0 : ForkEntry) {e : ForkEntry}
    {pre : List ForkEntry} (post : List ForkEntry)
    {pid : Int} (hpre : ∀ x ∈ pre, ¬ (x.Processed = false ∧ x.ForkedFrom = pid))
    (hep : e.Processed = false) (heff : e.ForkedFrom = pid) :
    pendingOf (r0 :: (pre ++ e :: post)) pid
        = e.ID :: pendingOf (r0 :: (pre ++ { childEntry u d e with Processed := true } :: post)) pid ∧
      ∀ t, t ≠ pid →
        pendingOf (r0 :: (pre ++ { childEntry u d e with Processed := true } :: post)) t
          = pendingOf (r0 :: (pre ++ e :: post)) t := by
  have hnil : pre.filter (fun x => !x.Processed && decide (x.ForkedFrom = pid)) = [] := by
    rw [List.filter_eq_nil_iff]
    intro x hx
    simpa using hpre x hx
  constructor
  · simp [pendingOf, List.filter_append, List.filter_cons, hnil, hep, heff]
  · intro t ht
    have hne : ¬ e.ForkedFrom = t := by rw [heff]; exact fun h => ht h.symm
    simp [pendingOf, List.filter_append, List.filter_cons, hne, childEntry_ForkedFrom]

theorem pendingOf_eq_children {L raw : List ForkEntry} (hwf : WellFormedForkSet L)
    (hskel : raw.map skel = L.map skel) {e : ForkEntry} (he : e ∈ raw.tail)
    (hp : e.Processed = false)
    (hk : ∀ e ∈ raw.tail, e.Processed = false →
      ∀ k ∈ raw.tail, k.ForkedFrom = e.ID → k.Processed = false) :
    pendingOf raw e.ID = childrenOf L e.ID := by
  obtain ⟨r, rest0, hL, hr0⟩ := hwf.root_first
  subst hL
  cases raw with
  | nil => simp at hskel
  | cons a rest =>
    simp only [List.tail_cons] at he hk
    simp only [List.map_cons, List.cons.injEq] at hskel
    have haff : a.ForkedFrom = 0 := by
      have := congrArg Prod.snd hskel.1
      simpa [skel, hr0] using this
    have hsk : (a :: rest).map skel = (r :: rest0).map skel := by simp [hskel.1, hskel.2]
    obtain ⟨e', he', hid', _⟩ := skel_mem hsk (List.mem_cons_of_mem _ he)
    have hne0 : e.ID ≠ 0 := by rw [← hid']; exact hwf.ids_nonzero e' he'
    rw [← filter_skel hsk]
    have hane : ¬ a.ForkedFrom = e.ID := by rw [haff]; exact fun h => hne0 h.symm
    simp only [pendingOf, List.tail_cons, List.filter_cons, hane, decide_False,
      Bool.false_eq_true, if_false]
    congr 1
    apply List.filter_congr
    intro x hx
    by_cases hxf : x.ForkedFrom = e.ID
    · simp [hxf, hk e he hp x hx hxf]
    · simp [hxf]

theorem preorderFrom_succ (L : List ForkEntry) (n : Nat) (id : Int) :
    preorderFrom L (n + 1) id
      = id :: ((childrenOf L id).map (preorderFrom L n)).flatten := rfl

/-- One iteration of the loop of `ForkTree` keeps the order invariant. -/
theorem forkStep_order {L : List ForkEntry} {u : String} {F : Nat} {rootID : Int}
    {st st' : ForkState} (hwf : WellFormedForkSet L) (hF : L.length ≤ F)
    (hinv : ForkInv L st) (hord : OrderOK L F rootID st) (hstep : forkStep u st = .ok st') :
    OrderOK L F rootID st' := by
  obtain ⟨pid, hlast, hcase⟩ := forkStep_cases hstep
  have htrail : st.forkTrail.dropLast ++ [pid] = st.forkTrail :=
    List.dropLast_append_getLast? pid (by simpa using hlast)
  have hsplitT := restOf_append L st.dbList pid st.forkTrail.dropLast (F - 1)
  rw [htrail] at hsplitT
  rcases hcase with ⟨r0, rest, child, rest', hraw, hscan, hraw', hout', htrail'⟩ |
    ⟨hnone, hraw', hout', htrail'⟩
  · obtain ⟨pre, e, post, hrest, hpre, hep, heff, hchild, hrest'⟩ := scanChild_some hscan
    have hS := hinv.shape
    have hR := hinv.raw
    have hcid : child.ID = e.ID := by rw [hchild]; exact childEntry_ID _ _ _
    have heraw : e ∈ st.dbList := by rw [hraw, hrest]; simp
    have hetail : e ∈ st.dbList.tail := by rw [hraw, hrest]; simp
    -- the top of the trail is a processed entry, one level above the child
    obtain ⟨hlen, htop⟩ := getLast?_eq_getElem?_pred hlast
    obtain ⟨p, s, hsp, hsid, hslen, _⟩ := hS.trail_pos _ pid htop
    have hs : s ∈ st.outputList.map shapeOf := List.mem_iff_getElem?.mpr ⟨p, hsp⟩
    obtain ⟨d, hd1, hd2⟩ := hS.hop s hs
    obtain ⟨e', he', hid', hff'⟩ := skel_mem hR.skel_eq heraw
    have hdepth : HopDepth L e'.ID (d + 1) :=
      HopDepth.child he' (by rw [hff', heff, ← hsid]; exact hd2)
    have hlt := hdepth.lt_length hwf
    have hlenF : st.forkTrail.length < F := by omega
    obtain ⟨x, hx, hxp, hxid, _⟩ := hR.out_done s hs
    have hne : e.ID ≠ pid := by
      intro hEq
      have : e = x := hR.raw_eq_of_ID hwf heraw hx (by rw [hEq, hxid, hsid])
      rw [this, hxp] at hep
      cases hep
    have hnd : st.forkTrail.Nodup := hS.trail_nodup
    have hnotin : pid ∉ st.forkTrail.dropLast := by
      rw [← htrail] at hnd
      have := List.nodup_append.mp hnd
      intro hm
      exact this.2.2 hm (by simp)
    -- the pending children before and after
    have hrawEq : st.dbList = r0 :: (pre ++ e :: post) := by rw [hraw, hrest]
    have hrawEq' : st'.dbList
        = r0 :: (pre ++ { childEntry u st.iconDepth e with Processed := true } :: post) := by
      rw [hraw', hrest']
    obtain ⟨hpend1, hpend2⟩ := pendingOf_found u st.iconDepth r0 post
      hpre hep heff
    rw [← hrawEq, ← hrawEq'] at hpend1 hpend2
    have hkids : pendingOf st'.dbList child.ID = childrenOf L e.ID := by
      rw [hcid, hpend2 e.ID hne]
      exact pendingOf_eq_children hwf hR.skel_eq hetail hep hord.kids_fresh
    constructor
    · have hsplit' := restOf_append L st'.dbList child.ID st.forkTrail (F - 1)
      have hsplitT' := restOf_append L st'.dbList pid st.forkTrail.dropLast (F - 1)
      rw [htrail] at hsplitT'
      have hrest : restOf L st'.dbList (F - 1) st.forkTrail.dropLast
          = restOf L st.dbList (F - 1) st.forkTrail.dropLast :=
        restOf_congr L _ _ (fun t ht => hpend2 t (fun hEq => hnotin (hEq ▸ ht)))
      have hlenT : st.forkTrail.length = st.forkTrail.dropLast.length + 1 := by
        simp only [List.length_dropLast]; omega
      obtain ⟨m, hm⟩ : ∃ m, F - 1 - st.forkTrail.dropLast.length = m + 1 :=
        ⟨F - 1 - st.forkTrail.dropLast.length - 1, by omega⟩
      have hm' : F - 1 - st.forkTrail.length = m := by omega
      rw [hord.split, htrail', hsplit', hsplitT', hsplitT, hrest, hpend1, hkids, hm, hm',
        map_ID_of_eraseIcons hout']
      simp [preorderFrom_succ, hcid]
    · intro a ha hap k hk hkff
      rw [hrawEq'] at ha hk
      rw [hrawEq] at hetail
      simp only [List.tail_cons, List.mem_append, List.mem_cons] at ha hk hetail
      have hkf := hord.kids_fresh
      rw [hrawEq] at hkf
      simp only [List.tail_cons, List.mem_append, List.mem_cons] at hkf
      have haold : a ∈ pre ∨ a = e ∨ a ∈ post := by
        rcases ha with h | h | h
        · exact Or.inl h
        · rw [h] at hap; simp at hap
        · exact Or.inr (Or.inr h)
      rcases hk with h | h | h
      · exact hkf a haold hap k (Or.inl h) hkff
      · exfalso
        rw [h] at hkff
        simp only [childEntry_ForkedFrom] at hkff
        have haraw : a ∈ st.dbList := by
          rw [hrawEq]
          rcases haold with h1 | h1 | h1
          · simp [h1]
          · simp [h1]
          · simp [h1]
        have : a = x := hR.raw_eq_of_ID hwf haraw hx (by rw [← hkff, heff, hxid, hsid])
        rw [this, hxp] at hap
        cases hap
      · exact hkf a haold hap k (Or.inr (Or.inr h)) hkff
  · have hpend : pendingOf st.dbList pid = [] := by
      cases hd : st.dbList with
      | nil => rfl
      | cons r0 rest =>
        have hn := scanChild_none (hnone r0 rest hd)
        simp only [pendingOf, List.tail_cons, List.map_eq_nil_iff, List.filter_eq_nil_iff]
        intro y hy
        simpa using hn y hy
    constructor
    · rw [hord.split, hout', hraw', htrail', hsplitT, hpend]
      simp
    · rw [hraw']
      exact hord.kids_fresh

/-- The order invariant holds when the loop is entered. -/
theorem orderOK_init {r : ForkEntry} {rest : List ForkEntry}
    (hwf : WellFormedForkSet (r :: rest)) {F : Nat} (hF : (r :: rest).length ≤ F) :
    OrderOK (r :: rest) F r.ID (loopEntry r rest) := by
  obtain ⟨m, hm⟩ : ∃ m, F = m + 1 := ⟨F - 1, by simp only [List.length_cons] at hF; omega⟩
  obtain ⟨r', rest', hL, hr0⟩ := hwf.root_first
  simp only [List.cons.injEq] at hL
  obtain ⟨hLr, -⟩ := hL
  subst hLr
  have hrne : r.ID ≠ 0 := hwf.ids_nonzero r (by simp)
  have hfresh : ∀ e ∈ rest, e.Processed = false := fun e he =>
    (hwf.fresh e (List.mem_cons_of_mem _ he)).2
  have hpend : ∀ a : ForkEntry, pendingOf (a :: rest) r.ID = childrenOf (r :: rest) r.ID := by
    intro a
    have hne : ¬ r.ForkedFrom = r.ID := by rw [hr0]; exact fun h => hrne h.symm
    simp only [pendingOf, List.tail_cons, childrenOf, List.filter_cons, hne,
      decide_False, Bool.false_eq_true, if_false]
    congr 1
    apply List.filter_congr
    intro x hx
    simp [hfresh x hx]
  constructor
  · subst hm
    simp only [loopEntry, restOf, rootEntry_ID, List.map_cons, List.map_nil, Nat.add_sub_cancel,
      List.nil_append, List.singleton_append, preorderFrom_succ, hpend]
  · intro e he _ k hk _
    exact hfresh k (by simpa [loopEntry] using hk)

theorem forkLoop_order {L : List ForkEntry} {u : String} {F : Nat} {rootID : Int}
    (hwf : WellFormedForkSet L) (hF : L.length ≤ F) :
    ∀ (fuel : Nat) (st : ForkState) (out : List ForkEntry), ForkInv L st →
      OrderOK L F rootID st → forkLoop u fuel st = .ok out →
      out.map (fun x => x.ID) = preorderFrom L F rootID := by
  intro fuel
  induction fuel with
  | zero => intro st out _ _ h; simp [forkLoop] at h
  | succ fuel ih =>
    intro st out hinv hord h
    unfold forkLoop at h
    by_cases hnum : st.numUnprocessedEntries > 0
    · obtain ⟨st1, hstep, hinv1, _⟩ := forkStep_inv u hwf hinv hnum
      simp only [hnum, if_true, hstep] at h
      exact ih st1 out hinv1 (forkStep_order hwf hF hinv hord hstep) h
    · simp only [hnum, if_false, Outcome.ok.injEq] at h
      subst h
      have hzero : st.dbList.tail.countP (fun e => !e.Processed) = 0 := by
        rw [← hinv.raw.num_eq]; omega
      have hpend : ∀ t, pendingOf st.dbList t = [] := by
        intro t
        simp only [pendingOf, List.map_eq_nil_iff, List.filter_eq_nil_iff]
        intro y hy
        have := List.countP_eq_zero.mp hzero y hy
        simp at this
        simp [this]
      rw [hord.split, restOf_nil_of_pending L hpend]
      simp

/-- On a well-formed fork set the IDs of the output of `ForkTree` are the recursive
traversal from the root, at every recursion depth that is at least the number of entries. -/
theorem ForkTree_ids {u : String} {r : ForkEntry} {rest : List ForkEntry}
    (hwf : WellFormedForkSet (r :: rest)) {out : List ForkEntry}
    (hok : ForkTree u (r :: rest) = .ok out) {F : Nat} (hF : (r :: rest).length ≤ F) :
    out.map (fun x => x.ID) = preorderFrom (r :: rest) F r.ID := by
  obtain ⟨r', rest', hL, hr0⟩ := hwf.root_first
  simp only [List.cons.injEq] at hL
  obtain ⟨hLr, -⟩ := hL
  subst hLr
  unfold ForkTree at hok
  simp only [hr0, ne_eq, not_true_eq_false, if_false] at hok
  exact forkLoop_order hwf hF _ _ out (forkInv_init hwf) (orderOK_init hwf hF) hok

/-- C26: on a well-formed fork set the sequence of entry IDs that `ForkTree` returns is
the sequence of the recursive depth-first pre-order traversal from the root that visits
the children of each entry in their input order (at every recursion depth that is at
least the number of entries).  So the root is first, the IDs of the output are those of
the input, each once, and every entry after the first comes after its parent. -/
theorem ForkTree_preorder (u : String) (L : List ForkEntry) (hwf : WellFormedForkSet L) :
    ∃ out, ForkTree u L = .ok out ∧
      out.map (fun x => x.ID) = preorder L ∧
      (∀ r ∈ L.head?, ∀ F, L.length ≤ F → preorderFrom L F r.ID = preorder L) ∧
      out.head?.map (fun x => x.ID) = L.head?.map (fun e => e.ID) ∧
      (out.map (fun x => x.ID)).Perm (L.map (fun e => e.ID)) ∧
      (out.map (fun x => x.ID)).Nodup ∧
      ∀ (i : Nat) (x : ForkEntry), 0 < i → out[i]? = some x →
        ∃ (q : Nat) (y : ForkEntry), q < i ∧ out[q]? = some y ∧ y.ID = x.ForkedFrom := by
  obtain ⟨out, hok, st, hinv, hout, hnum⟩ := ForkTree_inv u hwf
  subst hout
  obtain ⟨r, rest, hL, -⟩ := hwf.root_first
  subst hL
  have hids := fun F hF => ForkTree_ids (F := F) hwf hok hF
  have hpre : st.outputList.map (fun x => x.ID) = preorder (r :: rest) :=
    hids _ (le_refl _)
  have hnd : (st.outputList.map (fun x => x.ID)).Nodup := by
    have := hinv.shape.nodup
    simpa [List.map_map, Function.comp_def, shapeOf] using this
  have hcount := hinv.raw.count
  rw [hnum] at hcount
  simp only [List.length_map, Nat.add_zero] at hcount
  refine ⟨st.outputList, hok, hpre, ?_, ?_, ?_, hnd, ?_⟩
  · intro r' hr' F hF
    simp only [List.head?_cons, Option.mem_def, Option.some.injEq] at hr'
    subst hr'
    rw [← hpre, hids F hF]
  · rw [← List.head?_map, hpre]
    simp [preorder, preorderFrom_succ]
  · have hsub : st.outputList.map (fun x => x.ID) ⊆ (r :: rest).map (fun e => e.ID) := by
      intro id hid
      obtain ⟨x, hx, rfl⟩ := List.mem_map.mp hid
      obtain ⟨d, _, hd⟩ := hinv.shape.hop (shapeOf x) (List.mem_map_of_mem _ hx)
      obtain ⟨p, hp, hpid⟩ := hd.mem_set
      exact List.mem_map.mpr ⟨p, hp, hpid⟩
    exact (List.subperm_of_subset hnd hsub).perm_of_length_le (by simp [hcount])
  · intro i x hi hx
    have hxs : (st.outputList.map shapeOf)[i]? = some (shapeOf x) := by
      simp [List.getElem?_map, hx]
    obtain ⟨q, y, hq, hy, hyid, _⟩ := hinv.shape.parent_pos i _ hi hxs
    rw [List.getElem?_map] at hy
    cases hyq : st.outputList[q]? with
    | none => rw [hyq] at hy; cases hy
    | some y' =>
      rw [hyq] at hy
      simp only [Option.map_some', Option.some.injEq] at hy
      subst hy
      exact ⟨q, y', hq, hyq, hyid⟩

/-- Witness of C26 on the fork set of the specification: R, its fork A, the fork C of A,
then the fork B of R. -/
theorem ForkTree_preorder_witness :
    preorder exampleForks = [1, 2, 3, 4] ∧
    ∃ out, ForkTree "viewer" exampleForks = .ok out ∧
      out.map (fun x => x.ID) = preorder exampleForks := by
  obtain ⟨out, hok, hpre, _⟩ := ForkTree_preorder "viewer" exampleForks exampleForks_wf
  exact ⟨by decide, out, hok, hpre⟩

/-! ### The serialization of a tree can be read back -/

theorem digitChar_spec : ∀ k, k < 10 →
    (Nat.digitChar k).isDigit = true ∧ (Nat.digitChar k).toNat - 48 = k := by
  decide

theorem toDigitsCore_spec :
    ∀ (fuel n : Nat) (ds : List Char), n < fuel →
      ∃ X, Nat.toDigitsCore 10 fuel n ds = X ++ ds ∧ X ≠ [] ∧
        (∀ c ∈ X, c.isDigit = true) ∧ digitsVal X = n := by
  intro fuel
  induction fuel with
  | zero => intro n ds h; omega
  | succ fuel ih =>
    intro n ds h
    have hd := digitChar_spec (n % 10) (Nat.mod_lt _ (by decide))
    unfold Nat.toDigitsCore
    simp only
    by_cases h0 : n / 10 = 0
    · simp only [h0, if_true]
      refine ⟨[Nat.digitChar (n % 10)], rfl, by simp, ?_, ?_⟩
      · intro c hc
        simp only [List.mem_singleton] at hc
        rw [hc]; exact hd.1
      · simp only [digitsVal, List.foldl_cons, List.foldl_nil, hd.2]
        omega
    · simp only [h0, if_false]
      obtain ⟨X, hX, _, hdig, hval⟩ := ih (n / 10) (Nat.digitChar (n % 10) :: ds) (by omega)
      refine ⟨X ++ [Nat.digitChar (n % 10)], by simp [hX], by simp, ?_, ?_⟩
      · intro c hc
        rcases List.mem_append.mp hc with h1 | h1
        · exact hdig c h1
        · simp only [List.mem_singleton] at h1
          rw [h1]; exact hd.1
      · simp only [digitsVal] at hval
        simp only [digitsVal, List.foldl_append, List.foldl_cons, List.foldl_nil, hval, hd.2]
        omega

/-- The decimal of a natural number is a non-empty string of digits that writes it. -/
theorem nat_toString_spec (n : Nat) :
    (toString n).data ≠ [] ∧ (∀ c ∈ (toString n).data, c.isDigit = true) ∧
      digitsVal (toString n).data = n := by
  obtain ⟨X, hX, hne, hdig, hval⟩ := toDigitsCore_spec (n + 1) n [] (Nat.lt_succ_self n)
  have hdata : (toString n).data = Nat.toDigitsCore 10 (n + 1) n [] := rfl
  rw [hdata, hX, List.append_nil]
  exact ⟨hne, hdig, hval⟩

theorem nat_toString_inj {n m : Nat} (h : toString n = toString m) : n = m := by
  rw [← (nat_toString_spec n).2.2, ← (nat_toString_spec m).2.2, h]

theorem int_toString_chars (i : Int) :
    ∀ c ∈ (toString i).data, c.isDigit = true ∨ c = '-' := by
  intro c hc
  cases i with
  | ofNat m =>
    have : toString (Int.ofNat m) = toString m := rfl
    rw [this] at hc
    exact Or.inl ((nat_toString_spec m).2.1 c hc)
  | negSucc m =>
    have : toString (Int.negSucc m) = "-" ++ toString (m + 1) := rfl
    rw [this, String.data_append] at hc
    rcases List.mem_append.mp hc with h | h
    · right
      simpa using h
    · exact Or.inl ((nat_toString_spec (m + 1)).2.1 c h)

/-- The decimal of an integer determines the integer. -/
theorem int_toString_inj {a b : Int} (h : toString a = toString b) : a = b := by
  have hmix : ∀ m m' : Nat, toString m ≠ "-" ++ toString (m' + 1) := by
    intro m m' hEq
    obtain ⟨hne, hdig, _⟩ := nat_toString_spec m
    rw [hEq, String.data_append] at hdig
    have := hdig '-' (by simp)
    revert this
    decide
  cases a with
  | ofNat m =>
    cases b with
    | ofNat m' =>
      have h' : toString m = toString m' := h
      rw [nat_toString_inj h']
    | negSucc m' =>
      have h' : toString m = "-" ++ toString (m' + 1) := h
      exact absurd h' (hmix m m')
  | negSucc m =>
    cases b with
    | ofNat m' =>
      have h' : "-" ++ toString (m + 1) = toString m' := h
      exact absurd h'.symm (hmix m' m)
    | negSucc m' =>
      have h' : "-" ++ toString (m + 1) = "-" ++ toString (m' + 1) := h
      have hd := congrArg String.data h'
      simp only [String.data_append, List.append_cancel_left_eq] at hd
      have := nat_toString_inj (String.ext hd)
      have hm : m = m' := by omega
      rw [hm]

theorem split_at_sep {c : Char} :
    ∀ {a b x y : List Char}, c ∉ a → c ∉ b → a ++ c :: x = b ++ c :: y → a = b ∧ x = y := by
  intro a
  induction a with
  | nil =>
    intro b x y _ hb h
    cases b with
    | nil => simpa using h
    | cons b0 b' =>
      simp only [List.nil_append, List.cons_append, List.cons.injEq] at h
      exact absurd (by rw [h.1]; simp) hb
  | cons a0 a' ih =>
    intro b x y ha hb h
    cases b with
    | nil =>
      simp only [List.nil_append, List.cons_append, List.cons.injEq] at h
      exact absurd (by rw [← h.1]; simp) ha
    | cons b0 b' =>
      simp only [List.cons_append, List.cons.injEq] at h
      obtain ⟨h0, hrest⟩ := h
      obtain ⟨h1, h2⟩ := ih (fun hm => ha (List.mem_cons_of_mem _ hm))
        (fun hm => hb (List.mem_cons_of_mem _ hm)) hrest
      exact ⟨by rw [h0, h1], h2⟩

theorem not_mem_of_nulCount {s : String} (h : nulCount s = 0) : Char.ofNat 0 ∉ s.data :=
  List.count_eq_zero.mp h

theorem int_toString_no_newline (i : Int) : '\n' ∉ (toString i).data := by
  intro hm
  rcases int_toString_chars i _ hm with h | h
  · revert h; decide
  · revert h; decide

theorem treeEntryBytes_data (lib : GoLib) (j : DBTreeEntry) (rest : String) :
    (treeEntryBytes lib j ++ rest).data
      = j.EntryType.data ++ Char.ofNat 0 :: (j.LicenceSHA.data ++ Char.ofNat 0 ::
          (j.Sha256.data ++ Char.ofNat 0 :: (j.Name.data ++ Char.ofNat 0 ::
            ((lib.formatRFC3339 j.LastModified).data ++ Char.ofNat 0 ::
              ((toString j.Size).data ++ '\n' :: rest.data))))) := by
  simp [treeEntryBytes, nul, String.data_append, String.singleton]

/-- Two lists of tree entries without NUL bytes in their fields that have the same
serialization have the same records, entry by entry. -/
theorem treeBytes_records (lib : GoLib) (hfmt : ∀ t, nulCount (lib.formatRFC3339 t) = 0) :
    ∀ xs ys : List DBTreeEntry, (∀ j ∈ xs, NulFree j) → (∀ j ∈ ys, NulFree j) →
      treeBytes lib xs = treeBytes lib ys → xs.map (recordOf lib) = ys.map (recordOf lib) := by
  intro xs
  induction xs with
  | nil =>
    intro ys _ _ h
    cases ys with
    | nil => rfl
    | cons b ys =>
      have hd := congrArg String.data h
      rw [treeBytes, treeBytes, treeEntryBytes_data] at hd
      simp at hd
  | cons a xs ih =>
    intro ys hx hy h
    cases ys with
    | nil =>
      have hd := congrArg String.data h
      rw [treeBytes, treeBytes, treeEntryBytes_data] at hd
      simp at hd
    | cons b ys =>
      have hd := congrArg String.data h
      rw [treeBytes, treeBytes, treeEntryBytes_data, treeEntryBytes_data] at hd
      obtain ⟨a1, a2, a3, a4⟩ := hx a (List.mem_cons_self _ _)
      obtain ⟨b1, b2, b3, b4⟩ := hy b (List.mem_cons_self _ _)
      obtain ⟨e1, hd⟩ := split_at_sep (not_mem_of_nulCount a1) (not_mem_of_nulCount b1) hd
      obtain ⟨e2, hd⟩ := split_at_sep (not_mem_of_nulCount a2) (not_mem_of_nulCount b2) hd
      obtain ⟨e3, hd⟩ := split_at_sep (not_mem_of_nulCount a3) (not_mem_of_nulCount b3) hd
      obtain ⟨e4, hd⟩ := split_at_sep (not_mem_of_nulCount a4) (not_mem_of_nulCount b4) hd
      obtain ⟨e5, hd⟩ := split_at_sep (not_mem_of_nulCount (hfmt _))
        (not_mem_of_nulCount (hfmt _)) hd
      obtain ⟨e6, hd⟩ := split_at_sep (int_toString_no_newline _)
        (int_toString_no_newline _) hd
      have hrest := ih ys (fun j hj => hx j (List.mem_cons_of_mem _ hj))
        (fun j hj => hy j (List.mem_cons_of_mem _ hj)) (String.ext hd)
      simp only [List.map_cons, recordOf, hrest, String.ext e1, String.ext e2, String.ext e3,
        String.ext e4, String.ext e5, int_toString_inj (String.ext e6)]

theorem treeBytes_join (lib : GoLib) (entries : List DBTreeEntry) :
    treeBytes lib entries = String.join (entries.map (treeEntryBytes lib)) := by
  have key : ∀ (l : List DBTreeEntry) (acc : String),
      List.foldl (fun r s => r ++ s) acc (l.map (treeEntryBytes lib))
        = acc ++ treeBytes lib l := by
    intro l
    induction l with
    | nil => intro acc; simp [treeBytes]
    | cons j l ih =>
      intro acc
      simp only [List.map_cons, List.foldl_cons, ih, treeBytes, String.append_assoc]
  simp [String.join, key]

theorem nat_toString_nulCount (n : Nat) : nulCount (toString n) = 0 := by
  apply List.count_eq_zero.mpr
  intro hm
  have := (nat_toString_spec n).2.1 _ hm
  revert this
  decide

theorem pad2_nulCount (n : Nat) : nulCount (pad2 n) = 0 := by
  unfold pad2
  split
  · rw [nulCount_append, nat_toString_nulCount]; decide
  · exact nat_toString_nulCount n

theorem padYear_nulCount (y : Int) : nulCount (padYear y) = 0 := by
  have hrep : ∀ k, nulCount (String.mk (List.replicate k '0')) = 0 := by
    intro k
    apply List.count_eq_zero.mpr
    intro hm
    have := List.eq_of_mem_replicate hm
    revert this
    decide
  unfold padYear
  simp only
  split
  · rw [nulCount_append, nulCount_append, hrep, nat_toString_nulCount]; decide
  · rw [nulCount_append, hrep, nat_toString_nulCount]

theorem zoneNumeric_nulCount (offset : Int) (colon : Bool) :
    nulCount (zoneNumeric offset colon) = 0 := by
  unfold zoneNumeric
  simp only [nulCount_append, pad2_nulCount]
  cases colon <;> split <;> decide

/-- Go's RFC 3339 layout writes no NUL byte. -/
theorem formatRFC3339_nulCount (t : Time) : nulCount (formatRFC3339 t) = 0 := by
  unfold formatRFC3339
  simp only [nulCount_append, pad2_nulCount, padYear_nulCount]
  split
  · decide
  · simp [zoneNumeric_nulCount]; decide

/-- C29: `CreateDBTreeID` hashes the concatenation, in list order, of one record per entry
(entry type, licence sha256, file sha256, file name, formatted last modified time, each
followed by a NUL byte, then the decimal size and a newline).  With a time layout that
writes no NUL byte, the serialization is injective on lists of entries whose string fields
hold no NUL byte: two such lists with the same bytes have the same length and the same
records entry by entry, so changing a field of one entry, or exchanging two entries with
different records, changes the bytes. -/
theorem treeBytes_injective (lib : GoLib) (hfmt : ∀ t, nulCount (lib.formatRFC3339 t) = 0) :
    (∀ entries, CreateDBTreeID lib entries
        = lib.sha256Hex (String.join (entries.map (treeEntryBytes lib)))) ∧
    (∀ xs ys : List DBTreeEntry, (∀ j ∈ xs, NulFree j) → (∀ j ∈ ys, NulFree j) →
      treeBytes lib xs = treeBytes lib ys →
      xs.length = ys.length ∧ xs.map (recordOf lib) = ys.map (recordOf lib)) ∧
    (∀ (pre post : List DBTreeEntry) (j j' : DBTreeEntry),
      (∀ x ∈ pre ++ j :: post, NulFree x) → NulFree j' → recordOf lib j ≠ recordOf lib j' →
      treeBytes lib (pre ++ j :: post) ≠ treeBytes lib (pre ++ j' :: post)) ∧
    (∀ (pre mid post : List DBTreeEntry) (a b : DBTreeEntry),
      (∀ x ∈ pre ++ a :: (mid ++ b :: post), NulFree x) → recordOf lib a ≠ recordOf lib b →
      treeBytes lib (pre ++ a :: (mid ++ b :: post))
        ≠ treeBytes lib (pre ++ b :: (mid ++ a :: post))) := by
  refine ⟨?_, ?_, ?_, ?_⟩
  · intro entries
    rw [CreateDBTreeID, treeBytes_join]
  · intro xs ys hx hy h
    have hrec := treeBytes_records lib hfmt xs ys hx hy h
    refine ⟨?_, hrec⟩
    have := congrArg List.length hrec
    simpa using this
  · intro pre post j j' hall hj' hne h
    have hall' : ∀ x ∈ pre ++ j' :: post, NulFree x := by
      intro x hx
      rcases List.mem_append.mp hx with h1 | h1
      · exact hall x (List.mem_append_left _ h1)
      · rcases List.mem_cons.mp h1 with h2 | h2
        · rw [h2]; exact hj'
        · exact hall x (List.mem_append_right _ (List.mem_cons_of_mem _ h2))
    have hrec := treeBytes_records lib hfmt _ _ hall hall' h
    simp only [List.map_append, List.map_cons, List.append_cancel_left_eq,
      List.cons.injEq] at hrec
    exact hne hrec.1
  · intro pre mid post a b hall hne h
    have hall' : ∀ x ∈ pre ++ b :: (mid ++ a :: post), NulFree x := by
      intro x hx
      apply hall
      simp only [List.mem_append, List.mem_cons] at hx ⊢
      tauto
    have hrec := treeBytes_records lib hfmt _ _ hall hall' h
    simp only [List.map_append, List.map_cons, List.append_cancel_left_eq,
      List.cons.injEq] at hrec
    exact hne hrec.1

/-- Witness of C29 with Go's time layout: a change of the size of the one entry of a tree
changes the bytes. -/
theorem treeBytes_injective_witness :
    (∀ t, nulCount ((goLib id).formatRFC3339 t) = 0) ∧
    treeBytes (goLib id) [exampleEntry] ≠ treeBytes (goLib id) [{ exampleEntry with Size := 43 }] :=
  ⟨formatRFC3339_nulCount,
    (treeBytes_injective (goLib id) formatRFC3339_nulCount).2.2.1 [] [] exampleEntry
      { exampleEntry with Size := 43 }
      (by
        intro x hx
        simp only [List.nil_append, List.mem_singleton] at hx
        subst hx
        exact ⟨by decide, by decide, by decide, by decide⟩)
      ⟨by decide, by decide, by decide, by decide⟩ (by decide)⟩

/-! ### Fork registry -/

theorem filter_unique {α β : Type} (f : α → β) (p : α → Bool) :
    ∀ (l : List α), (l.map f).Nodup → ∀ x ∈ l, p x = true →
      (∀ y ∈ l, p y = true → f y = f x) → l.filter p = [x] := by
  intro l
  induction l with
  | nil => intro _ x hx; simp at hx
  | cons a l ih =>
    intro hnd x hx hpx hall
    simp only [List.map_cons, List.nodup_cons, List.mem_map, not_exists, not_and] at hnd
    by_cases hpa : p a = true
    · have hax : a = x := by
        rcases List.mem_cons.mp hx with h | h
        · exact h.symm
        · exact absurd (hall a (List.mem_cons_self _ _) hpa).symm (hnd.1 x h)
      subst hax
      have hnil : l.filter p = [] := by
        rw [List.filter_eq_nil_iff]
        intro y hy hpy
        exact hnd.1 y hy (hall y (List.mem_cons_of_mem _ hy) hpy)
      simp [List.filter_cons, hpa, hnil]
    · have hxl : x ∈ l := by
        rcases List.mem_cons.mp hx with h | h
        · rw [h] at hpx; exact absurd hpx hpa
        · exact h
      simp only [List.filter_cons, hpa, Bool.false_eq_true, if_false]
      exact ih hnd.2 x hxl hpx (fun y hy => hall y (List.mem_cons_of_mem _ hy))

theorem find?_unique {α β : Type} [DecidableEq β] (f : α → β) :
    ∀ (l : List α), (l.map f).Nodup → ∀ x ∈ l,
      l.find? (fun y => decide (f y = f x)) = some x := by
  intro l
  induction l with
  | nil => intro _ x hx; simp at hx
  | cons a l ih =>
    intro hnd x hx
    simp only [List.map_cons, List.nodup_cons, List.mem_map, not_exists, not_and] at hnd
    rcases List.mem_cons.mp hx with h | h
    · subst h; simp
    · have hne : ¬ f a = f x := fun hEq => hnd.1 x h hEq.symm
      simp only [List.find?_cons, hne, decide_False]
      exact ih hnd.2 x h

theorem bumpForks_db_id (root : Int) (r : DBRow) : (bumpForks root r).db_id = r.db_id := by
  unfold bumpForks; split <;> rfl

theorem bumpForks_rowKey (root : Int) (r : DBRow) : rowKey (bumpForks root r) = rowKey r := by
  unfold bumpForks; split <;> rfl

theorem bumpForks_root (root : Int) (r : DBRow) :
    (bumpForks root r).root_database = r.root_database ∧
      (bumpForks root r).forked_from = r.forked_from := by
  unfold bumpForks; split <;> exact ⟨rfl, rfl⟩

theorem bumpForks_other {root : Int} {r : DBRow} (h : r.db_id ≠ root) : bumpForks root r = r := by
  simp [bumpForks, h]

theorem rowIs_users {st st1 : Store} (h : st1.users = st.users) (a b c : String) (r : DBRow) :
    rowIs st1 a b c r = rowIs st a b c r := by
  simp [rowIs, userID, h]

theorem rowIs_iff {st : Store} {a b c : String} {r : DBRow} :
    rowIs st a b c r = true ↔ some r.user_id = userID st a ∧ r.folder = b ∧ r.db_name = c := by
  simp [rowIs]

/-- The copy of the main database entry when the source is the one record `S`. -/
theorem forkInsert_of_source {st : Store} {srcOwner dbFolder dbName : String}
    (dstOwner : String) {S : DBRow} (hwf : StoreOK st) (hS : S ∈ st.sqlite_databases)
    (hSk : rowIs st srcOwner dbFolder dbName S = true) :
    (userID st dstOwner = none →
      forkInsert st srcOwner dbFolder dbName dstOwner
        = (⟨st.users, st.sqlite_databases, st.db_id_seq + (0 : Nat)⟩, .ok 0)) ∧
    (∀ did, userID st dstOwner = some did →
      ((did, dbFolder, dbName) ∉ st.sqlite_databases.map rowKey →
        forkInsert st srcOwner dbFolder dbName dstOwner
          = (⟨st.users, st.sqlite_databases ++ [forkedRow S st.db_id_seq did],
              st.db_id_seq + (1 : Nat)⟩, .ok 1)) ∧
      ((did, dbFolder, dbName) ∈ st.sqlite_databases.map rowKey →
        ∃ st1 msg, forkInsert st srcOwner dbFolder dbName dstOwner = (st1, .error msg))) := by
  have hSk' := rowIs_iff.mp hSk
  have hsel : st.sqlite_databases.filter (rowIs st srcOwner dbFolder dbName) = [S] := by
    apply filter_unique rowKey _ _ hwf.keys_nodup S hS hSk
    intro y hy hpy
    have hy' := rowIs_iff.mp hpy
    have hu : y.user_id = S.user_id := by
      have := hy'.1.trans hSk'.1.symm
      simpa using this
    simp [rowKey, hu, hy'.2.1, hy'.2.2, hSk'.2.1, hSk'.2.2]
  have hfresh : st.db_id_seq ∉ st.sqlite_databases.map (fun r => r.db_id) := by
    intro hm
    obtain ⟨r, hr, hrid⟩ := List.mem_map.mp hm
    have := hwf.ids_lt r hr
    omega
  have hkey : ∀ did, rowKey (forkedRow S st.db_id_seq did) = (did, dbFolder, dbName) := by
    intro did
    simp [rowKey, forkedRow, hSk'.2.1, hSk'.2.2]
  refine ⟨?_, ?_⟩
  · intro hdu
    simp [forkInsert, hsel, hdu]
  · intro did hdu
    constructor
    · intro hfree
      have hfree' : rowKey (forkedRow S st.db_id_seq did) ∉ st.sqlite_databases.map rowKey := by
        rw [hkey]; exact hfree
      have hid : (forkedRow S st.db_id_seq did).db_id = st.db_id_seq := rfl
      unfold forkInsert
      simp only [hsel, hdu, copyRows, List.mem_singleton, forall_eq, hid, hfresh,
        not_false_eq_true, hfree', and_self, List.map_cons, List.map_nil, List.nodup_cons,
        List.not_mem_nil, List.nodup_nil, if_true, List.length_singleton]
    · intro hused
      have hused' : rowKey (forkedRow S st.db_id_seq did) ∈ st.sqlite_databases.map rowKey := by
        rw [hkey]; exact hused
      unfold forkInsert
      simp only [hsel, hdu, copyRows, List.mem_singleton, forall_eq, hused', not_true_eq_false,
        and_false, false_and, if_false]
      exact ⟨_, _, rfl⟩

/-- The increment of the fork count when the record named by the call is the one row `x`
and its root is the row `R`. -/
theorem forkUpdate_of_row {st : Store} {dstOwner dbFolder dbName : String} {x R : DBRow}
    (hnd : (st.sqlite_databases.map (fun r => r.db_id)).Nodup)
    (hsel : st.sqlite_databases.filter (rowIs st dstOwner dbFolder dbName) = [x])
    (hR : R ∈ st.sqlite_databases) (hRid : R.db_id = x.root_database) :
    forkUpdate st dstOwner dbFolder dbName
      = (⟨st.users, st.sqlite_databases.map (bumpForks x.root_database), st.db_id_seq⟩,
          .ok (R.forks + 1)) := by
  have hfilt : (st.sqlite_databases.map (bumpForks x.root_database)).filter
      (fun r => decide (r.db_id = x.root_database)) = [bumpForks x.root_database R] := by
    apply filter_unique (fun r : DBRow => r.db_id) _ _ _ _ (List.mem_map_of_mem _ hR)
    · simp [bumpForks_db_id, hRid]
    · intro y _ hpy
      simp only [decide_eq_true_eq] at hpy
      rw [hpy, bumpForks_db_id, hRid]
    · have : (st.sqlite_databases.map (bumpForks x.root_database)).map (fun r => r.db_id)
          = st.sqlite_databases.map (fun r => r.db_id) := by
        simp [List.map_map, Function.comp_def, bumpForks_db_id]
      rw [this]
      exact hnd
  have hforks : (bumpForks x.root_database R).forks = R.forks + 1 := by
    simp [bumpForks, hRid]
  unfold forkUpdate
  simp only [hsel, List.map_cons, List.map_nil, scalar, hfilt, hforks]

theorem forkUpdate_of_none {st : Store} {dstOwner dbFolder dbName : String}
    (hsel : st.sqlite_databases.filter (rowIs st dstOwner dbFolder dbName) = []) :
    forkUpdate st dstOwner dbFolder dbName = (st, .error "no rows in result set") := by
  unfold forkUpdate
  simp only [hsel, List.map_nil, scalar]

/-- The call `ForkDatabase` on the record `S`, for a new owner who has no database of that
folder and name: the store after it and the fork count returned. -/
theorem ForkDatabase_of_free {st : Store} {srcOwner dbFolder dbName dstOwner : String}
    {S R : DBRow} {did : Int} (hwf : StoreOK st) (hS : S ∈ st.sqlite_databases)
    (hSk : rowIs st srcOwner dbFolder dbName S = true)
    (hdu : userID st dstOwner = some did)
    (hk : (did, dbFolder, dbName) ∉ st.sqlite_databases.map rowKey)
    (hR : R ∈ st.sqlite_databases) (hRid : R.db_id = S.root_database) :
    ForkDatabase st srcOwner dbFolder dbName dstOwner
      = (⟨st.users, st.sqlite_databases.map (bumpForks S.root_database)
            ++ [forkedRow S st.db_id_seq did], st.db_id_seq + 1⟩, .ok (R.forks + 1)) := by
  have hSk' := rowIs_iff.mp hSk
  have hRlt := hwf.ids_lt R hR
  unfold ForkDatabase
  rw [((forkInsert_of_source dstOwner hwf hS hSk).2 did hdu).1 hk]
  simp only
  have hnewne : ¬ st.db_id_seq = S.root_database := by rw [← hRid]; omega
  have hu1 : userID ⟨st.users, st.sqlite_databases ++ [forkedRow S st.db_id_seq did],
      st.db_id_seq + ((1 : Nat) : Int)⟩ dstOwner = some did := hdu
  have hsel : List.filter
      (rowIs ⟨st.users, st.sqlite_databases ++ [forkedRow S st.db_id_seq did],
        st.db_id_seq + ((1 : Nat) : Int)⟩ dstOwner dbFolder dbName)
      (st.sqlite_databases ++ [forkedRow S st.db_id_seq did])
      = [forkedRow S st.db_id_seq did] := by
    have hold : List.filter
        (rowIs ⟨st.users, st.sqlite_databases ++ [forkedRow S st.db_id_seq did],
          st.db_id_seq + ((1 : Nat) : Int)⟩ dstOwner dbFolder dbName)
        st.sqlite_databases = [] := by
      rw [List.filter_eq_nil_iff]
      intro y hy hpy
      rw [rowIs_iff, hu1] at hpy
      apply hk
      refine List.mem_map.mpr ⟨y, hy, ?_⟩
      have hu : y.user_id = did := by simpa using hpy.1
      simp [rowKey, hu, hpy.2.1, hpy.2.2]
    have hnew : rowIs ⟨st.users, st.sqlite_databases ++ [forkedRow S st.db_id_seq did],
        st.db_id_seq + ((1 : Nat) : Int)⟩ dstOwner dbFolder dbName
        (forkedRow S st.db_id_seq did) = true := by
      rw [rowIs_iff, hu1]
      exact ⟨rfl, hSk'.2.1, hSk'.2.2⟩
    rw [List.filter_append, hold, List.filter_cons, hnew]
    rfl
  have hnd1 : ((st.sqlite_databases ++ [forkedRow S st.db_id_seq did]).map
      (fun r => r.db_id)).Nodup := by
    simp only [List.map_append, List.map_cons, List.map_nil]
    refine List.Nodup.append hwf.ids_nodup (by simp) ?_
    intro a ha hb
    simp only [List.mem_singleton] at hb
    obtain ⟨r, hr, hrid⟩ := List.mem_map.mp ha
    have := hwf.ids_lt r hr
    have hfid : (forkedRow S st.db_id_seq did).db_id = st.db_id_seq := rfl
    omega
  have hroot : (forkedRow S st.db_id_seq did).root_database = S.root_database := rfl
  rw [forkUpdate_of_row hnd1 hsel (List.mem_append_left _ hR) (by rw [hroot, hRid])]
  have hb : bumpForks S.root_database (forkedRow S st.db_id_seq did)
      = forkedRow S st.db_id_seq did := bumpForks_other hnewne
  simp [hroot, hb]

/-- What a successful `ForkDatabase` of the record `S` has done to the store. -/
theorem ForkDatabase_ok_inv {st st' : Store} {srcOwner dbFolder dbName dstOwner : String}
    {n : Int} {S : DBRow} (hwf : StoreOK st) (hS : S ∈ st.sqlite_databases)
    (hSk : rowIs st srcOwner dbFolder dbName S = true)
    (hok : ForkDatabase st srcOwner dbFolder dbName dstOwner = (st', .ok n)) :
    ∃ did R, userID st dstOwner = some did ∧
      R ∈ st.sqlite_databases ∧ R.db_id = S.root_database ∧ n = R.forks + 1 ∧
      (did, dbFolder, dbName) ∉ st.sqlite_databases.map rowKey ∧
      st'.users = st.users ∧ st'.db_id_seq = st.db_id_seq + 1 ∧
      st'.sqlite_databases = st.sqlite_databases.map (bumpForks S.root_database)
        ++ [forkedRow S st.db_id_seq did] := by
  obtain ⟨hins0, hins1⟩ := forkInsert_of_source dstOwner hwf hS hSk
  obtain ⟨R, hR, hRid⟩ := hwf.roots_exist S hS
  cases hdu : userID st dstOwner with
  | none =>
    exfalso
    unfold ForkDatabase at hok
    rw [hins0 hdu] at hok
    simp only at hok
    have hnil : List.filter
        (rowIs ⟨st.users, st.sqlite_databases, st.db_id_seq + ((0 : Nat) : Int)⟩
          dstOwner dbFolder dbName) st.sqlite_databases = [] := by
      rw [List.filter_eq_nil_iff]
      intro y _
      have hu1 : userID ⟨st.users, st.sqlite_databases, st.db_id_seq + ((0 : Nat) : Int)⟩
          dstOwner = none := hdu
      rw [rowIs_iff, hu1]
      simp
    rw [forkUpdate_of_none hnil] at hok
    simp at hok
  | some did =>
    by_cases hk : (did, dbFolder, dbName) ∈ st.sqlite_databases.map rowKey
    · exfalso
      obtain ⟨st1, msg, herr⟩ := (hins1 did hdu).2 hk
      unfold ForkDatabase at hok
      rw [herr] at hok
      simp at hok
    · rw [ForkDatabase_of_free hwf hS hSk hdu hk hR hRid] at hok
      simp only [Prod.mk.injEq, Outcome.ok.injEq] at hok
      obtain ⟨hst, hn⟩ := hok
      subst hst
      exact ⟨did, R, rfl, hR, hRid, hn.symm, hk, rfl, rfl, rfl⟩

theorem exampleStore_ok : StoreOK exampleStore := by
  refine ⟨by decide, by decide, by decide, by decide⟩

/-- C23: after a successful `ForkDatabase` of the record `S` to the owner `dstOwner` there
is one more record; the new record has a new `db_id`, belongs to `dstOwner`, has the folder
and name of `S`, its `forked_from` is the `db_id` of `S` and its `root_database` is that of
`S` (the `db_id` of `S` itself when `S` is not a fork).  Every earlier record keeps its
`db_id`, owner, name, `forked_from` and `root_database`, and the root pointers of the fork
forest stay right.  The call does succeed when `dstOwner` is a user without a database of
that folder and name. -/
theorem ForkDatabase_record (st st' : Store) (srcOwner dbFolder dbName dstOwner : String)
    (n : Int) (S : DBRow) (hwf : StoreOK st) (hS : S ∈ st.sqlite_databases)
    (hSk : rowIs st srcOwner dbFolder dbName S = true)
    (hok : ForkDatabase st srcOwner dbFolder dbName dstOwner = (st', .ok n)) :
    (∃ did new, userID st dstOwner = some did ∧ new ∈ st'.sqlite_databases ∧
      new.db_id ∉ st.sqlite_databases.map (fun r => r.db_id) ∧
      new.user_id = did ∧ new.folder = dbFolder ∧ new.db_name = dbName ∧
      new.forked_from = some S.db_id ∧ new.root_database = S.root_database ∧
      (S.forked_from = none → RootPointersOK st → new.root_database = S.db_id) ∧
      st'.sqlite_databases.length = st.sqlite_databases.length + 1) ∧
    (∀ r ∈ st.sqlite_databases, ∃ r' ∈ st'.sqlite_databases, r'.db_id = r.db_id ∧
      rowKey r' = rowKey r ∧ r'.root_database = r.root_database ∧
      r'.forked_from = r.forked_from) ∧
    (RootPointersOK st → RootPointersOK st') ∧
    (∀ did, userID st dstOwner = some did →
      (did, dbFolder, dbName) ∉ st.sqlite_databases.map rowKey →
      ∃ st2 n2, ForkDatabase st srcOwner dbFolder dbName dstOwner = (st2, .ok n2)) := by
  obtain ⟨did, R, hdu, hR, hRid, hn, hk, _, _, hrows⟩ := ForkDatabase_ok_inv hwf hS hSk hok
  have hSk' := rowIs_iff.mp hSk
  have hold : ∀ r ∈ st.sqlite_databases, bumpForks S.root_database r ∈ st'.sqlite_databases := by
    intro r hr
    rw [hrows]
    exact List.mem_append_left _ (List.mem_map_of_mem _ hr)
  refine ⟨⟨did, forkedRow S st.db_id_seq did, hdu, by rw [hrows]; simp, ?_, rfl, hSk'.2.1,
    hSk'.2.2, rfl, rfl, ?_, by rw [hrows]; simp⟩, ?_, ?_, ?_⟩
  · intro hm
    obtain ⟨r, hr, hrid⟩ := List.mem_map.mp hm
    have := hwf.ids_lt r hr
    have hfid : (forkedRow S st.db_id_seq did).db_id = st.db_id_seq := rfl
    omega
  · intro hnone hrp
    have := hrp S hS
    rw [hnone] at this
    exact this
  · intro r hr
    exact ⟨_, hold r hr, bumpForks_db_id _ _, bumpForks_rowKey _ _, (bumpForks_root _ _).1,
      (bumpForks_root _ _).2⟩
  · intro hrp r' hr'
    rw [hrows] at hr'
    rcases List.mem_append.mp hr' with h | h
    · obtain ⟨r, hr, rfl⟩ := List.mem_map.mp h
      have hr0 := hrp r hr
      rw [(bumpForks_root _ _).2, (bumpForks_root _ _).1, bumpForks_db_id]
      cases hff : r.forked_from with
      | none => rw [hff] at hr0; exact hr0
      | some p =>
        rw [hff] at hr0
        obtain ⟨q, hq, hqid, hqroot⟩ := hr0
        exact ⟨_, hold q hq, by rw [bumpForks_db_id, hqid],
          by rw [(bumpForks_root _ _).1, hqroot]⟩
    · simp only [List.mem_singleton] at h
      subst h
      exact ⟨_, hold S hS, bumpForks_db_id _ _, (bumpForks_root _ _).1⟩
  · intro did2 hdu2 hk2
    exact ⟨_, _, ForkDatabase_of_free hwf hS hSk hdu2 hk2 hR hRid⟩

/-- Witness of C23: alice forks the root database "db" of bob. -/
theorem ForkDatabase_record_witness :
    ∃ st' n, ForkDatabase exampleStore "bob" "/" "db" "alice" = (st', .ok n) ∧
      ∃ new ∈ st'.sqlite_databases, new.db_id = 2 ∧ new.user_id = 11 ∧
        new.forked_from = some 1 ∧ new.root_database = 1 := by
  refine ⟨_, _, rfl, ?_⟩
  obtain ⟨⟨did, new, hdu, hnew, _, hu, _, _, hff, hroot, _, _⟩, _⟩ :=
    ForkDatabase_record exampleStore _ "bob" "/" "db" "alice" _ ⟨1, 10, "/", "db", true, 0, 1, none⟩
      exampleStore_ok (by decide) (by decide) rfl
  exact ⟨⟨2, 11, "/", "db", true, 0, 1, some 1⟩, by decide, rfl, rfl, rfl, rfl⟩

theorem forksOf_of_mem {st : Store} (hnd : (st.sqlite_databases.map (fun r => r.db_id)).Nodup)
    {r : DBRow} (hr : r ∈ st.sqlite_databases) : forksOf st r.db_id = some r.forks := by
  unfold forksOf
  rw [find?_unique (fun x : DBRow => x.db_id) _ hnd r hr]
  rfl

/-- C24: a successful `ForkDatabase` of the record `S` raises the fork count of the root
database of `S` by exactly 1 and returns the new count; every other record that was there
before is left as it was, with its fork count. -/
theorem ForkDatabase_counter (st st' : Store) (srcOwner dbFolder dbName dstOwner : String)
    (n : Int) (S : DBRow) (hwf : StoreOK st) (hS : S ∈ st.sqlite_databases)
    (hSk : rowIs st srcOwner dbFolder dbName S = true)
    (hok : ForkDatabase st srcOwner dbFolder dbName dstOwner = (st', .ok n)) :
    ∃ R ∈ st.sqlite_databases, R.db_id = S.root_database ∧
      forksOf st S.root_database = some R.forks ∧
      forksOf st' S.root_database = some (R.forks + 1) ∧
      n = R.forks + 1 ∧
      ∀ r ∈ st.sqlite_databases, r.db_id ≠ S.root_database →
        r ∈ st'.sqlite_databases ∧ forksOf st' r.db_id = forksOf st r.db_id := by
  obtain ⟨did, R, hdu, hR, hRid, hn, hk, _, _, hrows⟩ := ForkDatabase_ok_inv hwf hS hSk hok
  have hfresh : ∀ r ∈ st.sqlite_databases, r.db_id ≠ st.db_id_seq := by
    intro r hr
    have := hwf.ids_lt r hr
    omega
  have hnd' : (st'.sqlite_databases.map (fun r => r.db_id)).Nodup := by
    rw [hrows]
    simp only [List.map_append, List.map_map, Function.comp_def, bumpForks_db_id, List.map_cons,
      List.map_nil]
    refine List.Nodup.append hwf.ids_nodup (by simp) ?_
    intro a ha hb
    simp only [List.mem_singleton] at hb
    obtain ⟨r, hr, hrid⟩ := List.mem_map.mp ha
    have hfid : (forkedRow S st.db_id_seq did).db_id = st.db_id_seq := rfl
    exact hfresh r hr (by rw [hrid, hb, hfid])
  have hmem : ∀ r ∈ st.sqlite_databases, bumpForks S.root_database r ∈ st'.sqlite_databases := by
    intro r hr
    rw [hrows]
    exact List.mem_append_left _ (List.mem_map_of_mem _ hr)
  refine ⟨R, hR, hRid, ?_, ?_, hn, ?_⟩
  · rw [← hRid]; exact forksOf_of_mem hwf.ids_nodup hR
  · have := forksOf_of_mem hnd' (hmem R hR)
    rw [bumpForks_db_id, hRid] at this
    rw [this]
    simp [bumpForks, hRid]
  · intro r hr hne
    have hb : bumpForks S.root_database r = r := bumpForks_other hne
    have hr' : r ∈ st'.sqlite_databases := by
      have := hmem r hr
      rw [hb] at this
      exact this
    exact ⟨hr', by rw [forksOf_of_mem hnd' hr', forksOf_of_mem hwf.ids_nodup hr]⟩

/-- Witness of C24: the fork by alice of the root database of bob raises its fork count
from 0 to 1 and returns 1. -/
theorem ForkDatabase_counter_witness :
    (ForkDatabase exampleStore "bob" "/" "db" "alice").2 = .ok 1 ∧
      forksOf exampleStore 1 = some 0 ∧
      forksOf (ForkDatabase exampleStore "bob" "/" "db" "alice").1 1 = some 1 := by
  obtain ⟨R, _, _, _, _, _, _⟩ :=
    ForkDatabase_counter exampleStore _ "bob" "/" "db" "alice" _
      ⟨1, 10, "/", "db", true, 0, 1, none⟩ exampleStore_ok (by decide) (by decide) rfl
  exact ⟨rfl, rfl, rfl⟩

/-! ### Concurrent forks -/

theorem copyRows_mem {d : Int} {n : DBRow} :
    ∀ {l : List DBRow} {id : Int}, n ∈ copyRows d id l → ∃ r ∈ l, ∃ k, n = forkedRow r k d := by
  intro l
  induction l with
  | nil => intro id h; simp [copyRows] at h
  | cons a l ih =>
    intro id h
    simp only [copyRows, List.mem_cons] at h
    rcases h with h | h
    · exact ⟨a, List.mem_cons_self _ _, id, h⟩
    · obtain ⟨r, hr, k, hk⟩ := ih h
      exact ⟨r, List.mem_cons_of_mem _ hr, k, hk⟩

/-- The first statement adds rows only, each the copy of a row that has the folder and
name asked for. -/
theorem forkInsert_rows (st : Store) (a b c d : String) :
    ∃ newRows, (forkInsert st a b c d).1.sqlite_databases = st.sqlite_databases ++ newRows ∧
      ∀ n ∈ newRows, ∃ r ∈ st.sqlite_databases, r.folder = b ∧ r.db_name = c ∧
        n.folder = r.folder ∧ n.db_name = r.db_name ∧ n.root_database = r.root_database := by
  unfold forkInsert
  simp only
  split
  · refine ⟨_, rfl, ?_⟩
    intro n hn
    cases hdu : userID st d with
    | none => rw [hdu] at hn; simp at hn
    | some did =>
      rw [hdu] at hn
      obtain ⟨r, hr, k, hk⟩ := copyRows_mem hn
      have hr' := List.mem_filter.mp hr
      have hkey := rowIs_iff.mp hr'.2
      subst hk
      exact ⟨r, hr'.1, hkey.2.1, hkey.2.2, rfl, rfl, rfl⟩
  · exact ⟨[], by simp, by simp⟩

/-- The second statement either fails and changes nothing, or adds 1 to the fork count of
the rows whose `db_id` is the `root_database` of a row with the owner, folder and name
asked for, and returns a count. -/
theorem forkUpdate_cases {st st1 : Store} {d b c : String} {res : Outcome Int}
    (h : forkUpdate st d b c = (st1, res)) :
    (st1 = st ∧ ∀ f, res ≠ .ok f) ∨
    (∃ x ∈ st.sqlite_databases, x.folder = b ∧ x.db_name = c ∧
      st1.sqlite_databases = st.sqlite_databases.map (bumpForks x.root_database) ∧
      ∃ f, res = .ok f) := by
  unfold forkUpdate at h
  cases hsel : st.sqlite_databases.filter (rowIs st d b c) with
  | nil =>
    simp only [hsel, List.map_nil, scalar, Prod.mk.injEq] at h
    exact Or.inl ⟨h.1.symm, by intro f hf; rw [← h.2] at hf; cases hf⟩
  | cons x rest =>
    cases rest with
    | nil =>
      have hx : x ∈ st.sqlite_databases.filter (rowIs st d b c) := by rw [hsel]; simp
      have hx' := List.mem_filter.mp hx
      have hkey := rowIs_iff.mp hx'.2
      simp only [hsel, List.map_cons, List.map_nil, scalar] at h
      split at h
      · simp only [Prod.mk.injEq] at h
        exact Or.inl ⟨h.1.symm, by intro f hf; rw [← h.2] at hf; cases hf⟩
      · rename_i newForks _ _
        simp only [Prod.mk.injEq] at h
        refine Or.inr ⟨x, hx'.1, hkey.2.1, hkey.2.2, by rw [← h.1], newForks, h.2.symm⟩
    | cons y rest =>
      simp only [hsel, List.map_cons, scalar, Prod.mk.injEq] at h
      exact Or.inl ⟨h.1.symm, by intro f hf; rw [← h.2] at hf; cases hf⟩

theorem forksOf_of_append {st st1 : Store} {new : List DBRow} {id f : Int}
    (hrows : st1.sqlite_databases = st.sqlite_databases ++ new)
    (h : forksOf st id = some f) : forksOf st1 id = some f := by
  unfold forksOf at h ⊢
  rw [hrows, List.find?_append]
  cases hfind : st.sqlite_databases.find? (fun r => decide (r.db_id = id)) with
  | none => rw [hfind] at h; simp at h
  | some r => rw [hfind] at h; simpa using h

theorem forksOf_of_bump {st st1 : Store} {root f : Int}
    (hrows : st1.sqlite_databases = st.sqlite_databases.map (bumpForks root))
    (h : forksOf st root = some f) : forksOf st1 root = some (f + 1) := by
  unfold forksOf at h ⊢
  rw [hrows, List.find?_map]
  have hp : ((fun r : DBRow => decide (r.db_id = root)) ∘ bumpForks root)
      = (fun r : DBRow => decide (r.db_id = root)) := by
    funext r
    simp [bumpForks_db_id]
  rw [hp]
  cases hfind : st.sqlite_databases.find? (fun r => decide (r.db_id = root)) with
  | none => rw [hfind] at h; simp at h
  | some r =>
    rw [hfind] at h
    have hid : r.db_id = root := by
      have := List.find?_some hfind
      simpa using this
    simp only [Option.map_some', Option.some.injEq] at h ⊢
    simp [bumpForks, hid, h]

theorem countP_set_of_false {α : Type} (p : α → Bool) :
    ∀ (l : List α) (i : Nat) (old new : α), l[i]? = some old → p old = false →
      (l.set i new).countP p = l.countP p + (if p new = true then 1 else 0) := by
  intro l
  induction l with
  | nil => intro i old new h; simp at h
  | cons a l ih =>
    intro i old new h hold
    cases i with
    | zero =>
      simp only [List.getElem?_cons_zero, Option.some.injEq] at h
      subst h
      simp only [List.set_cons_zero, List.countP_cons, hold, Bool.false_eq_true, if_false,
        Nat.add_zero]
    | succ i =>
      simp only [List.getElem?_cons_succ] at h
      simp only [List.set_cons_succ, List.countP_cons, ih i old new h hold]
      omega

/-- Every step of a concurrent run keeps the invariant. -/
theorem stepCall_inv {cs : List ForkCall} {root f0 : Int} {w : World} (i : Nat)
    (h : ConcOK cs root f0 w) : ConcOK cs root f0 (stepCall cs w i) := by
  unfold stepCall
  cases hc : cs[i]? with
  | none => simpa using h
  | some c =>
    have hcmem : c ∈ cs := List.mem_iff_getElem?.mpr ⟨i, hc⟩
    cases hs : w.calls[i]? with
    | none => simpa using h
    | some s =>
      cases s with
      | returned res => simpa using h
      | start =>
        simp only
        obtain ⟨newRows, hrows, hnew⟩ :=
          forkInsert_rows w.store c.srcOwner c.dbFolder c.dbName c.dstOwner
        have hroot1 : ∀ r ∈ (forkInsert w.store c.srcOwner c.dbFolder c.dbName
            c.dstOwner).1.sqlite_databases,
            (∃ c ∈ cs, r.folder = c.dbFolder ∧ r.db_name = c.dbName) → r.root_database = root := by
          intro r hr hex
          rw [hrows] at hr
          rcases List.mem_append.mp hr with h1 | h1
          · exact h.on_root r h1 hex
          · obtain ⟨r0, hr0, hf, hn, _, _, hrt⟩ := hnew r h1
            rw [hrt]
            exact h.on_root r0 hr0 ⟨c, hcmem, hf, hn⟩
        have hcount1 := forksOf_of_append hrows h.count
        have hset : ∀ new : CallState, returnedOK new = false →
            (w.calls.set i new).countP returnedOK = w.calls.countP returnedOK := by
          intro new hn
          rw [countP_set_of_false returnedOK w.calls i _ new hs rfl, hn]
          simp
        cases hins : forkInsert w.store c.srcOwner c.dbFolder c.dbName c.dstOwner with
        | mk st1 res =>
          rw [hins] at hroot1 hcount1
          cases res with
          | ok k =>
            exact ⟨hroot1, by simpa [hset CallState.inserted rfl] using hcount1,
              by simp [h.len]⟩
          | error msg =>
            exact ⟨hroot1,
              by simpa [hset (CallState.returned (Outcome.error msg)) rfl] using hcount1,
              by simp [h.len]⟩
          | panic =>
            exact ⟨hroot1, by simpa [hset (CallState.returned Outcome.panic) rfl] using hcount1,
              by simp [h.len]⟩
          | diverge =>
            exact ⟨hroot1,
              by simpa [hset (CallState.returned Outcome.diverge) rfl] using hcount1,
              by simp [h.len]⟩
      | inserted =>
        simp only
        cases hupd : forkUpdate w.store c.dstOwner c.dbFolder c.dbName with
        | mk st1 res =>
          simp only
          rcases forkUpdate_cases hupd with ⟨hst, hres⟩ | ⟨x, hx, hxf, hxn, hrows, f, hres⟩
          · subst hst
            have hno : returnedOK (.returned res) = false := by
              cases res with
              | ok f => exact absurd rfl (hres f)
              | error msg => rfl
              | panic => rfl
              | diverge => rfl
            refine ⟨h.on_root, ?_, by simp [h.len]⟩
            rw [countP_set_of_false returnedOK w.calls i _ _ hs rfl, hno]
            simpa using h.count
          · have hxroot : x.root_database = root :=
              h.on_root x hx ⟨c, hcmem, hxf, hxn⟩
            rw [hxroot] at hrows
            subst hres
            refine ⟨?_, ?_, by simp [h.len]⟩
            · intro r hr hex
              rw [hrows] at hr
              obtain ⟨r0, hr0, rfl⟩ := List.mem_map.mp hr
              rw [(bumpForks_root _ _).1]
              apply h.on_root r0 hr0
              obtain ⟨c', hc', h1, h2⟩ := hex
              refine ⟨c', hc', ?_, ?_⟩
              · rw [← h1]; unfold bumpForks; split <;> rfl
              · rw [← h2]; unfold bumpForks; split <;> rfl
            · rw [countP_set_of_false returnedOK w.calls i _ _ hs rfl]
              have := forksOf_of_bump hrows h.count
              simp only [returnedOK, if_true, Nat.cast_add, Nat.cast_one]
              rw [this]
              congr 1
              omega

theorem runConcurrent_inv {cs : List ForkCall} {root f0 : Int} :
    ∀ (schedule : List Nat) (w : World), ConcOK cs root f0 w →
      ConcOK cs root f0 (schedule.foldl (stepCall cs) w) := by
  intro schedule
  induction schedule with
  | nil => intro w h; exact h
  | cons i rest ih => intro w h; exact ih _ (stepCall_inv i h)

/-- One call run alone, statement after statement, is `ForkDatabase`. -/
theorem runConcurrent_single (c : ForkCall) (st : Store) :
    runConcurrent [c] st [0, 0]
      = ⟨(ForkDatabase st c.srcOwner c.dbFolder c.dbName c.dstOwner).1,
          [.returned (ForkDatabase st c.srcOwner c.dbFolder c.dbName c.dstOwner).2]⟩ := by
  unfold runConcurrent ForkDatabase
  simp only [List.map_cons, List.map_nil, List.foldl_cons, List.foldl_nil]
  cases hins : forkInsert st c.srcOwner c.dbFolder c.dbName c.dstOwner with
  | mk st1 res =>
    cases res with
    | ok k =>
      simp [stepCall, hins]
    | error msg => simp [stepCall, hins]
    | panic => simp [stepCall, hins]
    | diverge => simp [stepCall, hins]

/-- C25: calls of `ForkDatabase` on databases of the same root that run concurrently, in
any interleaving of their statements, raise the fork count of the root by exactly the
number of calls that have returned without error: by `N` when all `N` calls have.  No
increment is lost and none is made twice. -/
theorem ForkDatabase_concurrent (cs : List ForkCall) (st : Store) (schedule : List Nat)
    (root f0 : Int)
    (hroot : ∀ r ∈ st.sqlite_databases,
      (∃ c ∈ cs, r.folder = c.dbFolder ∧ r.db_name = c.dbName) → r.root_database = root)
    (hf0 : forksOf st root = some f0) :
    forksOf (runConcurrent cs st schedule).store root
      = some (f0 + (((runConcurrent cs st schedule).calls.countP returnedOK : Nat) : Int)) ∧
    ((∀ s ∈ (runConcurrent cs st schedule).calls, returnedOK s = true) →
      forksOf (runConcurrent cs st schedule).store root = some (f0 + (cs.length : Int))) := by
  have hinit : ConcOK cs root f0 ⟨st, cs.map (fun _ => CallState.start)⟩ := by
    refine ⟨hroot, ?_, by simp⟩
    have hz : (cs.map (fun _ => CallState.start)).countP returnedOK = 0 := by
      rw [List.countP_eq_zero]
      intro s hs
      obtain ⟨_, _, rfl⟩ := List.mem_map.mp hs
      simp [returnedOK]
    simp only [hz, Nat.cast_zero, add_zero]
    exact hf0
  have hinv := runConcurrent_inv schedule _ hinit
  refine ⟨hinv.count, ?_⟩
  intro hall
  have hcnt : (runConcurrent cs st schedule).calls.countP returnedOK = cs.length := by
    rw [← hinv.len]
    exact List.countP_eq_length.mpr hall
  have := hinv.count
  unfold runConcurrent at hcnt ⊢
  rw [hcnt] at this
  exact this

/-- Witness of C25: two concurrent forks of the fresh root of bob, with their statements
interleaved, leave its fork count at 2. -/
theorem ForkDatabase_concurrent_witness :
    (∀ s ∈ (runConcurrent exampleCalls exampleStore [0, 1, 1, 0]).calls, returnedOK s = true) ∧
      forksOf exampleStore 1 = some 0 ∧
      forksOf (runConcurrent exampleCalls exampleStore [0, 1, 1, 0]).store 1 = some (0 + 2) :=
  ⟨by decide, rfl,
    (ForkDatabase_concurrent exampleCalls exampleStore [0, 1, 1, 0] 1 0 (by decide) rfl).2
      (by decide)⟩

end DBHub
